import Mathlib

/-!
Windowed graphics engine (`graphics.c`, `graphics.h`, `region.h`, `font.h`, `img.c`,
`img.h`): a shallow embedding of the rendering code and the claims verified about it.

The C code targets the ESP32 (ILP32): `int` and `size_t` are 32 bits wide, `g_coord_t` is
`int16_t`, `g_size_t` is `uint16_t`.  Machine integers are embedded as `Int`; every narrowing
conversion of the source (an assignment to a `g_coord_t` / `g_size_t` variable, an argument
passed to a parameter of such a type, a `size_t` computation) is an explicit wrap
(`wrapI16`, `wrapU16`, `wrapU8`, `wrapSize`).  Arithmetic carried out in `int` is exact in the
model: on operands that come from 16-bit variables it cannot leave the 32-bit range (the one
`int` variable that can, the row counter of a refresh that never ends, is left unbounded).
Theorems assume of their inputs only that they are values of their C types (`isI16`, `isU16`,
`g_region_t.wf`), unless they say otherwise.

Pixel buffers are embedded as total maps from element index to colour, together with a
record (most recent first) of the indices that were stored to; an index outside the allocated
buffer stands for the memory cell the C store would hit.  The local array `nodes` of the
polygon fill is embedded the same way.

Vertex coordinates are `float` in the source.  They are embedded as `float_t`: a number, held
as an exact rational, or NaN.  A comparison with NaN is false and arithmetic with NaN gives
NaN, as in C; arithmetic on numbers is exact (no rounding), and there are no infinities.

Loops whose counter can wrap around, or that need not terminate, take a `fuel` argument and
return `none` when the fuel does not suffice; loops whose counter provably stays below a bound
of its own type are plain range folds.

Text: the font in use (`_g_font`) is an argument of the text functions.  `char` is unsigned on
the target, so characters are the integers 0 to 255; `uint8_t` locals are reduced with
`wrapU8`.  `g_draw_string` returns its locals at the end of the loop together with the record
of its `g_draw_char` calls, which is what the layout claims speak about.

Image decoder: the library calls (`open`, `read`, `lseek`, `close`, `malloc`, `free`) are
embedded as functions on a state that holds the bytes of the file, the offset of the
descriptor and the heap blocks in use.  A read delivers the bytes up to the end of the file; a
seek to a negative offset fails.  The outcome of `open` and of each `malloc`, and the stale
content of uninitialised memory, are inputs (`img_env_t`).  `sizeof(g_color_t)` is 2, and the
header struct is filled from eight bytes in declaration order, little-endian.
-/

namespace Graphics

/-! ## Machine integers -/

/-- Conversion to `int16_t` (`g_coord_t`): two's complement wrap-around. -/
def wrapI16 (n : Int) : Int := (n + 32768) % 65536 - 32768

/-- Conversion to `uint16_t` (`g_size_t`). -/
def wrapU16 (n : Int) : Int := n % 65536

/-- Conversion to `uint8_t`. -/
def wrapU8 (n : Int) : Int := n % 256

/-- Conversion to `size_t` (32 bits on the target). -/
def wrapSize (n : Int) : Int := n % 4294967296

/-- Values of type `g_coord_t` (`int16_t`). -/
def isI16 (n : Int) : Prop := -32768 ≤ n ∧ n ≤ 32767

/-- Values of type `g_size_t` (`uint16_t`). -/
def isU16 (n : Int) : Prop := 0 ≤ n ∧ n ≤ 65535

instance (n : Int) : Decidable (isI16 n) := by unfold isI16; infer_instance

instance (n : Int) : Decidable (isU16 n) := by unfold isU16; infer_instance

/-- Values of type `uint8_t`. -/
def isU8 (n : Int) : Prop := 0 ≤ n ∧ n ≤ 255

instance (n : Int) : Decidable (isU8 n) := by unfold isU8; infer_instance

/-- Type `g_color_t` (`color16_t`): a packed 16-bit colour, only ever copied. -/
abbrev g_color_t := Nat

/-- Type `esp_err_t`. -/
abbrev esp_err_t := Int

/-- Success code. -/
def ESP_OK : esp_err_t := 0

/-- Invalid-argument code (`0x102` in ESP-IDF). -/
def ESP_ERR_INVALID_ARG : esp_err_t := 258

/-- Thickness value `G_FILLED` of `graphics.h`. -/
def G_FILLED : Int := 0

/-! ## Regions (`region.h`) -/

/-- Struct `g_region_t`: inclusive corner coordinates. -/
structure g_region_t where
  x0 : Int
  y0 : Int
  x1 : Int
  y1 : Int
  deriving DecidableEq, Repr

/-- All four fields are `g_coord_t` values. -/
def g_region_t.wf (r : g_region_t) : Prop :=
  isI16 r.x0 ∧ isI16 r.y0 ∧ isI16 r.x1 ∧ isI16 r.y1

instance (r : g_region_t) : Decidable r.wf := by unfold g_region_t.wf; infer_instance

/-- Function `g_region_width`: `x1 - x0 + 1` returned as `size_t`. -/
def g_region_width (region : g_region_t) : Int := wrapSize (region.x1 - region.x0 + 1)

/-- Function `g_region_height`: `y1 - y0 + 1` returned as `size_t`. -/
def g_region_height (region : g_region_t) : Int := wrapSize (region.y1 - region.y0 + 1)

/-- Pixel `(x, y)` lies in the region (inclusive bounds). -/
def g_region_t.contains (r : g_region_t) (x y : Int) : Prop :=
  r.x0 ≤ x ∧ x ≤ r.x1 ∧ r.y0 ≤ y ∧ y ≤ r.y1

instance (r : g_region_t) (x y : Int) : Decidable (r.contains x y) := by
  unfold g_region_t.contains; infer_instance

/-! ## Window buffers (`graphics.h`) -/

/-- Struct `g_vdb_t`: the screen region the buffer mirrors and the pixel memory reached through
`buf`.  `written` records the element indices stored to, most recent first. -/
structure g_vdb_t where
  region : g_region_t
  buf : Int → g_color_t
  written : List Int

/-- Store `vdb->buf[i] = c`. -/
def g_vdb_t.store (vdb : g_vdb_t) (i : Int) (c : g_color_t) : g_vdb_t :=
  { vdb with buf := fun j => if j = i then c else vdb.buf j, written := i :: vdb.written }

/-- Row-major buffer index of the window pixel `(x, y)`. -/
def g_vdb_t.index (vdb : g_vdb_t) (x y : Int) : Int :=
  (y - vdb.region.y0) * (vdb.region.x1 - vdb.region.x0 + 1) + (x - vdb.region.x0)

/-- Colour read back at the window pixel `(x, y)`. -/
def g_vdb_t.pixel (vdb : g_vdb_t) (x y : Int) : g_color_t := vdb.buf (vdb.index x y)

/-! ## Loops -/

/-- Loop `for (i = lo; i < hi; i++) s = body(i, s)` for a counter that cannot wrap
(`hi` is a value of the counter's own type). -/
def forRange {σ : Type} (lo hi : Int) (body : Int → σ → σ) (s : σ) : σ :=
  (List.range (hi - lo).toNat).foldl (fun s (k : Nat) => body (lo + (k : Int)) s) s

/-- Loop `for (i = i0; cond(i); i = next(i)) s = body(i, s)`, at most `fuel` iterations. -/
def forLoop {σ : Type} (cond : Int → Bool) (next : Int → Int) (body : Int → σ → Option σ) :
    Nat → Int → σ → Option σ
  | 0, _, _ => none
  | fuel + 1, i, s =>
    if cond i then (body i s).bind (forLoop cond next body fuel (next i)) else some s

/-- Library call `memcpy(&buf[dst], &buf[src], n * sizeof(g_color_t))`, element by element. -/
def memcpy (vdb : g_vdb_t) (dst src n : Int) : g_vdb_t :=
  forRange 0 n (fun k s => s.store (wrapSize (dst + k)) (s.buf (wrapSize (src + k)))) vdb

/-! ## Primitive rasterizer (`graphics.c`) -/

/-- Function `g_draw_pixel`. -/
def g_draw_pixel (vdb : g_vdb_t) (x y : Int) (color : g_color_t) : esp_err_t × g_vdb_t :=
  if x < vdb.region.x0 ∨ y < vdb.region.y0 ∨ x > vdb.region.x1 ∨ y > vdb.region.y1 then
    (ESP_OK, vdb)
  else
    (ESP_OK, vdb.store
      (wrapSize ((y - vdb.region.y0) * g_region_width vdb.region + x - vdb.region.x0)) color)

/-- The local `fill_region` of `g_draw_rect`: the rectangle relative to the window. -/
def g_draw_rect_clip (vdb : g_vdb_t) (region : g_region_t) : g_region_t :=
  { x0 := wrapI16 (if region.x0 ≤ vdb.region.x0 then 0 else region.x0 - vdb.region.x0)
    y0 := wrapI16 (if region.y0 ≤ vdb.region.y0 then 0 else region.y0 - vdb.region.y0)
    x1 := wrapI16 (wrapSize (if region.x1 > vdb.region.x1 then g_region_width vdb.region - 1
            else region.x1 - vdb.region.x0))
    y1 := wrapI16 (wrapSize (if region.y1 > vdb.region.y1 then g_region_height vdb.region - 1
            else region.y1 - vdb.region.y0)) }

/-- The early-return test of `g_draw_rect` ("rect is out of VDB bounds"). -/
def g_draw_rect_out (fill_region : g_region_t) : Bool :=
  decide (fill_region.x1 ≤ 0 ∨ fill_region.y1 ≤ 0 ∨ fill_region.y0 > fill_region.y1
    ∨ fill_region.x0 > fill_region.x1)

/-- The `thickness == G_FILLED` branch of `g_draw_rect`: the first row is filled cell by cell,
then copied onto each further row; the row pointer advances by `vdb_width` per row. -/
def g_draw_rect_fill (fuel : Nat) (vdb : g_vdb_t) (fill_region : g_region_t)
    (color : g_color_t) : Option g_vdb_t :=
  let vdb_width := g_region_width vdb.region
  let buf := wrapSize (fill_region.y0 * vdb_width)
  (forLoop (fun c => decide (c ≤ fill_region.x1)) (fun c => wrapI16 (c + 1))
      (fun c s => some (s.store (wrapSize (buf + c)) color)) fuel fill_region.x0 vdb).bind
    fun vdb1 =>
      let buf_first_row_x0 := wrapSize (buf + fill_region.x0)
      let n := g_region_width fill_region
      (forLoop (fun r => decide (r ≤ fill_region.y1)) (fun r => wrapI16 (r + 1))
          (fun _ (s : g_vdb_t × Int) =>
            some (memcpy s.1 (wrapSize (s.2 + fill_region.x0)) buf_first_row_x0 n,
                  wrapSize (s.2 + vdb_width)))
          fuel (wrapI16 (fill_region.y0 + 1)) (vdb1, wrapSize (buf + vdb_width))).map
        fun s => s.1

/-- Function `g_draw_rect` called with `G_FILLED` (the form `g_draw_hline` and `g_draw_vline`
call). -/
def g_draw_rect_filled (fuel : Nat) (vdb : g_vdb_t) (region : g_region_t) (color : g_color_t) :
    Option (esp_err_t × g_vdb_t) :=
  let fill_region := g_draw_rect_clip vdb region
  if g_draw_rect_out fill_region then some (ESP_OK, vdb)
  else (g_draw_rect_fill fuel vdb fill_region color).map fun v => (ESP_OK, v)

/-- Function `g_draw_hline`. -/
def g_draw_hline (fuel : Nat) (vdb : g_vdb_t) (x y width : Int) (color : g_color_t)
    (thickness : Int) : Option (esp_err_t × g_vdb_t) :=
  if thickness < 1 then some (ESP_OK, vdb)
  else if thickness = 1 then
    if y < vdb.region.y0 ∨ y > vdb.region.y1 then some (ESP_OK, vdb)
    else
      let vdb_width := g_region_width vdb.region
      let _x := wrapI16 (if x < vdb.region.x0 then 0 else x - vdb.region.x0)
      let x1 := wrapI16 (wrapSize (if x + width - 1 > vdb.region.x1 then vdb_width
                  else x + width - vdb.region.x0))
      some (ESP_OK, forRange _x x1
        (fun i s => s.store (wrapSize ((y - vdb.region.y0) * vdb_width + i)) color) vdb)
  else
    g_draw_rect_filled fuel vdb
      { x0 := wrapI16 x
        y0 := wrapI16 (y - thickness / 2)
        x1 := wrapI16 (x + width - 1)
        y1 := wrapI16 (y + thickness / 2) } color

/-- Function `g_draw_vline`. -/
def g_draw_vline (fuel : Nat) (vdb : g_vdb_t) (x y height : Int) (color : g_color_t)
    (thickness : Int) : Option (esp_err_t × g_vdb_t) :=
  if thickness < 1 then some (ESP_OK, vdb)
  else if thickness = 1 then
    if x < vdb.region.x0 ∨ x > vdb.region.x1 then some (ESP_OK, vdb)
    else
      let vdb_width := g_region_width vdb.region
      let _y := wrapI16 (if y < vdb.region.y0 then 0 else y - vdb.region.y0)
      let y1 := wrapI16 (wrapSize (if y + height - 1 > vdb.region.y1
                  then g_region_height vdb.region else y + height - vdb.region.y0))
      some (ESP_OK, forRange _y y1
        (fun i s => s.store (wrapSize (i * vdb_width + x - vdb.region.x0)) color) vdb)
  else
    g_draw_rect_filled fuel vdb
      { x0 := wrapI16 (x - thickness / 2)
        y0 := wrapI16 y
        x1 := wrapI16 (x + thickness / 2)
        y1 := wrapI16 (y + height - 1) } color

/-- Function `g_draw_rect`. -/
def g_draw_rect (fuel : Nat) (vdb : g_vdb_t) (region : g_region_t) (color : g_color_t)
    (thickness : Int) : Option (esp_err_t × g_vdb_t) :=
  let fill_region := g_draw_rect_clip vdb region
  if g_draw_rect_out fill_region then some (ESP_OK, vdb)
  else if thickness = G_FILLED then
    (g_draw_rect_fill fuel vdb fill_region color).map fun v => (ESP_OK, v)
  else
    (g_draw_hline fuel vdb region.x0 region.y0 (wrapU16 (g_region_width region)) color
        thickness).bind fun r1 =>
    (g_draw_hline fuel r1.2 region.x0 region.y1 (wrapU16 (g_region_width region)) color
        thickness).bind fun r2 =>
    (g_draw_vline fuel r2.2 region.x0 region.y0 (wrapU16 (g_region_height region)) color
        thickness).bind fun r3 =>
    (g_draw_vline fuel r3.2 region.x1 region.y0 (wrapU16 (g_region_height region)) color
        thickness).bind fun r4 =>
    some (ESP_OK, r4.2)

/-- The filled `while (y <= x)` loop of `g_draw_circle`: four horizontal spans per step. -/
def g_draw_circle_fill (cx cy : Int) (color : g_color_t) :
    Nat → Int → Int → Int → g_vdb_t → Option g_vdb_t
  | 0, _, _, _, _ => none
  | fuel + 1, x, y, d, vdb =>
    if y ≤ x then
      (g_draw_hline fuel vdb (wrapI16 (cx - y)) (wrapI16 (cy - x)) (wrapU16 (2 * y + 1))
          color 1).bind fun r1 =>
      (g_draw_hline fuel r1.2 (wrapI16 (cx - x)) (wrapI16 (cy - y)) (wrapU16 (2 * x + 1))
          color 1).bind fun r2 =>
      (g_draw_hline fuel r2.2 (wrapI16 (cx - x)) (wrapI16 (cy + y)) (wrapU16 (2 * x + 1))
          color 1).bind fun r3 =>
      (g_draw_hline fuel r3.2 (wrapI16 (cx - y)) (wrapI16 (cy + x)) (wrapU16 (2 * y + 1))
          color 1).bind fun r4 =>
      let y := wrapI16 (y + 1)
      if d > 0 then
        let x := wrapI16 (x - 1)
        g_draw_circle_fill cx cy color fuel x y (wrapI16 (d + 4 * (y - x) + 10)) r4.2
      else
        g_draw_circle_fill cx cy color fuel x y (wrapI16 (d + 4 * y + 6)) r4.2
    else some vdb

/-- The eight symmetric pixels of one step of the outlined circle. -/
def g_draw_circle_points (cx cy x y : Int) (color : g_color_t) (vdb : g_vdb_t) : g_vdb_t :=
  let v := (g_draw_pixel vdb (wrapI16 (cx + x)) (wrapI16 (cy - y)) color).2
  let v := (g_draw_pixel v (wrapI16 (cx + y)) (wrapI16 (cy - x)) color).2
  let v := (g_draw_pixel v (wrapI16 (cx - y)) (wrapI16 (cy - x)) color).2
  let v := (g_draw_pixel v (wrapI16 (cx - x)) (wrapI16 (cy - y)) color).2
  let v := (g_draw_pixel v (wrapI16 (cx - x)) (wrapI16 (cy + y)) color).2
  let v := (g_draw_pixel v (wrapI16 (cx - y)) (wrapI16 (cy + x)) color).2
  let v := (g_draw_pixel v (wrapI16 (cx + y)) (wrapI16 (cy + x)) color).2
  (g_draw_pixel v (wrapI16 (cx + x)) (wrapI16 (cy + y)) color).2

/-- The outlined `while (y <= x)` loop of `g_draw_circle`. -/
def g_draw_circle_outline (cx cy : Int) (color : g_color_t) :
    Nat → Int → Int → Int → g_vdb_t → Option g_vdb_t
  | 0, _, _, _, _ => none
  | fuel + 1, x, y, d, vdb =>
    if y ≤ x then
      let v := g_draw_circle_points cx cy x y color vdb
      let y := wrapI16 (y + 1)
      if d > 0 then
        let x := wrapI16 (x - 1)
        g_draw_circle_outline cx cy color fuel x y (wrapI16 (d + 4 * (y - x) + 10)) v
      else
        g_draw_circle_outline cx cy color fuel x y (wrapI16 (d + 4 * y + 6)) v
    else some vdb

/-- Function `g_draw_circle`. -/
def g_draw_circle (fuel : Nat) (vdb : g_vdb_t) (cx cy r : Int) (color : g_color_t)
    (thickness : Int) : Option (esp_err_t × g_vdb_t) :=
  let x := wrapI16 r
  let y := 0
  let d := wrapI16 (3 - 2 * r)
  if thickness = G_FILLED then
    (g_draw_circle_fill cx cy color fuel x y d vdb).map fun v => (ESP_OK, v)
  else
    (g_draw_circle_outline cx cy color fuel x y d vdb).map fun v => (ESP_OK, v)

/-- The `while (1)` loop of `g_draw_line` (Bresenham); `dx`, `dy`, `e_xy` are `int16_t`,
`sx`, `sy` are `int8_t`. -/
def g_draw_line_loop (x1 y1 dx sx dy sy : Int) (color : g_color_t) :
    Nat → Int → Int → Int → g_vdb_t → Option g_vdb_t
  | 0, _, _, _, _ => none
  | fuel + 1, x0, y0, e_xy, vdb =>
    let v := (g_draw_pixel vdb x0 y0 color).2
    if x0 = x1 ∧ y0 = y1 then some v
    else
      let e := e_xy
      let e_xy := if e > -dx then wrapI16 (e_xy - dy) else e_xy
      let x0 := if e > -dx then wrapI16 (x0 + sx) else x0
      let e_xy := if e < dy then wrapI16 (e_xy + dx) else e_xy
      let y0 := if e < dy then wrapI16 (y0 + sy) else y0
      g_draw_line_loop x1 y1 dx sx dy sy color fuel x0 y0 e_xy v

/-- Function `g_draw_line`. -/
def g_draw_line (fuel : Nat) (vdb : g_vdb_t) (x0 y0 x1 y1 : Int) (color : g_color_t)
    (thickness : Int) : Option (esp_err_t × g_vdb_t) :=
  if x0 = x1 then
    g_draw_vline fuel vdb (min x0 x1) (min y0 y1) (wrapU16 (|y1 - y0| + 1)) color thickness
  else if y0 = y1 then
    g_draw_hline fuel vdb (min x0 x1) (min y0 y1) (wrapU16 (|x1 - x0| + 1)) color thickness
  else
    let dx := wrapI16 |x1 - x0|
    let sx := if x0 < x1 then 1 else -1
    let dy := wrapI16 |y1 - y0|
    let sy := if y0 < y1 then 1 else -1
    let e_xy := wrapI16 (Int.tdiv (if dx > dy then dx else -dy) 2)
    (g_draw_line_loop x1 y1 dx sx dy sy color fuel x0 y0 e_xy vdb).map fun v => (ESP_OK, v)

/-- Values of the C type `float` as the polygon code tells them apart: a number or NaN.
A number is an exact rational (every finite `float` is one) and arithmetic on numbers is taken
without rounding.  Infinities are not represented. -/
inductive float_t where
  | num (q : ℚ)
  | nan
  deriving DecidableEq

/-- The comparison `a < b` of C: false as soon as one side is NaN. -/
def float_t.lt : float_t → float_t → Bool
  | .num p, .num q => decide (p < q)
  | _, _ => false

/-- The comparison `a >= b` of C: false as soon as one side is NaN. -/
def float_t.ge : float_t → float_t → Bool
  | .num p, .num q => decide (p ≥ q)
  | _, _ => false

/-- The comparison `a > b` of C: false as soon as one side is NaN. -/
def float_t.gt : float_t → float_t → Bool
  | .num p, .num q => decide (p > q)
  | _, _ => false

/-- The sum `a + b`: NaN as soon as one side is NaN. -/
def float_t.add : float_t → float_t → float_t
  | .num p, .num q => .num (p + q)
  | _, _ => .nan

/-- The difference `a - b`: NaN as soon as one side is NaN. -/
def float_t.sub : float_t → float_t → float_t
  | .num p, .num q => .num (p - q)
  | _, _ => .nan

/-- The product `a * b`: NaN as soon as one side is NaN. -/
def float_t.mul : float_t → float_t → float_t
  | .num p, .num q => .num (p * q)
  | _, _ => .nan

/-- The quotient `a / b`: NaN as soon as one side is NaN.  A division by the number zero, which
gives an infinity or NaN in C, has no value among the numbers and yields `nan`;
`_draw_polygon_fill` divides only by the difference of two ordinates that its test has found
to be different numbers. -/
def float_t.div : float_t → float_t → float_t
  | .num p, .num q => if q = 0 then .nan else .num (p / q)
  | _, _ => .nan

/-- Conversion of a `g_coord_t` to `float`, which is exact. -/
def floatOfCoord (n : Int) : float_t := .num (n : ℚ)

/-- Struct `g_point_t`. -/
structure g_point_t where
  x : float_t
  y : float_t

/-- Conversion of a `float` to `g_coord_t`: truncation toward zero, reduced to 16 bits.  The
conversion of NaN is undefined in C; the model takes 0. -/
def coordOfFloat : float_t → Int
  | .num q => wrapI16 (Int.tdiv q.num q.den)
  | .nan => 0

/-- The local array `nodes` of `_draw_polygon_fill` as the memory reached from its base,
with the record of the indices stored to (most recent first). -/
structure polygon_nodes_t where
  nodes : Int → Int
  stored : List Int

/-- Store `nodes[i] = v`. -/
def polygon_nodes_t.store (ns : polygon_nodes_t) (i v : Int) : polygon_nodes_t :=
  { nodes := fun j => if j = i then v else ns.nodes j, stored := i :: ns.stored }

/-- The test "segment intersects row" of `_draw_polygon_fill`. -/
def polygon_crosses (pi pj : g_point_t) (y : Int) : Bool :=
  (pi.y.lt (floatOfCoord y) && pj.y.ge (floatOfCoord y))
    || (pj.y.lt (floatOfCoord y) && pi.y.ge (floatOfCoord y))

/-- The interpolated intersection of a segment with row `y`, converted to `g_coord_t`. -/
def polygon_node (pi pj : g_point_t) (y : Int) : Int :=
  coordOfFloat
    (pi.x.add ((((floatOfCoord y).sub pi.y).div (pj.y.sub pi.y)).mul (pj.x.sub pi.x)))

/-- The first loop of `_draw_polygon_fill` and the two clamps: the rows `y .. ymax` to scan.
`DISP_HEIGHT` comes from the display driver header. -/
def polygon_limits (DISP_HEIGHT : Int) (vdb : g_vdb_t) (points : Int → g_point_t) (len : Int) :
    Int × Int :=
  let lim := forRange 0 len
    (fun i (s : Int × Int) =>
      let y := if (floatOfCoord s.1).gt (points i).y then coordOfFloat (points i).y else s.1
      let ymax := if (floatOfCoord s.2).lt (points i).y then coordOfFloat (points i).y
        else s.2
      (y, ymax))
    (wrapI16 (DISP_HEIGHT - 1), 0)
  (if lim.1 < vdb.region.y0 then vdb.region.y0 else lim.1,
   if lim.2 > vdb.region.y1 then vdb.region.y1 else lim.2)

/-- The body of the segment loop of one row, on the state `(nodes, count, j)`: an
intersecting segment stores its node at `nodes[count++]` (`count` is a `uint8_t`); then
`j = i`. -/
def polygon_scan_step (points : Int → g_point_t) (y : Int) (i : Int)
    (s : polygon_nodes_t × Int × Int) : polygon_nodes_t × Int × Int :=
  if polygon_crosses (points i) (points s.2.2) y then
    (s.1.store s.2.1 (polygon_node (points i) (points s.2.2) y), wrapU8 (s.2.1 + 1), i)
  else (s.1, s.2.1, i)

/-- The segment loop of one row: `count = 0`, `j = len - 1`, then every segment in turn. -/
def polygon_scan (points : Int → g_point_t) (len : Int) (y : Int) (ns : polygon_nodes_t) :
    polygon_nodes_t × Int × Int :=
  forRange 0 len (polygon_scan_step points y) (ns, 0, wrapU16 (len - 1))

/-- The sorting loop of one row (adjacent swaps, stepping back after a swap). -/
def polygon_sort (count : Int) : Nat → Int → polygon_nodes_t → Option polygon_nodes_t
  | 0, _, _ => none
  | fuel + 1, i, ns =>
    if i < count - 1 then
      if ns.nodes i > ns.nodes (i + 1) then
        let aux := ns.nodes i
        let ns := ns.store i (ns.nodes (i + 1))
        let ns := ns.store (i + 1) aux
        polygon_sort count fuel (if i ≠ 0 then wrapU16 (i - 1) else i) ns
      else polygon_sort count fuel (wrapU16 (i + 1)) ns
    else some ns

/-- The body of the row loop of `_draw_polygon_fill`. -/
def polygon_row (fuel : Nat) (points : Int → g_point_t) (len : Int) (color : g_color_t)
    (y : Int) (s : g_vdb_t × polygon_nodes_t) : Option (g_vdb_t × polygon_nodes_t) :=
  let scan := polygon_scan points len y s.2
  let count := scan.2.1
  (polygon_sort count fuel 0 scan.1).bind fun ns =>
    (forLoop (fun i => decide (i < count)) (fun i => wrapU16 (i + 2))
        (fun i v =>
          (g_draw_hline fuel v (ns.nodes i) y (wrapU16 (ns.nodes (i + 1) - ns.nodes i + 1))
            color 1).map fun r => r.2)
        fuel 0 s.1).map fun v => (v, ns)

/-- Function `_draw_polygon_fill`.  `nodes0` is the content of the uninitialised array.  The
result carries the record of the stores into `nodes`. -/
def _draw_polygon_fill (fuel : Nat) (DISP_HEIGHT : Int) (nodes0 : Int → Int) (vdb : g_vdb_t)
    (points : Int → g_point_t) (len : Int) (color : g_color_t) :
    Option (g_vdb_t × polygon_nodes_t) :=
  let lim := polygon_limits DISP_HEIGHT vdb points len
  forLoop (fun y => decide (y ≤ lim.2)) (fun y => wrapI16 (y + 1))
    (polygon_row fuel points len color) fuel lim.1 (vdb, { nodes := nodes0, stored := [] })

/-- Function `g_draw_bitmap_mono`.  The bitmap is the byte memory reached through the pointer;
`ceil((double)width / 8)` is `(width + 7) / 8`, `u >> 3` is the floor quotient by 8 and
`~u & 7` is `7 - u mod 8`. -/
def g_draw_bitmap_mono (fuel : Nat) (vdb : g_vdb_t) (x y : Int) (bitmap : Int → Nat)
    (width height : Int) (color : g_color_t) : Option (esp_err_t × g_vdb_t) :=
  let width_bytes := wrapU16 ((width + 7) / 8)
  (forLoop (fun v => decide (v < height)) (fun v => wrapI16 (v + 1))
      (fun v s =>
        forLoop (fun u => decide (u < width)) (fun u => wrapI16 (u + 1))
          (fun u s =>
            some (if bitmap (width_bytes * v + u / 8) &&& (1 <<< (7 - u % 8).toNat) ≠ 0 then
              (g_draw_pixel s (wrapI16 (x + u)) (wrapI16 (y + v)) color).2 else s))
          fuel 0 s)
      fuel 0 vdb).map fun v => (ESP_OK, v)

/-! ## Text (`font.h`, `graphics.c`) -/

/-- Struct `g_font_t`.  `glyphs` is the byte memory reached from the flexible array member.
The font in use (`_g_font`) is an argument of the text functions. -/
structure g_font_t where
  monospace : Bool
  width : Int
  height : Int
  ascii_offset : Int
  glyphs : Int → Nat

/-- Fonts whose fields are values of their C types (`uint8_t`). -/
def g_font_t.wf (font : g_font_t) : Prop :=
  isU8 font.width ∧ isU8 font.height ∧ isU8 font.ascii_offset ∧ ∀ i, font.glyphs i < 256

/-- Function `g_font_glyph_size`; `ceil((double)width / 8)` is `(width + 7) / 8`. -/
def g_font_glyph_size (font : g_font_t) : Int :=
  wrapU16 (wrapU16 ((font.width + 7) / 8) * font.height)

/-- The pointer `glyph` of the text functions: the bytes from
`&glyphs[(character - ascii_offset) * g_font_glyph_size(font)]` on. -/
def g_font_glyph (font : g_font_t) (character : Int) : Int → Nat :=
  fun i => font.glyphs ((character - font.ascii_offset) * g_font_glyph_size font + i)

/-- Function `g_draw_char`. -/
def g_draw_char (fuel : Nat) (font : g_font_t) (vdb : g_vdb_t) (x y character : Int)
    (color : g_color_t) : Option (esp_err_t × g_vdb_t) :=
  g_draw_bitmap_mono fuel vdb x y (g_font_glyph font character) font.width font.height color

/-- Compiler builtin `__builtin_ctz` on a 32-bit operand: the index of the lowest set bit.  The
builtin is undefined for 0; the model then yields 32. -/
def builtin_ctz (n : Nat) : Nat := ((List.range 32).find? fun i => n.testBit i).getD 32

/-- Function `_rightmost_bit`. -/
def _rightmost_bit (byte : Nat) : Int :=
  if byte = 0 then 8 else wrapU8 (builtin_ctz byte)

/-- The second loop of `_glyph_width_multibytes` with `b + 1` bytes left to visit: the bytes
of `glyph_bits` from index `b` down to 0, returning at the first one with a set bit. -/
def _glyph_width_search (glyph_bits : Int → Nat) : Nat → Int
  | 0 => 0
  | b + 1 =>
    let right_bit_pos := _rightmost_bit (glyph_bits b)
    if right_bit_pos < 8 then wrapU8 (8 * (b : Int) + (8 - right_bit_pos))
    else _glyph_width_search glyph_bits b

/-- The first loop of `_glyph_width_multibytes`: the local array `glyph_bits` after the rows
have been or-ed into it byte by byte. -/
def _glyph_width_bits (glyph : Int → Nat) (width_bytes height : Int) : Int → Nat :=
  forRange 0 (width_bytes * height)
    (fun b (bits : Int → Nat) => fun k => if k = b % width_bytes then bits k ||| glyph b
      else bits k)
    (fun _ => 0)

/-- Function `_glyph_width_multibytes`. -/
def _glyph_width_multibytes (font : g_font_t) (character : Int) : Int :=
  let width_bytes := wrapU8 ((font.width + 7) / 8)
  _glyph_width_search (_glyph_width_bits (g_font_glyph font character) width_bytes font.height)
    width_bytes.toNat

/-- Function `_glyph_width`. -/
def _glyph_width (font : g_font_t) (character : Int) : Int :=
  if font.width > 8 then _glyph_width_multibytes font character
  else
    let glyph := g_font_glyph font character
    let glyph_bits := forRange 0 font.height (fun y (bits : Nat) => bits ||| glyph y) 0
    wrapU8 (8 - _rightmost_bit glyph_bits)

/-- The locals of `g_draw_string` that live across characters (`cx`, `cy`, `last_char_width`,
`combining_mode`), the window buffer, and the record (most recent first) of the calls of
`g_draw_char`: the position and the character passed. -/
structure g_draw_string_t where
  vdb : g_vdb_t
  cx : Int
  cy : Int
  last_char_width : Int
  combining_mode : Bool
  drawn : List (Int × Int × Int)

/-- One pass through the `switch` of `g_draw_string` for the character `c` (`char` is unsigned
on the target). -/
def g_draw_string_char (fuel : Nat) (font : g_font_t) (x y : Int) (color : g_color_t)
    (c : Int) (s : g_draw_string_t) : Option g_draw_string_t :=
  let line_gap : Int := 1
  let char_gap : Int := if font.monospace then 0 else 1
  let empty_gap := wrapU8 (font.width / 4)
  if c = 27 then
    some { s with cx := wrapI16 (s.cx - (s.last_char_width + char_gap)), combining_mode := true }
  else if c = 10 then
    some { s with last_char_width := 0, cx := 0,
                  cy := wrapI16 (s.cy + (font.height + line_gap)) }
  else if c = 32 then
    some { s with combining_mode := false, last_char_width := empty_gap,
                  cx := wrapI16 (s.cx + (empty_gap + char_gap)) }
  else if c < font.ascii_offset then some s
  else
    let char_width := if font.monospace then font.width else _glyph_width font c
    let combine := s.combining_mode && !font.monospace
    let _cx :=
      if combine then wrapI16 (s.cx + Int.tdiv (s.last_char_width - char_width + 1) 2) else s.cx
    let last_char_width :=
      if combine then s.last_char_width else if char_width = 0 then empty_gap else char_width
    let px := wrapI16 (x + _cx)
    let py := wrapI16 (y + s.cy)
    let r := if char_width > 0 then
        (g_draw_char fuel font s.vdb px py c color).map fun r => (r.2, (px, py, c) :: s.drawn)
      else some (s.vdb, s.drawn)
    r.map fun p =>
      { vdb := p.1, cx := wrapI16 (s.cx + (last_char_width + char_gap)), cy := s.cy,
        last_char_width := last_char_width, combining_mode := false, drawn := p.2 }

/-- Function `g_draw_string`; `string` is `none` for a null pointer, else the bytes reached
from it.  The result carries the locals at the end of the loop. -/
def g_draw_string (fuel : Nat) (font : g_font_t) (vdb : g_vdb_t) (x y : Int)
    (string : Option (Int → Int)) (color : g_color_t) :
    Option (esp_err_t × g_draw_string_t) :=
  let s0 : g_draw_string_t :=
    { vdb := vdb, cx := 0, cy := 0, last_char_width := 0, combining_mode := false, drawn := [] }
  match string with
  | none => some (ESP_ERR_INVALID_ARG, s0)
  | some str =>
    (forLoop (fun i => decide (str i ≠ 0)) (fun i => wrapU16 (i + 1))
        (fun i s => g_draw_string_char fuel font x y color (str i) s) fuel 0 s0).map
      fun s => (ESP_OK, s)

/-! ## Display and refresh scheduler (`graphics.c`) -/

/-- Struct `g_disp_t`.  The pointer `vdb` is `false` for `&vdb1` and `true` for `&vdb2`.
`sent` records the calls of the transport `display_send_color16`, most recent first: the
window region and the pixel count handed over. -/
structure g_disp_t where
  vdb1 : g_vdb_t
  vdb2 : g_vdb_t
  vdb : Bool
  vdb_size : Int
  width : Int
  height : Int
  sent : List (g_region_t × Int)

/-- The buffer `*_g_disp->vdb`. -/
def g_disp_t.active (d : g_disp_t) : g_vdb_t := if d.vdb then d.vdb2 else d.vdb1

/-- Assignment through the pointer `_g_disp->vdb`. -/
def g_disp_t.setActive (d : g_disp_t) (v : g_vdb_t) : g_disp_t :=
  if d.vdb then { d with vdb2 := v } else { d with vdb1 := v }

/-- Type `g_draw_t`: the paint callback; it draws into the active window buffer. -/
abbrev g_draw_t := g_region_t → g_vdb_t → g_vdb_t

/-- Function `g_vdb_flush`. -/
def g_vdb_flush (d : g_disp_t) : esp_err_t × g_disp_t :=
  let vdb := d.active
  let region_size := wrapSize (g_region_width vdb.region * g_region_height vdb.region)
  (ESP_OK, { d with sent := (vdb.region, region_size) :: d.sent, vdb := !d.vdb })

/-- One pass through the loop body of `g_refresh_region` at strip start row `y`. -/
def g_refresh_region_body (refresh_region : g_region_t) (draw_cb : g_draw_t) (y_step : Int)
    (y : Int) (d : g_disp_t) : g_disp_t :=
  let vdb := d.active
  let d1 := d.setActive { vdb with region :=
    { x0 := refresh_region.x0
      y0 := wrapI16 y
      x1 := refresh_region.x1
      y1 := wrapI16 (y + y_step - 1) } }
  let d2 := d1.setActive (draw_cb refresh_region d1.active)
  (g_vdb_flush d2).2

/-- The local `y_step` of `g_refresh_region` when the loop is entered.  The C division is
undefined for a region of width 0, where this definition yields a step of at most 0; every
theorem about regions in general excludes that width by a hypothesis (a capacity below the
width, a step of at least 1, or `x0 ≤ x1`). -/
def g_refresh_region_step (vdb_size : Int) (refresh_region : g_region_t) : Int :=
  let y_step := wrapI16 (wrapSize vdb_size / g_region_width refresh_region)
  let refresh_height := wrapI16 (g_region_height refresh_region)
  if y_step > refresh_height then refresh_height else y_step

/-- Function `g_refresh_region`. -/
def g_refresh_region (fuel : Nat) (d : g_disp_t) (refresh_region : g_region_t)
    (draw_cb : g_draw_t) : Option (esp_err_t × g_disp_t) :=
  let y_step := g_refresh_region_step d.vdb_size refresh_region
  (forLoop (fun y => decide (y < refresh_region.y1 - 1)) (fun y => y + y_step)
      (fun y s => some (g_refresh_region_body refresh_region draw_cb y_step y s))
      fuel refresh_region.y0 d).map fun d1 => (ESP_OK, d1)

/-! ## Image decoder (`img.h`, `img.c`) -/

/-- Flag `G_IMG_FLAG_INDEXED` of `img.h`. -/
def G_IMG_FLAG_INDEXED : Nat := 8

/-- Macro `SIGNATURE_SIZE`. -/
def SIGNATURE_SIZE : Int := 4

/-- Macro `HEADER_SIZE`. -/
def HEADER_SIZE : Int := 8

/-- Macro `PALETTE_OFFSET`. -/
def PALETTE_OFFSET : Int := SIGNATURE_SIZE + HEADER_SIZE

/-- Whence values of `lseek`. -/
def SEEK_SET : Int := 0

/-- Whence value "relative to the current offset". -/
def SEEK_CUR : Int := 1

/-- Struct `g_img_header_t`. -/
structure g_img_header_t where
  width : Int
  height : Int
  flags : Nat
  palette_size : Int
  transparent_index : Int
  frame_count : Int

/-- The header struct as `read` fills it: eight bytes in declaration order, the two
`g_size_t` fields least significant byte first (the target is little-endian). -/
def g_img_header_t.ofBytes (b : Int → Nat) : g_img_header_t :=
  { width := (b 0 : Int) + 256 * (b 1 : Int)
    height := (b 2 : Int) + 256 * (b 3 : Int)
    flags := b 4
    palette_size := (b 5 : Int)
    transparent_index := (b 6 : Int)
    frame_count := (b 7 : Int) }

/-- Struct `g_img_t`.  A buffer pointer is `none` when it is null or was never assigned, else
the bytes reached from it. -/
structure g_img_t where
  fd : Int
  current_frame : Int
  header : g_img_header_t
  palette : Option (Int → Nat)
  bitmap : Option (Int → Nat)

/-- Macro `PALETTE_SIZE`; `sizeof(g_color_t)` is 2. -/
def PALETTE_SIZE (img : g_img_t) : Int :=
  if img.header.flags &&& G_IMG_FLAG_INDEXED ≠ 0 then wrapSize (2 * (img.header.palette_size + 1))
  else 0

/-- The heap blocks `g_img_open` allocates. -/
inductive img_block_t where
  | img
  | palette
  | bitmap
  deriving DecidableEq, Repr

/-- What the surroundings of `g_img_open` decide: the descriptor `open` returns (`-1` when the
file cannot be opened), whether each `malloc` succeeds, and the stale content of the
uninitialised memory the reads go to (the local `signature`, the header inside the fresh
`g_img_t`, the fresh palette and bitmap blocks). -/
structure img_env_t where
  fd : Int
  malloc_img : Bool
  malloc_palette : Bool
  malloc_bitmap : Bool
  signature0 : Int → Nat
  header0 : Int → Nat
  palette0 : Int → Nat
  bitmap0 : Int → Nat

/-- The state behind the library calls: the bytes of the file, the offset of the descriptor,
whether the descriptor is open, and the heap blocks allocated and not yet freed. -/
structure img_sys_t where
  file : List Nat
  pos : Int
  fd_open : Bool
  live : List img_block_t

/-- Memory `buf` after `bytes` were copied to its start. -/
def store_bytes (buf : Int → Nat) (bytes : List Nat) : Int → Nat :=
  fun i => if 0 ≤ i ∧ i < (bytes.length : Int) then bytes.getD i.toNat 0 else buf i

/-- Result of `read`: the return value, the buffer and the state afterwards. -/
structure vfs_read_t where
  read_bytes : Int
  buf : Option (Int → Nat)
  sys : img_sys_t

/-- Library call `read(fd, buf, count)`: copies the bytes from the current offset on, at most
`count` and at most up to the end of the file, and advances the offset by their number; fails
(`-1`, nothing changed) on a descriptor that is not open or a null buffer. -/
def vfs_read (sys : img_sys_t) (fd : Int) (buf : Option (Int → Nat)) (count : Int) :
    vfs_read_t :=
  match buf with
  | none => { read_bytes := -1, buf := none, sys := sys }
  | some b =>
    if fd < 0 ∨ sys.fd_open = false then { read_bytes := -1, buf := some b, sys := sys }
    else
      let bytes := (sys.file.drop sys.pos.toNat).take count.toNat
      { read_bytes := (bytes.length : Int)
        buf := some (store_bytes b bytes)
        sys := { sys with pos := sys.pos + (bytes.length : Int) } }

/-- Library call `lseek(fd, offset, whence)` (the return value is never used): moves the
offset; fails (nothing changed) on a descriptor that is not open or a negative target. -/
def vfs_lseek (sys : img_sys_t) (fd : Int) (offset : Int) (whence : Int) : img_sys_t :=
  let target := if whence = SEEK_SET then offset else sys.pos + offset
  if fd < 0 ∨ sys.fd_open = false ∨ target < 0 then sys else { sys with pos := target }

/-- Library call `close(fd)`. -/
def vfs_close (sys : img_sys_t) (fd : Int) : img_sys_t :=
  if fd < 0 then sys else { sys with fd_open := false }

/-- Library call `free` of a block (no effect for a null pointer, which is in no list). -/
def vfs_free (sys : img_sys_t) (block : img_block_t) : img_sys_t :=
  { sys with live := sys.live.erase block }

/-- The part of `g_img_open` after the signature check: header, palette and first frame. -/
def g_img_open_frames (env : img_env_t) (sys : img_sys_t) : Option g_img_t × img_sys_t :=
  let r := vfs_read sys env.fd (some env.header0) 8
  let header := g_img_header_t.ofBytes (r.buf.getD env.header0)
  let indexed := decide (header.flags &&& G_IMG_FLAG_INDEXED ≠ 0)
  if indexed ∧ env.malloc_palette = false then
    (none, vfs_free (vfs_close r.sys env.fd) img_block_t.img)
  else
    let sys := if indexed then { r.sys with live := img_block_t.palette :: r.sys.live }
      else r.sys
    let rp := if indexed then
        vfs_read sys env.fd (some env.palette0) (wrapSize ((header.palette_size + 1) * 2))
      else { read_bytes := 0, buf := none, sys := sys }
    let sys := if env.malloc_bitmap then
        { rp.sys with live := img_block_t.bitmap :: rp.sys.live }
      else rp.sys
    let rb := vfs_read sys env.fd (if env.malloc_bitmap then some env.bitmap0 else none)
      (wrapSize (header.width * header.height))
    let img : g_img_t :=
      { fd := env.fd, current_frame := 1, header := header, palette := rp.buf,
        bitmap := rb.buf }
    if header.frame_count = 1 then
      (some { img with fd := -1 }, vfs_close rb.sys env.fd)
    else (some img, rb.sys)

/-- Function `g_img_open` on a file with the given bytes.  Returns the image (`none` for
`NULL`) and the state of file and heap. -/
def g_img_open (env : img_env_t) (file : List Nat) : Option g_img_t × img_sys_t :=
  let sys : img_sys_t := { file := file, pos := 0, fd_open := false, live := [] }
  if env.malloc_img = false then (none, sys)
  else
    let sys := { sys with live := img_block_t.img :: sys.live }
    if env.fd = -1 then
      (none, vfs_free sys img_block_t.img)
    else
      let sys := { sys with fd_open := true }
      let r := vfs_read sys env.fd (some env.signature0) SIGNATURE_SIZE
      let signature := r.buf.getD env.signature0
      if ¬ (signature 0 = 69 ∧ signature 1 = 66 ∧ signature 2 = 71) ∨ signature 3 ≠ 1 then
        (none, vfs_free (vfs_close r.sys env.fd) img_block_t.img)
      else g_img_open_frames env r.sys

/-- Function `g_img_close`. -/
def g_img_close (img : g_img_t) (sys : img_sys_t) : img_sys_t :=
  let sys := if img.fd > -1 then vfs_close sys img.fd else sys
  let sys := if img.header.flags &&& G_IMG_FLAG_INDEXED ≠ 0 then vfs_free sys img_block_t.palette
    else sys
  vfs_free (vfs_free sys img_block_t.bitmap) img_block_t.img

/-- Function `g_img_load_next`. -/
def g_img_load_next (img : g_img_t) (sys : img_sys_t) : g_img_t × img_sys_t :=
  if img.current_frame ≥ img.header.frame_count then (img, sys)
  else
    let r := vfs_read sys img.fd img.bitmap (wrapSize (img.header.width * img.header.height))
    ({ img with bitmap := r.buf, current_frame := wrapU8 (img.current_frame + 1) }, r.sys)

/-- Function `g_img_load_prev`. -/
def g_img_load_prev (img : g_img_t) (sys : img_sys_t) : g_img_t × img_sys_t :=
  if img.current_frame ≤ 1 then (img, sys)
  else
    let sys1 := vfs_lseek sys img.fd (-2 * (img.header.width * img.header.height)) SEEK_CUR
    let r := vfs_read sys1 img.fd img.bitmap (wrapSize (img.header.width * img.header.height))
    ({ img with bitmap := r.buf }, r.sys)

/-- Function `g_img_load_first`. -/
def g_img_load_first (img : g_img_t) (sys : img_sys_t) : g_img_t × img_sys_t :=
  let sys1 := vfs_lseek sys img.fd (PALETTE_OFFSET + PALETTE_SIZE img) SEEK_SET
  let r := vfs_read sys1 img.fd img.bitmap (wrapSize (img.header.width * img.header.height))
  ({ img with bitmap := r.buf, current_frame := 1 }, r.sys)

/-! ## Specification vocabulary -/

/-- Store colour `c` at every index of `l`, last element first. -/
def paint (v : g_vdb_t) (l : List Int) (c : g_color_t) : g_vdb_t :=
  l.foldr (fun i s => s.store i c) v

/-- The vertex index `j` paired with vertex `i` by the segment loops (`j = len - 1` for the
first vertex, `i - 1` afterwards). -/
def polygon_prev (len i : Int) : Int := if i = 0 then wrapU16 (len - 1) else i - 1

/-- Number of segments among the first `m` that intersect row `y`. -/
def polygon_crossings (points : Int → g_point_t) (len y : Int) (m : Nat) : Nat :=
  (List.range m).countP fun k : Nat =>
    polygon_crosses (points (k : Int)) (points (polygon_prev len (k : Int))) y

/-- The buffer cells `g_draw_hline` with thickness 1 stores to, most recent first. -/
def hline_cells (reg : g_region_t) (x y w : Int) : List Int :=
  if y < reg.y0 ∨ y > reg.y1 then []
  else
    ((List.range
        (wrapI16 (wrapSize (if x + w - 1 > reg.x1 then g_region_width reg
            else x + w - reg.x0))
          - wrapI16 (if x < reg.x0 then 0 else x - reg.x0)).toNat).map
      fun k : Nat => wrapSize ((y - reg.y0) * g_region_width reg
        + (wrapI16 (if x < reg.x0 then 0 else x - reg.x0) + (k : Int)))).reverse

/-- Both buffers mirror region `reg`, and every cell the outline stored to was stored to by the
filled draw. -/
def Covered (reg : g_region_t) (vo vf : g_vdb_t) : Prop :=
  vo.region = reg ∧ vf.region = reg ∧ ∀ i ∈ vo.written, i ∈ vf.written

/-- Buffer `v1` is `v` with colour `c` in the cells of `S` and nothing else changed. -/
def PaintsTo (c : g_color_t) (S : Int → Prop) (v v1 : g_vdb_t) : Prop :=
  v1.region = v.region ∧ ∀ j, (S j → v1.buf j = c) ∧ (¬ S j → v1.buf j = v.buf j)

/-- Bit `7 - u mod 8` (most significant first) of the byte that holds column `u` of row `v`
of a bitmap with `ceil(width / 8)` bytes per row. -/
def bitmap_bit (bitmap : Int → Nat) (width u v : Int) : Bool :=
  (bitmap ((width + 7) / 8 * v + u / 8)).testBit (7 - u % 8).toNat

/-- The bytes of a C string literal with the characters `l` (then the terminating 0), as the
memory reached from its first byte. -/
def cstr (l : List Int) : Int → Int := fun i => if 0 ≤ i then l.getD i.toNat 0 else 0

/-- A character `g_draw_string` hands to the glyph code: a non-zero `char` other than escape,
new line and space, not below the font's offset. -/
def g_font_t.drawable (font : g_font_t) (c : Int) : Prop :=
  isU8 c ∧ c ≠ 0 ∧ c ≠ 27 ∧ c ≠ 10 ∧ c ≠ 32 ∧ font.ascii_offset ≤ c

instance (font : g_font_t) (c : Int) : Decidable (font.drawable c) := by
  unfold g_font_t.drawable; infer_instance

/-- The signature `"EBG"` followed by the version byte `0x01`. -/
def ebg_signature : List Nat := [69, 66, 71, 1]

/-- The header a stream carries in its bytes 4 to 11. -/
def ebg_header (file : List Nat) : g_img_header_t :=
  g_img_header_t.ofBytes fun i => file.getD (4 + i.toNat) 0

/-- The header `g_img_open` goes by on a stream that starts with the signature: the (up to
eight) bytes that follow the signature, laid over the stale content of the header field where
the stream ends early. -/
def ebg_header_read (env : img_env_t) (file : List Nat) : g_img_header_t :=
  g_img_header_t.ofBytes (store_bytes env.header0 ((file.drop 4).take 8))

/-- Number of palette bytes a header announces. -/
def ebg_palette_bytes (h : g_img_header_t) : Int :=
  if h.flags &&& G_IMG_FLAG_INDEXED ≠ 0 then 2 * (h.palette_size + 1) else 0

/-- Offset of the first byte of frame `k` (frames are numbered from 1). -/
def ebg_frame_offset (h : g_img_header_t) (k : Int) : Int :=
  4 + 8 + ebg_palette_bytes h + (k - 1) * (h.width * h.height)

/-- Well-formed EBG stream: bytes, of which the first four are the signature, and which holds
the header, the palette the header announces and all `frame_count ≥ 1` frames. -/
def ebg_wf (file : List Nat) : Prop :=
  (∀ b ∈ file, b < 256) ∧ file.take 4 = ebg_signature ∧ 1 ≤ (ebg_header file).frame_count ∧
  ebg_frame_offset (ebg_header file) ((ebg_header file).frame_count + 1) ≤ (file.length : Int)

/-- The bitmap buffer of the image holds the bytes of frame `k` of the stream. -/
def HoldsFrame (file : List Nat) (img : g_img_t) (k : Int) : Prop :=
  ∃ b, img.bitmap = some b ∧
    ∀ i : Int, 0 ≤ i → i < img.header.width * img.header.height →
      b i = file.getD (ebg_frame_offset img.header k + i).toNat 0

/-- The frame calls of `img.h`. -/
inductive img_call_t where
  | next
  | prev
  | first
  deriving DecidableEq, Repr

/-- One frame call on the image and the state behind it. -/
def img_call (s : g_img_t × img_sys_t) : img_call_t → g_img_t × img_sys_t
  | img_call_t.next => g_img_load_next s.1 s.2
  | img_call_t.prev => g_img_load_prev s.1 s.2
  | img_call_t.first => g_img_load_first s.1 s.2

/-- A successful `g_img_open` followed by a sequence of frame calls (`none` when the open
returns `NULL`). -/
def img_session (env : img_env_t) (file : List Nat) (calls : List img_call_t) :
    Option (g_img_t × img_sys_t) :=
  (g_img_open env file).1.map fun img => calls.foldl img_call (img, (g_img_open env file).2)

/-- The `while (1)` loop of `g_draw_line` with the buffer left out: the points handed to
`g_draw_pixel`, in the order of the calls. -/
def g_draw_line_points (x1 y1 dx sx dy sy : Int) :
    Nat → Int → Int → Int → Option (List (Int × Int))
  | 0, _, _, _ => none
  | fuel + 1, x0, y0, e_xy =>
    if x0 = x1 ∧ y0 = y1 then some [(x0, y0)]
    else
      let e := e_xy
      let e_xy := if e > -dx then wrapI16 (e_xy - dy) else e_xy
      let x0n := if e > -dx then wrapI16 (x0 + sx) else x0
      let e_xy := if e < dy then wrapI16 (e_xy + dx) else e_xy
      let y0n := if e < dy then wrapI16 (y0 + sy) else y0
      (g_draw_line_points x1 y1 dx sx dy sy fuel x0n y0n e_xy).map fun pts => (x0, y0) :: pts

/-- The `g_draw_pixel` calls of the Bresenham branch of `g_draw_line`, in order. -/
def g_draw_line_calls (fuel : Nat) (x0 y0 x1 y1 : Int) : Option (List (Int × Int)) :=
  let dx := wrapI16 |x1 - x0|
  let sx := if x0 < x1 then 1 else -1
  let dy := wrapI16 |y1 - y0|
  let sy := if y0 < y1 then 1 else -1
  let e_xy := wrapI16 (Int.tdiv (if dx > dy then dx else -dy) 2)
  g_draw_line_points x1 y1 dx sx dy sy fuel x0 y0 e_xy

/-- The buffer after `g_draw_pixel` was called at each point of a list in turn. -/
def draw_pixels (vdb : g_vdb_t) (pts : List (Int × Int)) (color : g_color_t) : g_vdb_t :=
  pts.foldl (fun v p => (g_draw_pixel v p.1 p.2 color).2) vdb

/-- Two points that differ by at most 1 in each coordinate. -/
def adjacent (p q : Int × Int) : Prop := |q.1 - p.1| ≤ 1 ∧ |q.2 - p.2| ≤ 1

instance (p q : Int × Int) : Decidable (adjacent p q) := by unfold adjacent; infer_instance

/-- The entries `nodes[0 .. n)`. -/
def nodes_list (ns : polygon_nodes_t) (n : Nat) : List Int :=
  (List.range n).map fun k : Nat => ns.nodes (k : Int)

/-- Weight of `nodes[0 .. n)` that every swap of the sorting loop lowers: the sum of
`k * (32767 - nodes[k])`. -/
def nodes_weight (f : Int → Int) (n : Nat) : Int :=
  ((List.range n).map fun k : Nat => (k : Int) * (32767 - f (k : Int))).sum

/-- The horizontal segment drawn pixel by pixel: `g_draw_pixel(x + i, y, c)` for
`i = 0, …, n - 1` in turn. -/
def hline_by_pixels (vdb : g_vdb_t) (x y n : Int) (c : g_color_t) : g_vdb_t :=
  forRange 0 n (fun i s => (g_draw_pixel s (wrapI16 (x + i)) y c).2) vdb

/-- The vertical segment drawn pixel by pixel: `g_draw_pixel(x, y + i, c)` for
`i = 0, …, n - 1` in turn. -/
def vline_by_pixels (vdb : g_vdb_t) (x y n : Int) (c : g_color_t) : g_vdb_t :=
  forRange 0 n (fun i s => (g_draw_pixel s x (wrapI16 (y + i)) c).2) vdb

/-- Buffer `v1` is `v` after further stores, all of them to indices in `[0, N)`. -/
def WritesWithin (N : Int) (v v1 : g_vdb_t) : Prop :=
  v1.region = v.region ∧ ∃ l, v1.written = l ++ v.written ∧ ∀ i ∈ l, 0 ≤ i ∧ i < N

/-! ## Sample inputs -/

/-- Blank window buffer over a region (every cell `0`, nothing stored yet). -/
def blank (region : g_region_t) : g_vdb_t :=
  { region := region, buf := fun _ => 0, written := [] }

/-- Display with two blank buffers and capacity `c`. -/
def blankDisp (c : Int) : g_disp_t :=
  { vdb1 := blank ⟨0, 0, 0, 0⟩, vdb2 := blank ⟨0, 0, 0, 0⟩, vdb := false, vdb_size := c,
    width := 240, height := 320, sent := [] }

/-- Paint callback that draws nothing. -/
def noPaint : g_draw_t := fun _ v => v

/-- Triangle `(1,0) (5,0) (3,4)`. -/
def triangle : Int → g_point_t := fun i =>
  if i = 0 then ⟨.num 1, .num 0⟩ else if i = 1 then ⟨.num 5, .num 0⟩ else ⟨.num 3, .num 4⟩

/-- Zigzag polygon: vertex `i` is `(i, 0)` for even `i` and `(i, 10)` for odd `i`. -/
def zigzag : Int → g_point_t := fun i =>
  ⟨.num (i : ℚ), if i % 2 = 0 then .num 0 else .num 10⟩

/-- Proportional font of 8 x 2 cells starting at `'A'`: glyph `'A'` has the rows `11111100`
and `10000100` (ink width 6), glyph `'B'` the rows `01000000` and `10000000` (ink width 2). -/
def sampleFont : g_font_t :=
  { monospace := false, width := 8, height := 2, ascii_offset := 65
    glyphs := fun i => if i = 0 then 252 else if i = 1 then 132 else if i = 2 then 64
      else if i = 3 then 128 else 0 }

/-- The same glyphs as a monospace font. -/
def sampleMono : g_font_t := { sampleFont with monospace := true }

/-- Font of 255 x 1 cells (32 bytes per row) whose first glyph has one set bit, the last bit
of the row (column 255). -/
def wideFont : g_font_t :=
  { monospace := false, width := 255, height := 1, ascii_offset := 0
    glyphs := fun i => if i = 31 then 1 else 0 }

/-- Surroundings in which the file opens as descriptor 3, every allocation succeeds and fresh
memory reads 0. -/
def okEnv : img_env_t :=
  { fd := 3, malloc_img := true, malloc_palette := true, malloc_bitmap := true
    signature0 := fun _ => 0, header0 := fun _ => 0, palette0 := fun _ => 0
    bitmap0 := fun _ => 0 }

/-- Surroundings like `okEnv` in which the local array `signature` still holds the bytes
`'E','B','G',0x01`. -/
def staleEnv : img_env_t :=
  { okEnv with signature0 := fun i => ebg_signature.getD i.toNat 0 }

/-- Surroundings like `okEnv` in which the allocation of the palette fails. -/
def noPaletteEnv : img_env_t := { okEnv with malloc_palette := false }

/-- A 1 x 1 image without palette and with two frames, the bytes `0xAA` and `0xBB`. -/
def twoFrames : List Nat := [69, 66, 71, 1, 1, 0, 1, 0, 0, 0, 0, 2, 170, 187]

/-! ## Theorems -/

/-! ### Machine integers and loops -/

theorem wrapI16_eq {n : Int} (h : isI16 n) : wrapI16 n = n := by
  unfold isI16 at h; unfold wrapI16; omega

theorem wrapSize_eq {n : Int} (h0 : 0 ≤ n) (h1 : n < 4294967296) : wrapSize n = n := by
  unfold wrapSize; omega

theorem wrapI16_wrapSize (n : Int) : wrapI16 (wrapSize n) = wrapI16 n := by
  unfold wrapI16 wrapSize; omega

theorem isI16_wrapI16 (n : Int) : isI16 (wrapI16 n) := by
  unfold isI16 wrapI16; omega

theorem forLoop_succ {σ : Type} (cond : Int → Bool) (next : Int → Int)
    (body : Int → σ → Option σ) (fuel : Nat) (i : Int) (s : σ) :
    forLoop cond next body (fuel + 1) i s =
      if cond i then (body i s).bind (forLoop cond next body fuel (next i)) else some s := rfl

/-- A loop whose condition stays true along the counter's orbit never finishes. -/
theorem forLoop_diverges {σ : Type} (cond : Int → Bool) (next : Int → Int)
    (body : Int → σ → Option σ) (inv : Int → Prop)
    (hinv : ∀ i, inv i → cond i = true ∧ inv (next i))
    (hbody : ∀ i s, ∃ t, body i s = some t) :
    ∀ (fuel : Nat) (i : Int) (s : σ), inv i → forLoop cond next body fuel i s = none := by
  intro fuel
  induction fuel with
  | zero => intro i s _; rfl
  | succ n ih =>
    intro i s hi
    obtain ⟨hc, hn⟩ := hinv i hi
    obtain ⟨t, ht⟩ := hbody i s
    rw [forLoop_succ, hc, ht]
    simpa using ih (next i) t hn

/-! ### Window buffers -/

theorem active_setActive (d : g_disp_t) (v : g_vdb_t) : (d.setActive v).active = v := by
  unfold g_disp_t.setActive g_disp_t.active
  cases h : d.vdb <;> simp [h]

theorem sent_setActive (d : g_disp_t) (v : g_vdb_t) : (d.setActive v).sent = d.sent := by
  unfold g_disp_t.setActive
  cases h : d.vdb <;> simp

/-- Inside a well-typed window the `size_t` index computed by `g_draw_pixel` is the row-major
index, and it addresses one of the `width * height` window cells. -/
theorem pixel_index_eq (vdb : g_vdb_t) (x y : Int) (hw : vdb.region.wf)
    (hin : vdb.region.contains x y) :
    wrapSize ((y - vdb.region.y0) * g_region_width vdb.region + x - vdb.region.x0)
      = vdb.index x y := by
  obtain ⟨⟨hx0, hx0'⟩, ⟨hy0, hy0'⟩, ⟨hx1, hx1'⟩, ⟨hy1, hy1'⟩⟩ := hw
  obtain ⟨h1, h2, h3, h4⟩ := hin
  have hwd : g_region_width vdb.region = vdb.region.x1 - vdb.region.x0 + 1 := by
    unfold g_region_width; apply wrapSize_eq <;> omega
  rw [hwd]
  unfold g_vdb_t.index
  have ha : 0 ≤ y - vdb.region.y0 := by omega
  have ha' : y - vdb.region.y0 ≤ 65535 := by omega
  have hb : 0 ≤ vdb.region.x1 - vdb.region.x0 + 1 := by omega
  have hb' : vdb.region.x1 - vdb.region.x0 + 1 ≤ 65536 := by omega
  have hm0 : 0 ≤ (y - vdb.region.y0) * (vdb.region.x1 - vdb.region.x0 + 1) :=
    Int.mul_nonneg ha hb
  have hm1 : (y - vdb.region.y0) * (vdb.region.x1 - vdb.region.x0 + 1) ≤ 65535 * 65536 :=
    Int.mul_le_mul ha' hb' hb (by norm_num)
  rw [wrapSize_eq (by omega) (by omega)]
  omega

/-- The form of `g_draw_rect` that the line primitives call is `g_draw_rect` with
`G_FILLED`. -/
theorem g_draw_rect_filled_eq (fuel : Nat) (vdb : g_vdb_t) (region : g_region_t)
    (color : g_color_t) :
    g_draw_rect fuel vdb region color G_FILLED = g_draw_rect_filled fuel vdb region color := by
  unfold g_draw_rect g_draw_rect_filled
  simp

/-! ### Refresh scheduler -/

/-- One loop pass hands exactly one window to the transport: the strip region just assigned
(a paint callback that draws through the primitives leaves the region alone) with the pixel
count computed from it. -/
theorem g_refresh_region_body_sent (R : g_region_t) (draw_cb : g_draw_t) (s y : Int)
    (d : g_disp_t) (hcb : ∀ r v, (draw_cb r v).region = v.region) :
    (g_refresh_region_body R draw_cb s y d).sent =
      ((⟨R.x0, wrapI16 y, R.x1, wrapI16 (y + s - 1)⟩ : g_region_t),
        wrapSize (g_region_width ⟨R.x0, wrapI16 y, R.x1, wrapI16 (y + s - 1)⟩
          * g_region_height ⟨R.x0, wrapI16 y, R.x1, wrapI16 (y + s - 1)⟩)) :: d.sent := by
  simp only [g_refresh_region_body, g_vdb_flush, active_setActive, sent_setActive, hcb]

/-- With a positive step the strip loop finishes, and every window it sent starts at a row
`y` with `y0 ≤ y < R.y1 - 1` and spans `s` rows from there. -/
theorem g_refresh_region_loop_sent (R : g_region_t) (draw_cb : g_draw_t) (s : Int)
    (hcb : ∀ r v, (draw_cb r v).region = v.region) (hs : 1 ≤ s) :
    ∀ (fuel : Nat) (y : Int) (d : g_disp_t), (R.y1 - 1 - y).toNat < fuel →
      ∃ d1 new,
        forLoop (fun y => decide (y < R.y1 - 1)) (fun y => y + s)
          (fun y d => some (g_refresh_region_body R draw_cb s y d)) fuel y d = some d1 ∧
        d1.sent = new ++ d.sent ∧
        ∀ e ∈ new, ∃ y1, y ≤ y1 ∧ y1 < R.y1 - 1 ∧
          e.1 = ⟨R.x0, wrapI16 y1, R.x1, wrapI16 (y1 + s - 1)⟩ := by
  intro fuel
  induction fuel with
  | zero => intro y d h; omega
  | succ n ih =>
    intro y d h
    rw [forLoop_succ]
    by_cases hc : y < R.y1 - 1
    · have hf : (R.y1 - 1 - (y + s)).toNat < n := by omega
      obtain ⟨d1, new, h1, h2, h3⟩ := ih (y + s) (g_refresh_region_body R draw_cb s y d) hf
      have hb := g_refresh_region_body_sent R draw_cb s y d hcb
      refine ⟨d1, new ++ [((⟨R.x0, wrapI16 y, R.x1, wrapI16 (y + s - 1)⟩ : g_region_t),
        wrapSize (g_region_width ⟨R.x0, wrapI16 y, R.x1, wrapI16 (y + s - 1)⟩
          * g_region_height ⟨R.x0, wrapI16 y, R.x1, wrapI16 (y + s - 1)⟩))], ?_, ?_, ?_⟩
      · simpa [hc] using h1
      · rw [h2, hb]; simp
      · intro e he
        rcases List.mem_append.1 he with he | he
        · obtain ⟨y1, ha, hb1, hc1⟩ := h3 e he
          exact ⟨y1, by omega, hb1, hc1⟩
        · simp only [List.mem_singleton] at he
          exact ⟨y, le_refl y, hc, by rw [he]⟩
    · exact ⟨d, [], by simp [hc], by simp, by simp⟩

/-- For a region wider than the capacity (and of a height that fits `g_coord_t`) the step of
the strip loop is 0. -/
theorem g_refresh_region_step_too_wide (C : Int) (R : g_region_t)
    (hC : 0 ≤ C ∧ C < 4294967296) (hwide : C < g_region_width R)
    (h0 : 0 ≤ R.y1 - R.y0 + 1) (h1 : R.y1 - R.y0 + 1 ≤ 32767) :
    g_refresh_region_step C R = 0 := by
  have hq0 : C / g_region_width R = 0 := Int.ediv_eq_zero_of_lt hC.1 hwide
  have hh : g_region_height R = R.y1 - R.y0 + 1 := by
    unfold g_region_height; exact wrapSize_eq h0 (by omega)
  have hrh : wrapI16 (R.y1 - R.y0 + 1) = R.y1 - R.y0 + 1 := wrapI16_eq ⟨by omega, h1⟩
  have h00 : wrapI16 0 = 0 := by decide
  simp only [g_refresh_region_step, wrapSize_eq hC.1 hC.2, hq0, hh, hrh, h00]
  rw [if_neg (by omega)]

/-- For a region wider than the capacity and more than 2 rows high the strip loop never
advances: the call does not return, whatever the fuel. -/
theorem g_refresh_region_too_wide_diverges (d : g_disp_t) (R : g_region_t)
    (draw_cb : g_draw_t) (hC : 0 ≤ d.vdb_size ∧ d.vdb_size < 4294967296)
    (hwide : d.vdb_size < g_region_width R)
    (h3 : R.y0 < R.y1 - 1) (h1 : R.y1 - R.y0 + 1 ≤ 32767) :
    ∀ fuel, g_refresh_region fuel d R draw_cb = none := by
  intro fuel
  have hstep := g_refresh_region_step_too_wide d.vdb_size R hC hwide (by omega) h1
  simp only [g_refresh_region, hstep, Option.map_eq_none']
  apply forLoop_diverges _ _ _ (fun i => i = R.y0)
  · intro i hi
    subst hi
    exact ⟨by simpa using h3, by simp⟩
  · intro i s; exact ⟨_, rfl⟩
  · rfl

/-! ### Painting and polygon scan -/

theorem paint_nil (v : g_vdb_t) (c : g_color_t) : paint v [] c = v := rfl

theorem paint_cons (v : g_vdb_t) (i : Int) (l : List Int) (c : g_color_t) :
    paint v (i :: l) c = (paint v l c).store i c := rfl

theorem paint_region (v : g_vdb_t) (l : List Int) (c : g_color_t) :
    (paint v l c).region = v.region := by
  induction l with
  | nil => rfl
  | cons i l ih => rw [paint_cons]; exact ih

theorem paint_written (v : g_vdb_t) (l : List Int) (c : g_color_t) :
    (paint v l c).written = l ++ v.written := by
  induction l with
  | nil => rfl
  | cons i l ih => rw [paint_cons]; simp [g_vdb_t.store, ih]

theorem forRange_eq_foldl {σ : Type} (lo hi : Int) (body : Int → σ → σ) (s : σ) :
    forRange lo hi body s =
      (List.range (hi - lo).toNat).foldl (fun s (k : Nat) => body (lo + (k : Int)) s) s := rfl

/-- A loop of colour stores paints the list of its indices. -/
theorem forRange_store (lo hi : Int) (f : Int → Int) (c : g_color_t) (v : g_vdb_t) :
    forRange lo hi (fun i s => s.store (f i) c) v =
      paint v (((List.range (hi - lo).toNat).map fun k : Nat => f (lo + (k : Int))).reverse) c := by
  rw [forRange_eq_foldl]
  generalize (hi - lo).toNat = n
  induction n with
  | zero => rfl
  | succ n ih =>
    rw [List.range_succ, List.foldl_append, List.map_append, List.reverse_append, ih]
    rfl

theorem polygon_crossings_succ (points : Int → g_point_t) (len y : Int) (m : Nat) :
    polygon_crossings points len y (m + 1) = polygon_crossings points len y m +
      if polygon_crosses (points (m : Int)) (points (polygon_prev len (m : Int))) y then 1
      else 0 := by
  unfold polygon_crossings
  rw [List.range_succ, List.countP_append]
  simp [List.countP_cons]

theorem polygon_crossings_le (points : Int → g_point_t) (len y : Int) (m : Nat) :
    polygon_crossings points len y m ≤ m := by
  unfold polygon_crossings
  exact (List.countP_le_length _).trans (by simp)

/-- State of the segment loop after `m` segments: `count` is the number of intersections so
far reduced to 8 bits, `j` the previous vertex, and intersection number `k` was stored at
index `k mod 256`. -/
theorem polygon_scan_fold (points : Int → g_point_t) (len y : Int) (ns : polygon_nodes_t)
    (m : Nat) :
    ((List.range m).foldl (fun s (k : Nat) => polygon_scan_step points y (0 + (k : Int)) s)
        (ns, 0, wrapU16 (len - 1))).2.1
      = ((polygon_crossings points len y m : Nat) : Int) % 256 ∧
    ((List.range m).foldl (fun s (k : Nat) => polygon_scan_step points y (0 + (k : Int)) s)
        (ns, 0, wrapU16 (len - 1))).2.2 = polygon_prev len (m : Int) ∧
    ((List.range m).foldl (fun s (k : Nat) => polygon_scan_step points y (0 + (k : Int)) s)
        (ns, 0, wrapU16 (len - 1))).1.stored
      = ((List.range (polygon_crossings points len y m)).map
          fun k : Nat => (k : Int) % 256).reverse ++ ns.stored := by
  induction m with
  | zero => simp [polygon_crossings, polygon_prev]
  | succ m ih =>
    rw [List.range_succ, List.foldl_append]
    simp only [List.foldl_cons, List.foldl_nil]
    revert ih
    generalize (List.range m).foldl
      (fun s (k : Nat) => polygon_scan_step points y (0 + (k : Int)) s)
      (ns, 0, wrapU16 (len - 1)) = S
    rintro ⟨h1, h2, h3⟩
    have hprev : polygon_prev len ((m + 1 : Nat) : Int) = (m : Int) := by
      unfold polygon_prev
      rw [if_neg (by omega)]
      push_cast
      omega
    rw [polygon_crossings_succ, hprev]
    simp only [polygon_scan_step, zero_add, h2]
    by_cases hc : polygon_crosses (points (m : Int)) (points (polygon_prev len (m : Int))) y
        = true
    · simp only [hc, if_true]
      refine ⟨?_, trivial, ?_⟩
      · rw [h1]; unfold wrapU8; push_cast; omega
      · simp only [polygon_nodes_t.store, h3, h1, List.range_succ, List.map_append,
          List.reverse_append, List.map_cons, List.map_nil, List.reverse_cons,
          List.reverse_nil, List.nil_append, List.singleton_append, List.cons_append]
    · have hc1 : polygon_crosses (points (m : Int)) (points (polygon_prev len (m : Int))) y
          = false := by simpa using hc
      rw [hc1]
      exact ⟨by simpa using h1, rfl, h3⟩

theorem polygon_scan_eq (points : Int → g_point_t) (len y : Int) (ns : polygon_nodes_t) :
    (polygon_scan points len y ns).2.1
        = ((polygon_crossings points len y len.toNat : Nat) : Int) % 256 ∧
    (polygon_scan points len y ns).1.stored
        = ((List.range (polygon_crossings points len y len.toNat)).map
            fun k : Nat => (k : Int) % 256).reverse ++ ns.stored := by
  have h := polygon_scan_fold points len y ns len.toNat
  simp only [polygon_scan, forRange_eq_foldl, sub_zero]
  exact ⟨h.1, h.2.2⟩

theorem polygon_crossings_all (points : Int → g_point_t) (len y : Int) (m : Nat)
    (h : ∀ k : Nat, k < m →
      polygon_crosses (points (k : Int)) (points (polygon_prev len (k : Int))) y = true) :
    polygon_crossings points len y m = m := by
  induction m with
  | zero => rfl
  | succ m ih =>
    rw [polygon_crossings_succ, ih (fun k hk => h k (by omega)), h m (by omega)]
    rfl

/-- The sorting loop only stores below `count`, and keeps the earlier record. -/
theorem polygon_sort_stored (count : Int) :
    ∀ (fuel : Nat) (i : Int) (ns ns1 : polygon_nodes_t), 0 ≤ i →
      polygon_sort count fuel i ns = some ns1 →
      ∃ new, ns1.stored = new ++ ns.stored ∧ ∀ k ∈ new, 0 ≤ k ∧ k < count := by
  intro fuel
  induction fuel with
  | zero => intro i ns ns1 _ h; simp [polygon_sort] at h
  | succ n ih =>
    intro i ns ns1 hi h
    unfold polygon_sort at h
    by_cases hc : i < count - 1
    · rw [if_pos hc] at h
      by_cases hs : ns.nodes i > ns.nodes (i + 1)
      · rw [if_pos hs] at h
        have hi1 : 0 ≤ (if i ≠ 0 then wrapU16 (i - 1) else i) := by
          unfold wrapU16; split <;> omega
        obtain ⟨new, h1, h2⟩ := ih _ _ ns1 hi1 h
        refine ⟨new ++ [i + 1, i], ?_, ?_⟩
        · rw [h1]; simp [polygon_nodes_t.store]
        · intro k hk
          rcases List.mem_append.1 hk with hk | hk
          · exact h2 k hk
          · simp only [List.mem_cons, List.mem_singleton, List.not_mem_nil, or_false] at hk
            omega
      · rw [if_neg hs] at h
        have hi1 : 0 ≤ wrapU16 (i + 1) := by unfold wrapU16; omega
        exact ih _ _ ns1 hi1 h
    · rw [if_neg hc] at h
      exact ⟨[], by simp at h; rw [← h]; rfl, by simp⟩

/-- One row keeps the earlier record of node stores and, when at most 64 segments intersect
the row, only adds indices below 64. -/
theorem polygon_row_stored (fuel : Nat) (points : Int → g_point_t) (len : Int)
    (c : g_color_t) (y : Int) (s s1 : g_vdb_t × polygon_nodes_t)
    (h : polygon_row fuel points len c y s = some s1) :
    ∃ new, s1.2.stored = new ++ (polygon_scan points len y s.2).1.stored ∧
      (polygon_crossings points len y len.toNat ≤ 64 →
        ∀ k ∈ new ++ ((List.range (polygon_crossings points len y len.toNat)).map
          fun k : Nat => (k : Int) % 256).reverse, 0 ≤ k ∧ k < 64) := by
  unfold polygon_row at h
  cases hs : polygon_sort (polygon_scan points len y s.2).2.1 fuel 0
      (polygon_scan points len y s.2).1 with
  | none => simp [hs] at h
  | some ns =>
    simp only [hs, Option.some_bind, Option.map_eq_some'] at h
    obtain ⟨v, _, hv⟩ := h
    obtain ⟨new, h1, h2⟩ := polygon_sort_stored _ fuel 0 _ ns (le_refl 0) hs
    refine ⟨new, by rw [← hv]; exact h1, fun hle k hk => ?_⟩
    have hcount := (polygon_scan_eq points len y s.2).1
    rcases List.mem_append.1 hk with hk | hk
    · have := h2 k hk
      rw [hcount] at this
      omega
    · simp only [List.mem_reverse, List.mem_map, List.mem_range] at hk
      obtain ⟨a, ha, hka⟩ := hk
      omega

/-- A property kept by every pass of the body holds when the loop finishes. -/
theorem forLoop_invariant {σ : Type} (cond : Int → Bool) (next : Int → Int)
    (body : Int → σ → Option σ) (P : σ → Prop)
    (hbody : ∀ i s s1, P s → body i s = some s1 → P s1) :
    ∀ (fuel : Nat) (i : Int) (s s1 : σ), P s →
      forLoop cond next body fuel i s = some s1 → P s1 := by
  intro fuel
  induction fuel with
  | zero => intro i s s1 _ h; simp [forLoop] at h
  | succ n ih =>
    intro i s s1 hP h
    rw [forLoop_succ] at h
    by_cases hc : cond i = true
    · rw [if_pos hc] at h
      cases hb : body i s with
      | none => simp [hb] at h
      | some s2 =>
        rw [hb] at h
        exact ih (next i) s2 s1 (hbody i s s2 hP hb) h
    · rw [if_neg hc] at h
      simp only [Option.some.injEq] at h
      rw [← h]; exact hP

theorem polygon_row_stored_mono (fuel : Nat) (points : Int → g_point_t) (len : Int)
    (c : g_color_t) (y : Int) (s s1 : g_vdb_t × polygon_nodes_t)
    (h : polygon_row fuel points len c y s = some s1) (k : Int)
    (hk : k ∈ (polygon_scan points len y s.2).1.stored) : k ∈ s1.2.stored := by
  obtain ⟨new, h1, _⟩ := polygon_row_stored fuel points len c y s s1 h
  rw [h1]; exact List.mem_append_right _ hk

theorem zigzag_crosses (k : Nat) (hk : k < 66) :
    polygon_crosses (zigzag (k : Int)) (zigzag (polygon_prev 66 (k : Int))) 5 = true := by
  interval_cases k <;> decide

set_option maxRecDepth 100000 in
theorem zigzag_limits : polygon_limits 320 (blank ⟨0, 5, 70, 5⟩) zigzag 66 = (5, 5) := by
  decide

/-! ### Circle and bitmap -/

theorem g_draw_hline_one (fuel : Nat) (v : g_vdb_t) (x y w : Int) (c : g_color_t) :
    g_draw_hline fuel v x y w c 1 = some (ESP_OK, paint v (hline_cells v.region x y w) c) := by
  by_cases hrow : y < v.region.y0 ∨ y > v.region.y1
  · simp [g_draw_hline, hline_cells, hrow, paint_nil]
  · simp only [g_draw_hline, hline_cells, if_neg hrow, forRange_store]
    simp

/-- With no 16-bit overflow, a span that contains the window pixel `(px, y)` stores to the
cell of that pixel. -/
theorem hline_cells_mem (reg : g_region_t) (x y w px : Int) (hw : reg.wf)
    (hwidth : reg.x1 - reg.x0 + 1 ≤ 32767) (hin : reg.contains px y)
    (h1 : x ≤ px) (h2 : px ≤ x + w - 1) :
    wrapSize ((y - reg.y0) * g_region_width reg + px - reg.x0) ∈ hline_cells reg x y w := by
  obtain ⟨⟨hx0, hx0'⟩, ⟨hy0, hy0'⟩, ⟨hx1, hx1'⟩, ⟨hy1, hy1'⟩⟩ := hw
  obtain ⟨ha, hb, hc, hd⟩ := hin
  have hrow : ¬ (y < reg.y0 ∨ y > reg.y1) := by omega
  have hW : g_region_width reg = reg.x1 - reg.x0 + 1 := by
    unfold g_region_width; exact wrapSize_eq (by omega) (by omega)
  have hlo : wrapI16 (if x < reg.x0 then 0 else x - reg.x0)
      = if x < reg.x0 then 0 else x - reg.x0 := by
    apply wrapI16_eq; unfold isI16; split <;> omega
  have hhi : wrapI16 (wrapSize (if x + w - 1 > reg.x1 then g_region_width reg
      else x + w - reg.x0))
      = if x + w - 1 > reg.x1 then reg.x1 - reg.x0 + 1 else x + w - reg.x0 := by
    rw [wrapI16_wrapSize, hW]
    apply wrapI16_eq; unfold isI16; split <;> omega
  simp only [hline_cells, if_neg hrow, hlo, hhi, List.mem_reverse, List.mem_map,
    List.mem_range]
  refine ⟨(px - reg.x0 - (if x < reg.x0 then 0 else x - reg.x0)).toNat, ?_, ?_⟩
  · split <;> split <;> omega
  · congr 1
    have : ((px - reg.x0 - (if x < reg.x0 then 0 else x - reg.x0)).toNat : Int)
        = px - reg.x0 - (if x < reg.x0 then 0 else x - reg.x0) := by
      apply Int.toNat_of_nonneg; split <;> omega
    rw [this]; ring

theorem covered_paint (reg : g_region_t) (vo vf : g_vdb_t) (l : List Int) (c : g_color_t)
    (h : Covered reg vo vf) : Covered reg vo (paint vf l c) :=
  ⟨h.1, by rw [paint_region]; exact h.2.1,
   fun i hi => by rw [paint_written]; exact List.mem_append_right _ (h.2.2 i hi)⟩

theorem covered_pixel (reg : g_region_t) (vo vf : g_vdb_t) (px py : Int) (c : g_color_t)
    (h : Covered reg vo vf)
    (hcov : reg.contains px py →
      wrapSize ((py - reg.y0) * g_region_width reg + px - reg.x0) ∈ vf.written) :
    Covered reg (g_draw_pixel vo px py c).2 vf := by
  obtain ⟨hr, hf, hm⟩ := h
  subst hr
  unfold g_draw_pixel
  by_cases hout : px < vo.region.x0 ∨ py < vo.region.y0 ∨ px > vo.region.x1
      ∨ py > vo.region.y1
  · rw [if_pos hout]; exact ⟨rfl, hf, hm⟩
  · rw [if_neg hout]
    refine ⟨rfl, hf, fun i hi => ?_⟩
    simp only [g_vdb_t.store, List.mem_cons] at hi
    rcases hi with hi | hi
    · rw [hi]; apply hcov; unfold g_region_t.contains; omega
    · exact hm i hi

/-- One step of the circle loops: the four spans of the filled draw cover the eight pixels of
the outline, as long as `cx - x .. cx + x` stays within 16 bits. -/
theorem circle_step_covered (reg : g_region_t) (vo vf : g_vdb_t) (cx cy x y : Int)
    (c : g_color_t) (hw : reg.wf) (hwidth : reg.x1 - reg.x0 + 1 ≤ 32767)
    (h : Covered reg vo vf) (hy : 0 ≤ y) (hyx : y ≤ x)
    (hl : -32768 ≤ cx - x) (hh : cx + x ≤ 32767) :
    Covered reg (g_draw_circle_points cx cy x y c vo)
      (paint (paint (paint (paint vf
        (hline_cells reg (cx - y) (wrapI16 (cy - x)) (2 * y + 1)) c)
        (hline_cells reg (cx - x) (wrapI16 (cy - y)) (2 * x + 1)) c)
        (hline_cells reg (cx - x) (wrapI16 (cy + y)) (2 * x + 1)) c)
        (hline_cells reg (cx - y) (wrapI16 (cy + x)) (2 * y + 1)) c) := by
  have hw1 : ∀ n, -32768 ≤ n → n ≤ 32767 → wrapI16 n = n := fun n a b => wrapI16_eq ⟨a, b⟩
  have e1 : wrapI16 (cx + x) = cx + x := hw1 _ (by omega) (by omega)
  have e2 : wrapI16 (cx + y) = cx + y := hw1 _ (by omega) (by omega)
  have e3 : wrapI16 (cx - y) = cx - y := hw1 _ (by omega) (by omega)
  have e4 : wrapI16 (cx - x) = cx - x := hw1 _ (by omega) (by omega)
  have h4 := covered_paint reg vo _ (hline_cells reg (cx - y) (wrapI16 (cy + x)) (2 * y + 1)) c
    (covered_paint reg vo _ (hline_cells reg (cx - x) (wrapI16 (cy + y)) (2 * x + 1)) c
    (covered_paint reg vo _ (hline_cells reg (cx - x) (wrapI16 (cy - y)) (2 * x + 1)) c
    (covered_paint reg vo _ (hline_cells reg (cx - y) (wrapI16 (cy - x)) (2 * y + 1)) c h)))
  have m1 : ∀ px, reg.contains px (wrapI16 (cy - x)) → cx - y ≤ px → px ≤ cx + y →
      wrapSize ((wrapI16 (cy - x) - reg.y0) * g_region_width reg + px - reg.x0) ∈
        (paint (paint (paint (paint vf
        (hline_cells reg (cx - y) (wrapI16 (cy - x)) (2 * y + 1)) c)
        (hline_cells reg (cx - x) (wrapI16 (cy - y)) (2 * x + 1)) c)
        (hline_cells reg (cx - x) (wrapI16 (cy + y)) (2 * x + 1)) c)
        (hline_cells reg (cx - y) (wrapI16 (cy + x)) (2 * y + 1)) c).written := by
    intro px hin ha hb
    have := hline_cells_mem reg (cx - y) (wrapI16 (cy - x)) (2 * y + 1) px hw hwidth hin ha
      (by omega)
    simp only [paint_written, List.mem_append]
    exact Or.inr (Or.inr (Or.inr (Or.inl this)))
  have m2 : ∀ px, reg.contains px (wrapI16 (cy - y)) → cx - x ≤ px → px ≤ cx + x →
      wrapSize ((wrapI16 (cy - y) - reg.y0) * g_region_width reg + px - reg.x0) ∈
        (paint (paint (paint (paint vf
        (hline_cells reg (cx - y) (wrapI16 (cy - x)) (2 * y + 1)) c)
        (hline_cells reg (cx - x) (wrapI16 (cy - y)) (2 * x + 1)) c)
        (hline_cells reg (cx - x) (wrapI16 (cy + y)) (2 * x + 1)) c)
        (hline_cells reg (cx - y) (wrapI16 (cy + x)) (2 * y + 1)) c).written := by
    intro px hin ha hb
    have := hline_cells_mem reg (cx - x) (wrapI16 (cy - y)) (2 * x + 1) px hw hwidth hin ha
      (by omega)
    simp only [paint_written, List.mem_append]
    exact Or.inr (Or.inr (Or.inl this))
  have m3 : ∀ px, reg.contains px (wrapI16 (cy + y)) → cx - x ≤ px → px ≤ cx + x →
      wrapSize ((wrapI16 (cy + y) - reg.y0) * g_region_width reg + px - reg.x0) ∈
        (paint (paint (paint (paint vf
        (hline_cells reg (cx - y) (wrapI16 (cy - x)) (2 * y + 1)) c)
        (hline_cells reg (cx - x) (wrapI16 (cy - y)) (2 * x + 1)) c)
        (hline_cells reg (cx - x) (wrapI16 (cy + y)) (2 * x + 1)) c)
        (hline_cells reg (cx - y) (wrapI16 (cy + x)) (2 * y + 1)) c).written := by
    intro px hin ha hb
    have := hline_cells_mem reg (cx - x) (wrapI16 (cy + y)) (2 * x + 1) px hw hwidth hin ha
      (by omega)
    simp only [paint_written, List.mem_append]
    exact Or.inr (Or.inl this)
  have m4 : ∀ px, reg.contains px (wrapI16 (cy + x)) → cx - y ≤ px → px ≤ cx + y →
      wrapSize ((wrapI16 (cy + x) - reg.y0) * g_region_width reg + px - reg.x0) ∈
        (paint (paint (paint (paint vf
        (hline_cells reg (cx - y) (wrapI16 (cy - x)) (2 * y + 1)) c)
        (hline_cells reg (cx - x) (wrapI16 (cy - y)) (2 * x + 1)) c)
        (hline_cells reg (cx - x) (wrapI16 (cy + y)) (2 * x + 1)) c)
        (hline_cells reg (cx - y) (wrapI16 (cy + x)) (2 * y + 1)) c).written := by
    intro px hin ha hb
    have := hline_cells_mem reg (cx - y) (wrapI16 (cy + x)) (2 * y + 1) px hw hwidth hin ha
      (by omega)
    simp only [paint_written, List.mem_append]
    exact Or.inl this
  unfold g_draw_circle_points
  rw [e1, e2, e3, e4]
  refine covered_pixel reg _ _ _ _ c ?_ (fun hin => m3 _ hin (by omega) (by omega))
  refine covered_pixel reg _ _ _ _ c ?_ (fun hin => m4 _ hin (by omega) (by omega))
  refine covered_pixel reg _ _ _ _ c ?_ (fun hin => m4 _ hin (by omega) (by omega))
  refine covered_pixel reg _ _ _ _ c ?_ (fun hin => m3 _ hin (by omega) (by omega))
  refine covered_pixel reg _ _ _ _ c ?_ (fun hin => m2 _ hin (by omega) (by omega))
  refine covered_pixel reg _ _ _ _ c ?_ (fun hin => m1 _ hin (by omega) (by omega))
  refine covered_pixel reg _ _ _ _ c ?_ (fun hin => m1 _ hin (by omega) (by omega))
  exact covered_pixel reg _ _ _ _ c h4 (fun hin => m2 _ hin (by omega) (by omega))

theorem g_draw_circle_fill_succ (cx cy : Int) (c : g_color_t) (n : Nat) (x y d : Int)
    (vf : g_vdb_t) (hyx : y ≤ x) :
    g_draw_circle_fill cx cy c (n + 1) x y d vf =
      g_draw_circle_fill cx cy c n (if d > 0 then wrapI16 (x - 1) else x) (wrapI16 (y + 1))
        (if d > 0 then wrapI16 (d + 4 * (wrapI16 (y + 1) - wrapI16 (x - 1)) + 10)
          else wrapI16 (d + 4 * wrapI16 (y + 1) + 6))
        (paint (paint (paint (paint vf
          (hline_cells vf.region (wrapI16 (cx - y)) (wrapI16 (cy - x)) (wrapU16 (2 * y + 1))) c)
          (hline_cells vf.region (wrapI16 (cx - x)) (wrapI16 (cy - y)) (wrapU16 (2 * x + 1))) c)
          (hline_cells vf.region (wrapI16 (cx - x)) (wrapI16 (cy + y)) (wrapU16 (2 * x + 1))) c)
          (hline_cells vf.region (wrapI16 (cx - y)) (wrapI16 (cy + x)) (wrapU16 (2 * y + 1)))
          c) := by
  rw [g_draw_circle_fill]
  simp only [if_pos hyx, g_draw_hline_one, Option.some_bind, paint_region]
  split <;> rfl

theorem g_draw_circle_outline_succ (cx cy : Int) (c : g_color_t) (n : Nat) (x y d : Int)
    (vo : g_vdb_t) (hyx : y ≤ x) :
    g_draw_circle_outline cx cy c (n + 1) x y d vo =
      g_draw_circle_outline cx cy c n (if d > 0 then wrapI16 (x - 1) else x) (wrapI16 (y + 1))
        (if d > 0 then wrapI16 (d + 4 * (wrapI16 (y + 1) - wrapI16 (x - 1)) + 10)
          else wrapI16 (d + 4 * wrapI16 (y + 1) + 6))
        (g_draw_circle_points cx cy x y c vo) := by
  rw [g_draw_circle_outline]
  simp only [if_pos hyx]
  split <;> rfl

/-- The two circle loops run in lockstep; with no 16-bit overflow they finish, and the filled
draw has stored to every cell the outline stored to. -/
theorem circle_loops_covered (reg : g_region_t) (cx cy r : Int) (c : g_color_t)
    (hw : reg.wf) (hwidth : reg.x1 - reg.x0 + 1 ≤ 32767)
    (hl : -32768 ≤ cx - r) (hh : cx + r ≤ 32767) :
    ∀ (fuel : Nat) (x y d : Int) (vo vf : g_vdb_t), Covered reg vo vf → 0 ≤ y → x ≤ r →
      (x ≤ 32766 ∨ (y = 0 ∧ d > 0)) → (x - y + 1).toNat < fuel →
      ∃ vo1 vf1, g_draw_circle_outline cx cy c fuel x y d vo = some vo1 ∧
        g_draw_circle_fill cx cy c fuel x y d vf = some vf1 ∧ Covered reg vo1 vf1 := by
  intro fuel
  induction fuel with
  | zero => intro x y d vo vf _ _ _ _ h; omega
  | succ n ih =>
    intro x y d vo vf hcov hy hx hinv hf
    by_cases hyx : y ≤ x
    · rw [g_draw_circle_fill_succ _ _ _ _ _ _ _ _ hyx,
        g_draw_circle_outline_succ _ _ _ _ _ _ _ _ hyx]
      have ey : wrapI16 (y + 1) = y + 1 := by
        apply wrapI16_eq; unfold isI16; omega
      have ex : wrapI16 (x - 1) = x - 1 := by
        apply wrapI16_eq; unfold isI16; omega
      have e3 : wrapI16 (cx - y) = cx - y := by
        apply wrapI16_eq; unfold isI16; omega
      have e4 : wrapI16 (cx - x) = cx - x := by
        apply wrapI16_eq; unfold isI16; omega
      have u1 : wrapU16 (2 * y + 1) = 2 * y + 1 := by unfold wrapU16; omega
      have u2 : wrapU16 (2 * x + 1) = 2 * x + 1 := by unfold wrapU16; omega
      rw [hcov.2.1, e3, e4, u1, u2, ey, ex]
      apply ih
      · exact circle_step_covered reg vo vf cx cy x y c hw hwidth hcov hy hyx (by omega)
          (by omega)
      · omega
      · split <;> omega
      · left; split <;> omega
      · split <;> omega
    · refine ⟨vo, vf, ?_, ?_, hcov⟩
      · rw [g_draw_circle_outline]; simp [hyx]
      · rw [g_draw_circle_fill]; simp [hyx]

theorem forRange_succ_left {σ : Type} (lo hi : Int) (body : Int → σ → σ) (s : σ)
    (h : lo < hi) : forRange lo hi body s = forRange (lo + 1) hi body (body lo s) := by
  rw [forRange_eq_foldl, forRange_eq_foldl]
  have hn : (hi - lo).toNat = (hi - (lo + 1)).toNat + 1 := by omega
  rw [hn, List.range_succ_eq_map, List.foldl_cons, List.foldl_map]
  simp only [Nat.cast_zero, add_zero, Nat.cast_succ]
  congr 1
  funext s k
  congr 1
  ring

/-- A counting loop over `g_coord_t` whose bound fits 16 bits finishes, and is the plain
range loop. -/
theorem forLoop_eq_forRange {σ : Type} (hi : Int) (hhi : hi ≤ 32767) (body : Int → σ → σ) :
    ∀ (fuel : Nat) (lo : Int) (s : σ), -32768 ≤ lo → (hi - lo).toNat < fuel →
      forLoop (fun i => decide (i < hi)) (fun i => wrapI16 (i + 1))
        (fun i s => some (body i s)) fuel lo s = some (forRange lo hi body s) := by
  intro fuel
  induction fuel with
  | zero => intro lo s _ h; omega
  | succ n ih =>
    intro lo s hlo hf
    rw [forLoop_succ]
    by_cases hc : lo < hi
    · have e : wrapI16 (lo + 1) = lo + 1 := by apply wrapI16_eq; unfold isI16; omega
      simp only [hc, decide_True, if_true, Option.some_bind, e]
      rw [ih (lo + 1) (body lo s) (by omega) (by omega), forRange_succ_left lo hi body s hc]
    · simp only [hc, decide_False, Bool.false_eq_true, if_false]
      rw [forRange_eq_foldl]
      have : (hi - lo).toNat = 0 := by omega
      rw [this]; rfl

theorem paintsTo_refl (c : g_color_t) (S : Int → Prop) (v : g_vdb_t) (h : ∀ j, ¬ S j) :
    PaintsTo c S v v :=
  ⟨rfl, fun j => ⟨fun hj => absurd hj (h j), fun _ => rfl⟩⟩

theorem paintsTo_trans (c : g_color_t) (S1 S2 S : Int → Prop) (v v1 v2 : g_vdb_t)
    (h1 : PaintsTo c S1 v v1) (h2 : PaintsTo c S2 v1 v2) (hS : ∀ j, S j ↔ S1 j ∨ S2 j) :
    PaintsTo c S v v2 := by
  refine ⟨h2.1.trans h1.1, fun j => ⟨fun hj => ?_, fun hj => ?_⟩⟩
  · by_cases h : S2 j
    · exact (h2.2 j).1 h
    · rw [(h2.2 j).2 h]
      exact (h1.2 j).1 (((hS j).1 hj).resolve_right h)
  · have hn1 : ¬ S1 j := fun h => hj ((hS j).2 (Or.inl h))
    have hn2 : ¬ S2 j := fun h => hj ((hS j).2 (Or.inr h))
    rw [(h2.2 j).2 hn2, (h1.2 j).2 hn1]

/-- A range loop whose passes each paint a set of cells paints the union of the sets. -/
theorem forRange_paintsTo (c : g_color_t) (reg : g_region_t) (S : Int → Int → Prop)
    (body : Int → g_vdb_t → g_vdb_t)
    (hbody : ∀ i s, s.region = reg → PaintsTo c (S i) s (body i s)) (lo hi : Int)
    (s : g_vdb_t) (hs : s.region = reg) :
    PaintsTo c (fun j => ∃ i, lo ≤ i ∧ i < hi ∧ S i j) s (forRange lo hi body s) := by
  rw [forRange_eq_foldl]
  have key : ∀ n : Nat, PaintsTo c (fun j => ∃ i, lo ≤ i ∧ i < lo + (n : Int) ∧ S i j) s
      ((List.range n).foldl (fun s (k : Nat) => body (lo + (k : Int)) s) s) := by
    intro n
    induction n with
    | zero => exact paintsTo_refl c _ s (fun j ⟨i, h1, h2, _⟩ => by simp at h2; omega)
    | succ n ih =>
      rw [List.range_succ, List.foldl_append]
      simp only [List.foldl_cons, List.foldl_nil]
      refine paintsTo_trans c _ (S (lo + (n : Int))) _ s _ _ ih
        (hbody _ _ (ih.1.trans hs)) (fun j => ⟨?_, ?_⟩)
      · rintro ⟨i, h1, h2, h3⟩
        by_cases hi : i = lo + (n : Int)
        · right; rw [← hi]; exact h3
        · left; exact ⟨i, h1, by push_cast at h2; omega, h3⟩
      · rintro (⟨i, h1, h2, h3⟩ | h)
        · exact ⟨i, h1, by push_cast; omega, h3⟩
        · exact ⟨lo + (n : Int), by omega, by push_cast; omega, h⟩
  by_cases hlt : lo ≤ hi
  · have := key (hi - lo).toNat
    have e : lo + ((hi - lo).toNat : Int) = hi := by omega
    rw [e] at this
    exact this
  · have h0 : (hi - lo).toNat = 0 := by omega
    rw [h0]
    exact paintsTo_refl c _ s (fun j ⟨i, h1, h2, _⟩ => by omega)

theorem g_draw_pixel_paintsTo (reg : g_region_t) (s : g_vdb_t) (px py : Int) (c : g_color_t)
    (hs : s.region = reg) :
    PaintsTo c (fun j => reg.contains px py ∧
        j = wrapSize ((py - reg.y0) * g_region_width reg + px - reg.x0))
      s (g_draw_pixel s px py c).2 := by
  subst hs
  unfold g_draw_pixel
  by_cases hout : px < s.region.x0 ∨ py < s.region.y0 ∨ px > s.region.x1 ∨ py > s.region.y1
  · rw [if_pos hout]
    exact paintsTo_refl c _ s (fun j ⟨h, _⟩ => by unfold g_region_t.contains at h; omega)
  · rw [if_neg hout]
    have hin : s.region.contains px py := by unfold g_region_t.contains; omega
    refine ⟨rfl, fun j => ⟨fun ⟨_, hj⟩ => ?_, fun hj => ?_⟩⟩
    · simp [g_vdb_t.store, hj]
    · have : j ≠ wrapSize ((py - s.region.y0) * g_region_width s.region + px - s.region.x0) :=
        fun h => hj ⟨hin, h⟩
      simp [g_vdb_t.store, this]

/-- The test `byte & (1 << k)` of the blit reads bit `k` of the byte. -/
theorem and_shift_ne_zero (b k : Nat) : (b &&& (1 <<< k) ≠ 0) ↔ b.testBit k = true := by
  rw [Nat.one_shiftLeft, Nat.and_two_pow]
  cases h : b.testBit k
  · simp
  · simp

/-- Distinct window pixels have distinct buffer cells. -/
theorem index_inj (reg : g_region_t) (px py qx qy : Int) (hp : reg.contains px py)
    (hq : reg.contains qx qy)
    (h : (py - reg.y0) * (reg.x1 - reg.x0 + 1) + (px - reg.x0)
       = (qy - reg.y0) * (reg.x1 - reg.x0 + 1) + (qx - reg.x0)) : px = qx ∧ py = qy := by
  obtain ⟨a1, a2, a3, a4⟩ := hp
  obtain ⟨b1, b2, b3, b4⟩ := hq
  have hy : py = qy := by
    by_contra hne
    rcases lt_or_gt_of_ne hne with hlt | hgt
    · have : (qy - py) * (reg.x1 - reg.x0 + 1) ≥ 1 * (reg.x1 - reg.x0 + 1) :=
        Int.mul_le_mul_of_nonneg_right (by omega) (by omega)
      nlinarith
    · have : (py - qy) * (reg.x1 - reg.x0 + 1) ≥ 1 * (reg.x1 - reg.x0 + 1) :=
        Int.mul_le_mul_of_nonneg_right (by omega) (by omega)
      nlinarith
  subst hy
  exact ⟨by omega, rfl⟩

/-- With no 16-bit overflow the blit returns, and it paints exactly the cells of the window
pixels `(x + u, y + v)` whose bitmap bit is set. -/
theorem g_draw_bitmap_mono_paintsTo (fuel : Nat) (vdb : g_vdb_t) (x y : Int)
    (bitmap : Int → Nat) (width height : Int) (color : g_color_t)
    (hwd : 0 ≤ width ∧ width ≤ 32767) (hht : 0 ≤ height ∧ height ≤ 32767)
    (hfuel : width.toNat < fuel ∧ height.toNat < fuel) :
    ∃ v1, g_draw_bitmap_mono fuel vdb x y bitmap width height color = some (ESP_OK, v1) ∧
      PaintsTo color (fun j => ∃ v, 0 ≤ v ∧ v < height ∧ ∃ u, 0 ≤ u ∧ u < width ∧
        (bitmap_bit bitmap width u v = true ∧
          vdb.region.contains (wrapI16 (x + u)) (wrapI16 (y + v)) ∧
          j = wrapSize ((wrapI16 (y + v) - vdb.region.y0) * g_region_width vdb.region
                + wrapI16 (x + u) - vdb.region.x0))) vdb v1 := by
  have hwb : wrapU16 ((width + 7) / 8) = (width + 7) / 8 := by unfold wrapU16; omega
  have hinner : (fun (v : Int) (s : g_vdb_t) =>
      forLoop (fun u => decide (u < width)) (fun u => wrapI16 (u + 1))
        (fun u s => some (if bitmap ((width + 7) / 8 * v + u / 8) &&& (1 <<< (7 - u % 8).toNat)
            ≠ 0 then (g_draw_pixel s (wrapI16 (x + u)) (wrapI16 (y + v)) color).2 else s))
        fuel 0 s) =
      fun v s => some (forRange 0 width
        (fun u s => if bitmap ((width + 7) / 8 * v + u / 8) &&& (1 <<< (7 - u % 8).toNat)
            ≠ 0 then (g_draw_pixel s (wrapI16 (x + u)) (wrapI16 (y + v)) color).2 else s) s) := by
    funext v s
    exact forLoop_eq_forRange width hwd.2 _ fuel 0 s (by omega) (by omega)
  refine ⟨forRange 0 height (fun v s => forRange 0 width
      (fun u s => if bitmap ((width + 7) / 8 * v + u / 8) &&& (1 <<< (7 - u % 8).toNat)
          ≠ 0 then (g_draw_pixel s (wrapI16 (x + u)) (wrapI16 (y + v)) color).2 else s) s) vdb,
    ?_, ?_⟩
  · simp only [g_draw_bitmap_mono, hwb, hinner]
    rw [forLoop_eq_forRange height hht.2 _ fuel 0 vdb (by omega) (by omega)]
    rfl
  · refine forRange_paintsTo color vdb.region _ _ ?_ 0 height vdb rfl
    intro v s hs
    refine forRange_paintsTo color vdb.region _ _ ?_ 0 width s hs
    intro u s hs
    by_cases hb : bitmap ((width + 7) / 8 * v + u / 8) &&& (1 <<< (7 - u % 8).toNat) ≠ 0
    · rw [if_pos hb]
      have hbit : bitmap_bit bitmap width u v = true := (and_shift_ne_zero _ _).1 hb
      have := g_draw_pixel_paintsTo vdb.region s (wrapI16 (x + u)) (wrapI16 (y + v)) color hs
      refine ⟨this.1, fun j => ⟨fun hj => (this.2 j).1 hj.2, fun hj => (this.2 j).2 ?_⟩⟩
      exact fun h => hj ⟨hbit, h⟩
    · rw [if_neg hb]
      have hbit : ¬ bitmap_bit bitmap width u v = true :=
        fun h => hb ((and_shift_ne_zero _ _).2 h)
      exact paintsTo_refl color _ s (fun j h => hbit h.1)

/-- A bitmap 32768 pixels wide is never finished: the column counter `u` is a `g_coord_t` and
wraps from 32767 to -32768, so `u < width` stays true. -/
theorem g_draw_bitmap_mono_wide_diverges (fuel : Nat) (vdb : g_vdb_t) (x y : Int)
    (bitmap : Int → Nat) (color : g_color_t) :
    g_draw_bitmap_mono fuel vdb x y bitmap 32768 1 color = none := by
  have hin : ∀ (n : Nat) (v : Int) (s : g_vdb_t),
      forLoop (fun u => decide (u < 32768)) (fun u => wrapI16 (u + 1))
        (fun u s => some (if bitmap (wrapU16 ((32768 + 7) / 8) * v + u / 8)
            &&& (1 <<< (7 - u % 8).toNat) ≠ 0
          then (g_draw_pixel s (wrapI16 (x + u)) (wrapI16 (y + v)) color).2 else s))
        n 0 s = none := by
    intro n v s
    apply forLoop_diverges _ _ _ isI16
    · intro i hi
      refine ⟨?_, isI16_wrapI16 _⟩
      unfold isI16 at hi
      simp only [decide_eq_true_eq]; omega
    · intro i s; exact ⟨_, rfl⟩
    · decide
  cases fuel with
  | zero => rfl
  | succ n =>
    simp only [g_draw_bitmap_mono]
    rw [forLoop_succ]
    simp only [hin]
    rfl

/-! ### Polygon fill and the uninitialised node array -/

/-- Without 16-bit overflow the strip height is the minimum of the rows that fit the
capacity and the height of the region. -/
theorem g_refresh_region_step_eq_min (C : Int) (R : g_region_t) (hR : R.wf)
    (hC : 0 ≤ C ∧ C < 4294967296) (hw : R.x0 ≤ R.x1) (hh : R.y0 ≤ R.y1)
    (hq : C / (R.x1 - R.x0 + 1) ≤ 32767) (hht : R.y1 - R.y0 + 1 ≤ 32767) :
    g_refresh_region_step C R = min (C / (R.x1 - R.x0 + 1)) (R.y1 - R.y0 + 1) := by
  obtain ⟨h1, h2, h3, h4⟩ := hR
  unfold isI16 at h1 h2 h3 h4
  have ew : g_region_width R = R.x1 - R.x0 + 1 := by
    unfold g_region_width wrapSize; omega
  have eh : g_region_height R = R.y1 - R.y0 + 1 := by
    unfold g_region_height wrapSize; omega
  have eC : wrapSize C = C := by unfold wrapSize; omega
  have hq0 : 0 ≤ C / (R.x1 - R.x0 + 1) := Int.ediv_nonneg hC.1 (by omega)
  unfold g_refresh_region_step
  simp only [ew, eh, eC]
  rw [wrapI16_eq (by unfold isI16; omega), wrapI16_eq (by unfold isI16; omega)]
  split_ifs with h
  · rw [min_eq_right (by omega)]
  · rw [min_eq_left (by omega)]

/-! ### Glyph ink width -/

/-- The first index below `n` at which `p` holds, as `List.find?` over the range returns it. -/
theorem find_range_spec (p : Nat → Bool) (n : Nat) :
    (∀ k, (List.range n).find? p = some k → k < n ∧ p k = true ∧ ∀ j < k, p j = false) ∧
    ((List.range n).find? p = none → ∀ j < n, p j = false) := by
  induction n with
  | zero => simp
  | succ m ih =>
    rw [List.range_succ, List.find?_append]
    cases hf : (List.range m).find? p with
    | some k0 =>
      obtain ⟨h1, h2, h3⟩ := ih.1 k0 hf
      have e : ∀ o : Option Nat, (some k0).or o = some k0 := fun _ => rfl
      rw [e]
      refine ⟨fun k hk => ?_, fun hk => by simp at hk⟩
      simp only [Option.some.injEq] at hk
      subst hk
      exact ⟨by omega, h2, h3⟩
    | none =>
      have h0 := ih.2 hf
      have e : ∀ o : Option Nat, (none : Option Nat).or o = o := fun _ => rfl
      rw [e]
      by_cases hp : p m = true
      · rw [List.find?_cons_of_pos _ hp]
        refine ⟨fun k hk => ?_, fun hk => by simp at hk⟩
        simp only [Option.some.injEq] at hk
        subst hk
        exact ⟨by omega, hp, h0⟩
      · rw [List.find?_cons_of_neg _ hp]
        refine ⟨fun k hk => by simp at hk, fun _ j hj => ?_⟩
        by_cases hjm : j = m
        · subst hjm; simpa using hp
        · exact h0 j (by omega)

/-- Function `_rightmost_bit` on a byte: the index of the lowest set bit, and 8 only for 0. -/
theorem rightmost_bit_spec (b : Nat) (hb : b < 256) :
    0 ≤ _rightmost_bit b ∧ _rightmost_bit b ≤ 8 ∧
    (∀ i : Nat, (i : Int) < _rightmost_bit b → b.testBit i = false) ∧
    (_rightmost_bit b < 8 → b.testBit (_rightmost_bit b).toNat = true) ∧
    (_rightmost_bit b = 8 → b = 0) := by
  have hhigh : ∀ j : Nat, 8 ≤ j → b.testBit j = false := by
    intro j hj
    apply Nat.testBit_lt_two_pow
    calc b < 2 ^ 8 := by omega
      _ ≤ 2 ^ j := Nat.pow_le_pow_right (by omega) hj
  unfold _rightmost_bit
  by_cases h0 : b = 0
  · subst h0
    simp
  · rw [if_neg h0]
    obtain ⟨i, hi⟩ := Nat.ne_zero_implies_bit_true h0
    have hi8 : i < 8 := by
      by_contra hc
      rw [hhigh i (by omega)] at hi
      exact Bool.noConfusion hi
    have hs := find_range_spec (fun i => b.testBit i) 32
    unfold builtin_ctz
    cases hf : (List.range 32).find? (fun i => b.testBit i) with
    | none =>
      have := hs.2 hf i (by omega)
      simp only [hi] at this
      exact Bool.noConfusion this
    | some k =>
      obtain ⟨_, h2, h3⟩ := hs.1 k hf
      have hk8 : k < 8 := by
        by_contra hc
        simp only [hhigh k (by omega)] at h2
        exact Bool.noConfusion h2
      simp only [Option.getD_some]
      have hw : wrapU8 (k : Int) = k := by unfold wrapU8; omega
      rw [hw]
      refine ⟨by omega, by omega, fun j hj => h3 j (by omega), fun _ => ?_, fun h => by omega⟩
      simpa using h2

/-- Induction along a range loop. -/
theorem forRange_induction {σ : Type} (lo hi : Int) (body : Int → σ → σ) (s : σ)
    (P : Int → σ → Prop) (hle : lo ≤ hi) (h0 : P lo s)
    (hstep : ∀ i t, lo ≤ i → i < hi → P i t → P (i + 1) (body i t)) :
    P hi (forRange lo hi body s) := by
  rw [forRange_eq_foldl]
  have key : ∀ n : Nat, n ≤ (hi - lo).toNat →
      P (lo + (n : Int))
        ((List.range n).foldl (fun s (k : Nat) => body (lo + (k : Int)) s) s) := by
    intro n
    induction n with
    | zero => intro _; simpa using h0
    | succ m ih =>
      intro hm
      rw [List.range_succ, List.foldl_append]
      simp only [List.foldl_cons, List.foldl_nil]
      have := hstep (lo + (m : Int)) _ (by omega) (by omega) (ih (by omega))
      have e : lo + ((m + 1 : Nat) : Int) = lo + (m : Int) + 1 := by push_cast; ring
      rw [e]
      exact this
  have := key (hi - lo).toNat (le_refl _)
  have e : lo + ((hi - lo).toNat : Int) = hi := by omega
  rw [e] at this
  exact this

/-- The or of the rows of a one-byte-wide glyph: bit `j` is set iff some row has it set. -/
theorem glyph_or_rows (glyph : Int → Nat) (height : Int) (hh : 0 ≤ height)
    (hg : ∀ i, glyph i < 256) :
    forRange 0 height (fun y (bits : Nat) => bits ||| glyph y) 0 < 256 ∧
    ∀ j : Nat, (forRange 0 height (fun y (bits : Nat) => bits ||| glyph y) 0).testBit j = true
      ↔ ∃ y, 0 ≤ y ∧ y < height ∧ (glyph y).testBit j = true := by
  refine forRange_induction 0 height _ 0
    (fun i bits => bits < 256 ∧ ∀ j : Nat, bits.testBit j = true
      ↔ ∃ y, 0 ≤ y ∧ y < i ∧ (glyph y).testBit j = true) hh ?_ ?_
  · refine ⟨by omega, fun j => ?_⟩
    simp only [Nat.zero_testBit, Bool.false_eq_true, false_iff]
    rintro ⟨y, h1, h2, _⟩
    omega
  · rintro i bits hi0 hi1 ⟨hb, hbit⟩
    refine ⟨Nat.or_lt_two_pow (n := 8) hb (hg i), fun j => ?_⟩
    rw [Nat.testBit_lor, Bool.or_eq_true, hbit]
    constructor
    · rintro (⟨y, h1, h2, h3⟩ | h)
      · exact ⟨y, h1, by omega, h3⟩
      · exact ⟨i, hi0, by omega, h⟩
    · rintro ⟨y, h1, h2, h3⟩
      by_cases hy : y = i
      · right; rw [← hy]; exact h3
      · left; exact ⟨y, h1, by omega, h3⟩

/-- The array `glyph_bits` of `_glyph_width_multibytes`: bit `j` of byte `k` is set iff some
glyph byte `b` with `b mod width_bytes = k` has it set. -/
theorem glyph_width_bits_spec (glyph : Int → Nat) (width_bytes height : Int)
    (hw : 0 ≤ width_bytes) (hh : 0 ≤ height) (hg : ∀ i, glyph i < 256) :
    (∀ k, _glyph_width_bits glyph width_bytes height k < 256) ∧
    ∀ (k : Int) (j : Nat), (_glyph_width_bits glyph width_bytes height k).testBit j = true
      ↔ ∃ b, 0 ≤ b ∧ b < width_bytes * height ∧ b % width_bytes = k
          ∧ (glyph b).testBit j = true := by
  unfold _glyph_width_bits
  refine forRange_induction 0 (width_bytes * height) _ (fun _ => 0)
    (fun i bits => (∀ k, bits k < 256) ∧ ∀ (k : Int) (j : Nat), (bits k).testBit j = true
      ↔ ∃ b, 0 ≤ b ∧ b < i ∧ b % width_bytes = k ∧ (glyph b).testBit j = true)
    (mul_nonneg hw hh) ?_ ?_
  · refine ⟨fun _ => by show (0 : Nat) < 256; omega, fun k j => ?_⟩
    simp only [Nat.zero_testBit, Bool.false_eq_true, false_iff]
    rintro ⟨y, h1, h2, _⟩
    omega
  · rintro i bits hi0 hi1 ⟨hb, hbit⟩
    refine ⟨fun k => ?_, fun k j => ?_⟩
    · show (if k = i % width_bytes then bits k ||| glyph i else bits k) < 256
      split_ifs
      · exact Nat.or_lt_two_pow (n := 8) (hb k) (hg i)
      · exact hb k
    · show (if k = i % width_bytes then bits k ||| glyph i else bits k).testBit j = true ↔ _
      split_ifs with hk
      · rw [Nat.testBit_lor, Bool.or_eq_true, hbit]
        constructor
        · rintro (⟨y, h1, h2, h3, h4⟩ | h)
          · exact ⟨y, h1, by omega, h3, h4⟩
          · exact ⟨i, hi0, by omega, hk.symm, h⟩
        · rintro ⟨y, h1, h2, h3, h4⟩
          by_cases hy : y = i
          · right; rw [← hy]; exact h4
          · left; exact ⟨y, h1, by omega, h3, h4⟩
      · rw [hbit]
        constructor
        · rintro ⟨y, h1, h2, h3, h4⟩
          exact ⟨y, h1, by omega, h3, h4⟩
        · rintro ⟨y, h1, h2, h3, h4⟩
          have hy : y ≠ i := fun e => hk (by rw [← h3, e])
          exact ⟨y, h1, by omega, h3, h4⟩

/-- The search loop of `_glyph_width_multibytes` over the first `n` bytes: the value it returns
is the 8-bit value of the width `w` one past the last set column. -/
theorem glyph_width_search_spec (bits : Int → Nat) (hb : ∀ k, bits k < 256) (n : Nat) :
    ∃ w : Int, _glyph_width_search bits n = wrapU8 w ∧ 0 ≤ w ∧ w ≤ 8 * (n : Int) ∧
      (∀ c : Int, w ≤ c → c < 8 * (n : Int) →
        (bits (c / 8)).testBit (7 - c % 8).toNat = false) ∧
      (0 < w → (bits ((w - 1) / 8)).testBit (7 - (w - 1) % 8).toNat = true) := by
  induction n with
  | zero =>
    refine ⟨0, by simp [_glyph_width_search, wrapU8], le_refl _, by simp, ?_, ?_⟩
    · intro c h1 h2; simp at h2; omega
    · intro h; omega
  | succ m ih =>
    obtain ⟨p0, p1, p2, p3, p4⟩ := rightmost_bit_spec (bits m) (hb m)
    unfold _glyph_width_search
    simp only []
    by_cases hp : _rightmost_bit (bits (m : Int)) < 8
    · rw [if_pos hp]
      refine ⟨8 * (m : Int) + (8 - _rightmost_bit (bits m)), rfl, by omega, by push_cast; omega,
        ?_, ?_⟩
      · intro c h1 h2
        push_cast at h2
        have e1 : c / 8 = m := by omega
        rw [e1]
        have := p2 (7 - c % 8).toNat (by omega)
        exact this
      · intro _
        have e1 : (8 * (m : Int) + (8 - _rightmost_bit (bits m)) - 1) / 8 = m := by omega
        have e2 : 7 - (8 * (m : Int) + (8 - _rightmost_bit (bits m)) - 1) % 8
            = _rightmost_bit (bits m) := by omega
        rw [e1, e2]
        exact p3 hp
    · rw [if_neg hp]
      obtain ⟨w, h1, h2, h3, h4, h5⟩ := ih
      have hz : bits m = 0 := p4 (by omega)
      refine ⟨w, h1, h2, by push_cast; omega, ?_, h5⟩
      intro c hc1 hc2
      push_cast at hc2
      by_cases hcm : c < 8 * (m : Int)
      · exact h4 c hc1 hcm
      · have e1 : c / 8 = m := by omega
        rw [e1, hz]
        simp

/-- The value `_glyph_width` returns, for a font at least one pixel wide: the 8-bit value of
the ink width `w` of the glyph (the least `w` with no set bit at a column `≥ w`). -/
theorem glyph_width_ink (font : g_font_t) (character : Int) (hf : font.wf)
    (hw : 1 ≤ font.width) :
    ∃ w : Int, _glyph_width font character = wrapU8 w ∧ 0 ≤ w ∧
      w ≤ 8 * ((font.width + 7) / 8) ∧
      (∀ r c, 0 ≤ r → r < font.height → w ≤ c → c < 8 * ((font.width + 7) / 8) →
        bitmap_bit (g_font_glyph font character) font.width c r = false) ∧
      (0 < w → ∃ r, 0 ≤ r ∧ r < font.height ∧
        bitmap_bit (g_font_glyph font character) font.width (w - 1) r = true) := by
  obtain ⟨⟨hw0, hw1⟩, ⟨hh0, hh1⟩, _, hg⟩ := hf
  have hgl : ∀ i, g_font_glyph font character i < 256 := fun i => hg _
  generalize hglyph : g_font_glyph font character = glyph at hgl
  by_cases hwide : font.width > 8
  · -- rows of several bytes
    have ewb : wrapU8 ((font.width + 7) / 8) = (font.width + 7) / 8 := by
      unfold wrapU8; omega
    unfold _glyph_width _glyph_width_multibytes
    rw [if_pos hwide, hglyph]
    simp only [ewb]
    generalize hwb : (font.width + 7) / 8 = wb
    have hwb2 : 2 ≤ wb := by omega
    obtain ⟨hb, hbit⟩ := glyph_width_bits_spec glyph wb font.height (by omega) hh0 hgl
    obtain ⟨w, h1, h2, h3, h4, h5⟩ :=
      glyph_width_search_spec (_glyph_width_bits glyph wb font.height) hb wb.toNat
    have ewn : ((wb.toNat : Nat) : Int) = wb := by omega
    rw [ewn] at h3 h4
    refine ⟨w, h1, h2, h3, ?_, ?_⟩
    · intro r c hr0 hr1 hc0 hc1
      by_contra hne
      have hset : (glyph (wb * r + c / 8)).testBit (7 - c % 8).toNat = true := by
        unfold bitmap_bit at hne
        rw [hwb] at hne
        simpa using hne
      have hmul : wb * r ≤ wb * (font.height - 1) :=
        mul_le_mul_of_nonneg_left (by omega) (by omega)
      have hmul2 : wb * (font.height - 1) = wb * font.height - wb := by ring
      have hmul3 : 0 ≤ wb * r := mul_nonneg (by omega) hr0
      have hmod : (wb * r + c / 8) % wb = c / 8 := by
        rw [add_comm, Int.add_mul_emod_self_left]
        exact Int.emod_eq_of_lt (by omega) (by omega)
      have := (hbit (c / 8) (7 - c % 8).toNat).2
        ⟨wb * r + c / 8, by omega, by omega, hmod, hset⟩
      rw [h4 c hc0 hc1] at this
      exact Bool.noConfusion this
    · intro hpos
      obtain ⟨b, hb0, hb1, hb2, hb3⟩ := (hbit _ _).1 (h5 hpos)
      refine ⟨b / wb, Int.ediv_nonneg hb0 (by omega),
        Int.ediv_lt_of_lt_mul (by omega) (by rw [mul_comm]; exact hb1), ?_⟩
      unfold bitmap_bit
      rw [hwb, ← hb2, Int.ediv_add_emod]
      exact hb3
  · -- rows of one byte
    have ewb : (font.width + 7) / 8 = 1 := by omega
    obtain ⟨hb, hbit⟩ := glyph_or_rows glyph font.height hh0 hgl
    obtain ⟨p0, p1, p2, p3, _⟩ := rightmost_bit_spec _ hb
    unfold _glyph_width
    rw [if_neg hwide, hglyph]
    simp only [ewb]
    generalize forRange 0 font.height (fun y (bits : Nat) => bits ||| glyph y) 0 = bits
      at hbit p0 p1 p2 p3
    refine ⟨8 - _rightmost_bit bits, rfl, by omega, by omega, ?_, ?_⟩
    · intro r c hr0 hr1 hc0 hc1
      by_contra hne
      have hset : (glyph r).testBit (7 - c % 8).toNat = true := by
        unfold bitmap_bit at hne
        rw [ewb] at hne
        have e : 1 * r + c / 8 = r := by omega
        rw [e] at hne
        simpa using hne
      have h1 := (hbit (7 - c % 8).toNat).2 ⟨r, hr0, hr1, hset⟩
      rw [p2 _ (by omega)] at h1
      exact Bool.noConfusion h1
    · intro hpos
      obtain ⟨y, hy0, hy1, hy2⟩ := (hbit _).1 (p3 (by omega))
      refine ⟨y, hy0, hy1, ?_⟩
      unfold bitmap_bit
      rw [ewb]
      have e1 : 1 * y + (8 - _rightmost_bit bits - 1) / 8 = y := by omega
      have e2 : 7 - (8 - _rightmost_bit bits - 1) % 8 = _rightmost_bit bits := by omega
      rw [e1, e2]
      exact hy2

/-! ### Text layout -/

/-- Truncating division by 2 in terms of the floor quotient. -/
theorem tdiv_two (a : Int) : Int.tdiv a 2 = if 0 ≤ a then a / 2 else -((-a) / 2) := by
  split_ifs with h
  · exact Int.tdiv_eq_ediv h (by omega)
  · have h1 : Int.tdiv (-(-a)) 2 = -(Int.tdiv (-a) 2) := Int.neg_tdiv _ _
    rw [neg_neg] at h1
    rw [h1, Int.tdiv_eq_ediv (by omega) (by omega)]

/-- The value of `_glyph_width` is a `uint8_t`. -/
theorem glyph_width_range (font : g_font_t) (character : Int) :
    0 ≤ _glyph_width font character ∧ _glyph_width font character ≤ 255 := by
  have hs : ∀ (bits : Int → Nat) (n : Nat),
      0 ≤ _glyph_width_search bits n ∧ _glyph_width_search bits n ≤ 255 := by
    intro bits n
    induction n with
    | zero => simp [_glyph_width_search]
    | succ m ih =>
      unfold _glyph_width_search
      simp only []
      split_ifs
      · unfold wrapU8; omega
      · exact ih
  unfold _glyph_width
  split_ifs
  · exact hs _ _
  · simp only []
    unfold wrapU8; omega

/-- Drawing a character of a font returns when the fuel exceeds every `uint8_t`. -/
theorem g_draw_char_returns (fuel : Nat) (font : g_font_t) (vdb : g_vdb_t) (x y c : Int)
    (color : g_color_t) (hf : font.wf) (hfuel : 255 < fuel) :
    ∃ v1, g_draw_char fuel font vdb x y c color = some (ESP_OK, v1) := by
  obtain ⟨⟨hw0, hw1⟩, ⟨hh0, hh1⟩, _, _⟩ := hf
  obtain ⟨v1, h, _⟩ := g_draw_bitmap_mono_paintsTo fuel vdb x y (g_font_glyph font c)
    font.width font.height color ⟨hw0, by omega⟩ ⟨hh0, by omega⟩ ⟨by omega, by omega⟩
  exact ⟨v1, h⟩

/-- The `default` case of the `switch` of `g_draw_string` for a character at or above the
font's offset. -/
theorem g_draw_string_char_glyph (fuel : Nat) (font : g_font_t) (x y : Int)
    (color : g_color_t) (c : Int) (s : g_draw_string_t) (hf : font.wf) (hfuel : 255 < fuel)
    (h27 : c ≠ 27) (h10 : c ≠ 10) (h32 : c ≠ 32) (hoff : font.ascii_offset ≤ c)
    (cw gap : Int) (comb : Bool)
    (hcw : (if font.monospace then font.width else _glyph_width font c) = cw)
    (hgap : (if font.monospace then (0 : Int) else 1) = gap)
    (hcomb : (s.combining_mode && !font.monospace) = comb) :
    ∃ v1, g_draw_string_char fuel font x y color c s = some
      { vdb := v1
        cx := wrapI16 (s.cx + ((if comb then s.last_char_width
                else if cw = 0 then wrapU8 (font.width / 4) else cw) + gap))
        cy := s.cy
        last_char_width := if comb then s.last_char_width
                else if cw = 0 then wrapU8 (font.width / 4) else cw
        combining_mode := false
        drawn := if cw > 0 then
            (wrapI16 (x + (if comb then
                wrapI16 (s.cx + Int.tdiv (s.last_char_width - cw + 1) 2) else s.cx)),
              wrapI16 (y + s.cy), c) :: s.drawn
          else s.drawn } := by
  unfold g_draw_string_char
  simp only [if_neg h27, if_neg h10, if_neg h32, if_neg (not_lt.mpr hoff), hcw, hgap, hcomb]
  by_cases hpos : cw > 0
  · simp only [if_pos hpos]
    obtain ⟨v1, hv⟩ := g_draw_char_returns fuel font s.vdb
      (wrapI16 (x + (if comb = true then
        wrapI16 (s.cx + Int.tdiv (s.last_char_width - cw + 1) 2) else s.cx)))
      (wrapI16 (y + s.cy)) c color hf hfuel
    exact ⟨v1, by rw [hv]; rfl⟩
  · simp only [if_neg hpos]
    exact ⟨s.vdb, rfl⟩

/-- The sample fonts are values of `g_font_t`. -/
theorem sampleFont_wf : sampleFont.wf := by
  refine ⟨by decide, by decide, by decide, fun i => ?_⟩
  unfold sampleFont
  simp only []
  split_ifs <;> omega

/-- The monospace sample font is a value of `g_font_t`. -/
theorem sampleMono_wf : sampleMono.wf := by
  refine ⟨by decide, by decide, by decide, fun i => ?_⟩
  unfold sampleMono sampleFont
  simp only []
  split_ifs <;> omega

/-- The wide font is a value of `g_font_t`. -/
theorem wideFont_wf : wideFont.wf := by
  refine ⟨by decide, by decide, by decide, fun i => ?_⟩
  unfold wideFont
  simp only []
  split_ifs <;> omega

/-- Ink widths of the two sample glyphs. -/
theorem sampleFont_widths :
    _glyph_width sampleFont 65 = 6 ∧ _glyph_width sampleFont 66 = 2 := by
  refine ⟨by decide, by decide⟩

/-- One turn of a loop whose condition holds. -/
theorem forLoop_step {σ : Type} (cond : Int → Bool) (next : Int → Int)
    (body : Int → σ → Option σ) (fuel : Nat) (i : Int) (s t : σ)
    (hc : cond i = true) (hb : body i s = some t) :
    forLoop cond next body (fuel + 1) i s = forLoop cond next body fuel (next i) t := by
  rw [forLoop_succ, if_pos hc, hb]
  rfl

/-- A loop whose condition fails is over. -/
theorem forLoop_stop {σ : Type} (cond : Int → Bool) (next : Int → Int)
    (body : Int → σ → Option σ) (fuel : Nat) (i : Int) (s : σ)
    (hc : cond i = false) :
    forLoop cond next body (fuel + 1) i s = some s := by
  rw [forLoop_succ, hc]
  rfl

/-- The escape case of the `switch` of `g_draw_string`. -/
theorem g_draw_string_char_escape (fuel : Nat) (font : g_font_t) (x y : Int)
    (color : g_color_t) (s : g_draw_string_t) :
    g_draw_string_char fuel font x y color 27 s = some
      { s with cx := wrapI16 (s.cx - (s.last_char_width + if font.monospace then 0 else 1))
               combining_mode := true } := by
  unfold g_draw_string_char
  rw [if_pos rfl]

/-- One turn of the character loop of `g_draw_string` at a non-zero character. -/
theorem g_draw_string_loop_step (fuel0 : Nat) (font : g_font_t) (x y : Int)
    (color : g_color_t) (str : Int → Int) (fuel : Nat) (i j c : Int) (s t : g_draw_string_t)
    (hc : str i = c) (hne : c ≠ 0) (hj : wrapU16 (i + 1) = j)
    (hb : g_draw_string_char fuel0 font x y color c s = some t) :
    forLoop (fun i => decide (str i ≠ 0)) (fun i => wrapU16 (i + 1))
        (fun i s => g_draw_string_char fuel0 font x y color (str i) s) (fuel + 1) i s
      = forLoop (fun i => decide (str i ≠ 0)) (fun i => wrapU16 (i + 1))
        (fun i s => g_draw_string_char fuel0 font x y color (str i) s) fuel j t := by
  subst hc hj
  exact forLoop_step _ _ _ fuel i s t (by simpa using hne) hb

/-- The character loop of `g_draw_string` ends at the terminating 0. -/
theorem g_draw_string_loop_stop (fuel0 : Nat) (font : g_font_t) (x y : Int)
    (color : g_color_t) (str : Int → Int) (fuel : Nat) (i : Int) (s : g_draw_string_t)
    (hc : str i = 0) :
    forLoop (fun i => decide (str i ≠ 0)) (fun i => wrapU16 (i + 1))
        (fun i s => g_draw_string_char fuel0 font x y color (str i) s) (fuel + 1) i s
      = some s :=
  forLoop_stop _ _ _ fuel i s (by simpa using hc)

/-! ### Image decoder -/

/-- A list of positive length has a first element. -/
theorem list_cons_of_length (l : List Nat) (n : Nat) (h : n + 1 ≤ l.length) :
    ∃ a t, l = a :: t ∧ n ≤ t.length := by
  cases l with
  | nil => simp at h
  | cons a t => exact ⟨a, t, rfl, by simpa using h⟩

/-- A read that stays inside the file delivers `count` bytes. -/
theorem vfs_read_full (sys : img_sys_t) (fd : Int) (b : Int → Nat) (count : Int)
    (h1 : 0 ≤ fd) (h2 : sys.fd_open = true) (h3 : 0 ≤ sys.pos) (h4 : 0 ≤ count)
    (h5 : sys.pos + count ≤ (sys.file.length : Int)) :
    vfs_read sys fd (some b) count =
      { read_bytes := count
        buf := some (store_bytes b ((sys.file.drop sys.pos.toNat).take count.toNat))
        sys := { sys with pos := sys.pos + count } } := by
  have hlen : (((sys.file.drop sys.pos.toNat).take count.toNat).length : Int) = count := by
    rw [List.length_take, List.length_drop]
    omega
  unfold vfs_read
  simp only [h2, Bool.true_eq_false, or_false, if_neg (not_lt.mpr h1), hlen]

/-- The bytes such a read stores are the bytes of the file from the offset on. -/
theorem store_bytes_file (b : Int → Nat) (file : List Nat) (pos count i : Int)
    (h3 : 0 ≤ pos) (h5 : pos + count ≤ (file.length : Int)) (hi0 : 0 ≤ i) (hi1 : i < count) :
    store_bytes b ((file.drop pos.toNat).take count.toNat) i
      = file.getD (pos + i).toNat 0 := by
  have hlen : (((file.drop pos.toNat).take count.toNat).length : Int) = count := by
    rw [List.length_take, List.length_drop]
    omega
  unfold store_bytes
  rw [hlen, if_pos ⟨hi0, hi1⟩]
  rw [List.getD_eq_getElem?_getD, List.getD_eq_getElem?_getD, List.getElem?_take,
    if_pos (by omega), List.getElem?_drop]
  congr 2
  omega

/-- On a stream that starts with the signature, `g_img_open` goes on to read the header at
offset 4 whenever the image block is allocated and the file opens. -/
theorem g_img_open_signed (env : img_env_t) (file : List Nat) (henv : 0 ≤ env.fd)
    (himg : env.malloc_img = true) (hsig : file.take 4 = ebg_signature) :
    g_img_open env file = g_img_open_frames env
      { file := file, pos := 4, fd_open := true, live := [img_block_t.img] } := by
  have hlen : 4 ≤ file.length := by
    have := congrArg List.length hsig
    rw [List.length_take] at this
    simp only [ebg_signature, List.length_cons, List.length_nil] at this
    omega
  have hfd : ¬ env.fd = -1 := by omega
  have hread : vfs_read
      { file := file, pos := 0, fd_open := true, live := [img_block_t.img] } env.fd
        (some env.signature0) SIGNATURE_SIZE
      = { read_bytes := 4, buf := some (store_bytes env.signature0 ebg_signature),
          sys := { file := file, pos := 4, fd_open := true, live := [img_block_t.img] } } := by
    rw [vfs_read_full _ env.fd env.signature0 SIGNATURE_SIZE henv rfl (le_refl _)
      (by decide) (by simp [SIGNATURE_SIZE]; omega)]
    simp only [SIGNATURE_SIZE, Int.toNat_zero, List.drop_zero, zero_add]
    rw [show (4 : Int).toNat = 4 from rfl, hsig]
  have hcond : ¬ (¬ (store_bytes env.signature0 ebg_signature 0 = 69 ∧
        store_bytes env.signature0 ebg_signature 1 = 66 ∧
        store_bytes env.signature0 ebg_signature 2 = 71) ∨
      store_bytes env.signature0 ebg_signature 3 ≠ 1) := by
    simp [store_bytes, ebg_signature]
  unfold g_img_open
  simp only [himg, Bool.true_eq_false, if_false, if_neg hfd, hread, Option.getD_some,
    if_neg hcond]

/-- The frame size a header of bytes announces is a `size_t` value. -/
theorem ebg_frame_size_range (file : List Nat) (hb : ∀ b ∈ file, b < 256) :
    0 ≤ (ebg_header file).width * (ebg_header file).height ∧
    (ebg_header file).width * (ebg_header file).height < 4294967296 ∧
    0 ≤ (ebg_header file).palette_size ∧ (ebg_header file).palette_size < 256 := by
  have hget : ∀ n : Nat, file.getD n 0 < 256 := by
    intro n
    rw [List.getD_eq_getElem?_getD]
    cases h : file[n]? with
    | none => simp
    | some v =>
      simp only [Option.getD_some]
      exact hb v (List.getElem?_mem h)
  have hw0 : 0 ≤ (ebg_header file).width := by
    unfold ebg_header g_img_header_t.ofBytes; simp only []; omega
  have hw1 : (ebg_header file).width ≤ 65535 := by
    unfold ebg_header g_img_header_t.ofBytes; simp only []
    have := hget (4 + (0 : Int).toNat); have := hget (4 + (1 : Int).toNat); omega
  have hh0 : 0 ≤ (ebg_header file).height := by
    unfold ebg_header g_img_header_t.ofBytes; simp only []; omega
  have hh1 : (ebg_header file).height ≤ 65535 := by
    unfold ebg_header g_img_header_t.ofBytes; simp only []
    have := hget (4 + (2 : Int).toNat); have := hget (4 + (3 : Int).toNat); omega
  refine ⟨mul_nonneg hw0 hh0, ?_, ?_, ?_⟩
  · have : (ebg_header file).width * (ebg_header file).height ≤ 65535 * 65535 :=
      mul_le_mul hw1 hh1 hh0 (by omega)
    omega
  · unfold ebg_header g_img_header_t.ofBytes; simp only []; omega
  · unfold ebg_header g_img_header_t.ofBytes; simp only []
    have := hget (4 + (5 : Int).toNat); omega

/-- The offsets of a well-formed stream: every frame up to `frame_count` lies inside it. -/
theorem ebg_frame_inside (file : List Nat) (hwf : ebg_wf file) (k : Int) (hk0 : 1 ≤ k)
    (hk1 : k ≤ (ebg_header file).frame_count) :
    12 ≤ ebg_frame_offset (ebg_header file) k ∧
    ebg_frame_offset (ebg_header file) k + (ebg_header file).width * (ebg_header file).height
      ≤ (file.length : Int) ∧
    0 ≤ ebg_palette_bytes (ebg_header file) := by
  obtain ⟨hb, _, _, hlen⟩ := hwf
  obtain ⟨hfs0, _, hp0, _⟩ := ebg_frame_size_range file hb
  have hpb : 0 ≤ ebg_palette_bytes (ebg_header file) := by
    unfold ebg_palette_bytes; split_ifs <;> omega
  unfold ebg_frame_offset at *
  generalize (ebg_header file).width * (ebg_header file).height = fs at *
  generalize (ebg_header file).frame_count = fc at *
  have h1 : 0 ≤ (k - 1) * fs := mul_nonneg (by omega) hfs0
  have h2 : (k - 1) * fs + fs ≤ (fc + 1 - 1) * fs := by
    have : k * fs ≤ fc * fs := mul_le_mul_of_nonneg_right hk1 hfs0
    have e1 : (k - 1) * fs + fs = k * fs := by ring
    have e2 : (fc + 1 - 1) * fs = fc * fs := by ring
    rw [e1, e2]; exact this
  refine ⟨by omega, by omega, hpb⟩

/-- On a well-formed stream of more than one frame, and when the allocations succeed, the
reads of `g_img_open` after the signature check are complete: the image carries the header
of the stream, holds frame 1, and the descriptor stays open at the start of frame 2. -/
theorem g_img_open_frames_wf (env : img_env_t) (file : List Nat) (live : List img_block_t)
    (henv : 0 ≤ env.fd) (hpal : env.malloc_palette = true) (hbmp : env.malloc_bitmap = true)
    (hwf : ebg_wf file) (hfc : (ebg_header file).frame_count ≠ 1) :
    ∃ img sys, g_img_open_frames env
        { file := file, pos := 4, fd_open := true, live := live } = (some img, sys) ∧
      img.header = ebg_header file ∧ img.fd = env.fd ∧ img.current_frame = 1 ∧
      sys.file = file ∧ sys.fd_open = true ∧
      sys.pos = ebg_frame_offset (ebg_header file) 2 ∧ HoldsFrame file img 1 := by
  obtain ⟨h12, hin, hpb⟩ := ebg_frame_inside file hwf 1 (le_refl _) hwf.2.2.1
  obtain ⟨hfs0, hfs1, hps0, hps1⟩ := ebg_frame_size_range file hwf.1
  have hoff1 : ebg_frame_offset (ebg_header file) 1 = 12 + ebg_palette_bytes (ebg_header file) := by
    unfold ebg_frame_offset; ring
  have hoff2 : ebg_frame_offset (ebg_header file) 2 = 12 + ebg_palette_bytes (ebg_header file)
      + (ebg_header file).width * (ebg_header file).height := by
    unfold ebg_frame_offset; ring
  rw [hoff1] at h12 hin
  -- the header
  have hread1 : vfs_read { file := file, pos := 4, fd_open := true, live := live } env.fd
      (some env.header0) 8
      = { read_bytes := 8
          buf := some (store_bytes env.header0 ((file.drop (4 : Int).toNat).take (8 : Int).toNat))
          sys := { file := file, pos := 4 + 8, fd_open := true, live := live } } :=
    vfs_read_full { file := file, pos := 4, fd_open := true, live := live } env.fd
      env.header0 8 henv rfl (show (0 : Int) ≤ 4 by decide) (by decide)
      (by show (4 : Int) + 8 ≤ (file.length : Int); omega)
  have hsb : ∀ i : Int, 0 ≤ i → i < 8 →
      store_bytes env.header0 ((file.drop (4 : Int).toNat).take (8 : Int).toNat) i
        = file.getD (4 + i.toNat) 0 := by
    intro i hi0 hi1
    rw [store_bytes_file env.header0 file 4 8 i (by decide) (by omega) hi0 hi1]
    congr 1
    omega
  have hhdr : g_img_header_t.ofBytes
      (store_bytes env.header0 ((file.drop (4 : Int).toNat).take (8 : Int).toNat))
      = ebg_header file := by
    unfold g_img_header_t.ofBytes ebg_header
    rw [hsb 0 (by decide) (by decide), hsb 1 (by decide) (by decide),
      hsb 2 (by decide) (by decide), hsb 3 (by decide) (by decide),
      hsb 4 (by decide) (by decide), hsb 5 (by decide) (by decide),
      hsb 6 (by decide) (by decide), hsb 7 (by decide) (by decide)]
    rfl
  unfold g_img_open_frames
  simp only [hread1, Option.getD_some, hhdr, hpal, hbmp, Bool.true_eq_false, and_false,
    if_false, if_true, if_neg hfc]
  generalize hh : ebg_header file = h at *
  have ews : wrapSize (h.width * h.height) = h.width * h.height := by
    unfold wrapSize; omega
  rw [ews]
  by_cases hidx : h.flags &&& G_IMG_FLAG_INDEXED ≠ 0
  · have hpbv : ebg_palette_bytes h = 2 * (h.palette_size + 1) := by
      unfold ebg_palette_bytes; rw [if_pos hidx]
    have ewp : wrapSize ((h.palette_size + 1) * 2) = 2 * (h.palette_size + 1) := by
      unfold wrapSize; omega
    have hdec : decide (h.flags &&& G_IMG_FLAG_INDEXED ≠ 0) = true := decide_eq_true hidx
    simp only [hdec, if_true, ewp]
    rw [vfs_read_full _ env.fd env.palette0 _ henv rfl (show (0 : Int) ≤ 4 + 8 by decide)
      (by omega) (by show (4 : Int) + 8 + 2 * (h.palette_size + 1) ≤ (file.length : Int); omega)]
    simp only []
    rw [vfs_read_full _ env.fd env.bitmap0 _ henv rfl
      (by show (0 : Int) ≤ 4 + 8 + 2 * (h.palette_size + 1); omega) hfs0
      (by show (4 : Int) + 8 + 2 * (h.palette_size + 1) + h.width * h.height
            ≤ (file.length : Int); omega)]
    refine ⟨_, _, rfl, rfl, rfl, rfl, rfl, rfl, ?_, _, rfl, fun i hi0 hi1 => ?_⟩
    · show (4 : Int) + 8 + 2 * (h.palette_size + 1) + h.width * h.height = _
      rw [hoff2, hpbv]; ring
    · rw [store_bytes_file env.bitmap0 file (4 + 8 + 2 * (h.palette_size + 1))
        (h.width * h.height) i (by omega) (by omega) hi0 hi1]
      show _ = file.getD (ebg_frame_offset h 1 + i).toNat 0
      rw [hoff1, hpbv]
      congr 2
  · have hpbv : ebg_palette_bytes h = 0 := by
      unfold ebg_palette_bytes; rw [if_neg hidx]
    have hdec : decide (h.flags &&& G_IMG_FLAG_INDEXED ≠ 0) = false := decide_eq_false hidx
    simp only [hdec, Bool.false_eq_true, if_false]
    rw [vfs_read_full _ env.fd env.bitmap0 _ henv rfl
      (show (0 : Int) ≤ 4 + 8 by decide) hfs0
      (by show (4 : Int) + 8 + h.width * h.height ≤ (file.length : Int); omega)]
    refine ⟨_, _, rfl, rfl, rfl, rfl, rfl, rfl, ?_, _, rfl, fun i hi0 hi1 => ?_⟩
    · show (4 : Int) + 8 + h.width * h.height = _
      rw [hoff2, hpbv]; ring
    · rw [store_bytes_file env.bitmap0 file (4 + 8) (h.width * h.height) i (by decide)
        (by omega) hi0 hi1]
      show _ = file.getD (ebg_frame_offset h 1 + i).toNat 0
      rw [hoff1, hpbv]
      congr 2

/-- What the frame calls rely on: the image carries the header of the stream, its buffer is
allocated, and its descriptor is open on the stream. -/
theorem g_img_load_next_keeps (file : List Nat) (img : g_img_t) (sys : img_sys_t)
    (hfile : sys.file = file) (hopen : sys.fd_open = true) (hbuf : img.bitmap.isSome = true) :
    (g_img_load_next img sys).1.header = img.header ∧
    (g_img_load_next img sys).1.fd = img.fd ∧
    (g_img_load_next img sys).2.file = file ∧
    (g_img_load_next img sys).2.fd_open = true ∧
    (g_img_load_next img sys).1.bitmap.isSome = true := by
  obtain ⟨b, hb⟩ := Option.isSome_iff_exists.mp hbuf
  unfold g_img_load_next
  split_ifs with h
  · exact ⟨rfl, rfl, hfile, hopen, hbuf⟩
  · rw [hb]
    unfold vfs_read
    split_ifs
    · exact ⟨rfl, rfl, hfile, hopen, rfl⟩
    · exact ⟨rfl, rfl, hfile, hopen, rfl⟩

/-- Function `g_img_load_first` on a well-formed stream: the image is on frame 1 and holds
its bytes. -/
theorem g_img_load_first_spec (file : List Nat) (img : g_img_t) (sys : img_sys_t)
    (hwf : ebg_wf file) (hhdr : img.header = ebg_header file) (hfd : 0 ≤ img.fd)
    (hfile : sys.file = file) (hopen : sys.fd_open = true)
    (hbuf : img.bitmap.isSome = true) :
    (g_img_load_first img sys).1.current_frame = 1 ∧
    (g_img_load_first img sys).1.header = ebg_header file ∧
    HoldsFrame file (g_img_load_first img sys).1 1 := by
  obtain ⟨b, hb⟩ := Option.isSome_iff_exists.mp hbuf
  obtain ⟨h12, hin, hpb⟩ := ebg_frame_inside file hwf 1 (le_refl _) hwf.2.2.1
  obtain ⟨hfs0, hfs1, hps0, hps1⟩ := ebg_frame_size_range file hwf.1
  have hoff1 : ebg_frame_offset (ebg_header file) 1
      = 12 + ebg_palette_bytes (ebg_header file) := by
    unfold ebg_frame_offset; ring
  rw [hoff1] at h12 hin
  have hps : PALETTE_OFFSET + PALETTE_SIZE img = 12 + ebg_palette_bytes (ebg_header file) := by
    unfold PALETTE_SIZE ebg_palette_bytes
    rw [hhdr]
    split_ifs
    · unfold wrapSize; show (12 : Int) + _ = _; omega
    · rfl
  have hseek : vfs_lseek sys img.fd (PALETTE_OFFSET + PALETTE_SIZE img) SEEK_SET
      = { sys with pos := 12 + ebg_palette_bytes (ebg_header file) } := by
    unfold vfs_lseek
    simp only [hps, if_true, hopen, Bool.true_eq_false, false_or]
    rw [if_neg (by omega)]
  have ews : wrapSize (img.header.width * img.header.height)
      = (ebg_header file).width * (ebg_header file).height := by
    rw [hhdr]; unfold wrapSize; omega
  have hval : g_img_load_first img sys =
      ({ img with
          bitmap := some (store_bytes b ((sys.file.drop
            (12 + ebg_palette_bytes (ebg_header file)).toNat).take
            ((ebg_header file).width * (ebg_header file).height).toNat))
          current_frame := 1 },
       { sys with pos := 12 + ebg_palette_bytes (ebg_header file)
            + (ebg_header file).width * (ebg_header file).height }) := by
    unfold g_img_load_first
    simp only [hseek, ews, hb]
    rw [vfs_read_full { sys with pos := 12 + ebg_palette_bytes (ebg_header file) } img.fd b _
      hfd hopen
      (by show (0 : Int) ≤ 12 + ebg_palette_bytes (ebg_header file); omega) hfs0
      (by show (12 : Int) + ebg_palette_bytes (ebg_header file)
            + (ebg_header file).width * (ebg_header file).height ≤ (sys.file.length : Int)
          rw [hfile]; exact hin)]
  rw [hval]
  refine ⟨rfl, hhdr, _, rfl, fun i hi0 hi1 => ?_⟩
  have hi2 : i < (ebg_header file).width * (ebg_header file).height := by
    rw [← hhdr]; exact hi1
  show store_bytes b _ i = file.getD (ebg_frame_offset img.header 1 + i).toNat 0
  rw [hfile, store_bytes_file b file _ _ i (by omega) hin hi0 hi2, hhdr, hoff1]

/-- The two-frame sample stream is well-formed. -/
theorem twoFrames_wf : ebg_wf twoFrames :=
  ⟨by decide, by decide, by decide, by decide⟩

/-- Any number of `g_img_load_next` calls keeps what the frame calls rely on. -/
theorem g_img_load_next_iterate (file : List Nat) (fd : Int) (h : g_img_header_t) (k : Nat) :
    ∀ s : g_img_t × img_sys_t, s.1.header = h → s.1.fd = fd → s.2.file = file →
      s.2.fd_open = true → s.1.bitmap.isSome = true →
      ((List.replicate k img_call_t.next).foldl img_call s).1.header = h ∧
      ((List.replicate k img_call_t.next).foldl img_call s).1.fd = fd ∧
      ((List.replicate k img_call_t.next).foldl img_call s).2.file = file ∧
      ((List.replicate k img_call_t.next).foldl img_call s).2.fd_open = true ∧
      ((List.replicate k img_call_t.next).foldl img_call s).1.bitmap.isSome = true := by
  induction k with
  | zero => intro s h1 h2 h3 h4 h5; exact ⟨h1, h2, h3, h4, h5⟩
  | succ m ih =>
    intro s h1 h2 h3 h4 h5
    rw [List.replicate_succ, List.foldl_cons]
    obtain ⟨k1, k2, k3, k4, k5⟩ := g_img_load_next_keeps file s.1 s.2 h3 h4 h5
    exact ih (img_call s img_call_t.next) (k1.trans h1) (k2.trans h2) k3 k4 k5

/-! ### Sorting loop of the polygon fill -/

/-- The indices below `n` around two neighbours `i`, `i + 1`. -/
theorem range_split (n i : Nat) (h : i + 1 < n) :
    List.range n = List.range i ++ i :: (i + 1) :: List.range' (i + 2) (n - (i + 2)) := by
  have h1 : List.range' 0 i ++ List.range' (0 + i) (n - i) = List.range' 0 (n - i + i) :=
    List.range'_append_1 0 i (n - i)
  have h2 : n - i + i = n := by omega
  have h3 : n - i = (n - (i + 2)) + 1 + 1 := by omega
  rw [List.range_eq_range', List.range_eq_range', ← h2, ← h1, h2, h3, List.range'_succ,
    List.range'_succ]
  simp only [zero_add]

/-- A list of terms over `nodes[0 .. n)` before and after the entries `i`, `i + 1` are
exchanged: only the two terms in the middle change. -/
theorem map_swap_split (g : Nat → Int → Int) (f : Int → Int) (n i : Nat) (h : i + 1 < n) :
    ∃ A C,
      ((List.range n).map fun k : Nat => g k (f (k : Int)))
        = A ++ g i (f i) :: g (i + 1) (f ((i : Int) + 1)) :: C ∧
      ((List.range n).map fun k : Nat => g k
          ((fun j : Int => if j = (i : Int) + 1 then f i else if j = (i : Int)
            then f ((i : Int) + 1) else f j) (k : Int)))
        = A ++ g i (f ((i : Int) + 1)) :: g (i + 1) (f i) :: C := by
  refine ⟨(List.range i).map fun k : Nat => g k (f (k : Int)),
    (List.range' (i + 2) (n - (i + 2))).map fun k : Nat => g k (f (k : Int)), ?_, ?_⟩
  · rw [range_split n i h, List.map_append, List.map_cons, List.map_cons]
    push_cast
    rfl
  · rw [range_split n i h, List.map_append, List.map_cons, List.map_cons]
    have e1 : ∀ k ∈ List.range i, g k ((fun j : Int => if j = (i : Int) + 1 then f i
        else if j = (i : Int) then f ((i : Int) + 1) else f j) (k : Int)) = g k (f (k : Int)) := by
      intro k hk
      have := List.mem_range.1 hk
      simp only []
      rw [if_neg (by omega), if_neg (by omega)]
    have e2 : ∀ k ∈ List.range' (i + 2) (n - (i + 2)),
        g k ((fun j : Int => if j = (i : Int) + 1 then f i
        else if j = (i : Int) then f ((i : Int) + 1) else f j) (k : Int)) = g k (f (k : Int)) := by
      intro k hk
      have := List.mem_range'_1.1 hk
      simp only []
      rw [if_neg (by omega), if_neg (by omega)]
    rw [List.map_congr_left e1, List.map_congr_left e2]
    simp

/-- The weight is not negative when the entries are `g_coord_t` values. -/
theorem nodes_weight_nonneg (f : Int → Int) (n : Nat)
    (hv : ∀ k : Nat, k < n → isI16 (f (k : Int))) : 0 ≤ nodes_weight f n := by
  unfold nodes_weight
  apply List.sum_nonneg
  intro x hx
  obtain ⟨k, hk, rfl⟩ := List.mem_map.1 hx
  have := hv k (List.mem_range.1 hk)
  unfold isI16 at this
  exact mul_nonneg (by omega) (by omega)

/-- A crude bound of the weight. -/
theorem nodes_weight_le (f : Int → Int) (n : Nat)
    (hv : ∀ k : Nat, k < n → isI16 (f (k : Int))) :
    nodes_weight f n ≤ (n : Int) * ((n : Int) * 65535) := by
  unfold nodes_weight
  have h := List.sum_le_card_nsmul
    ((List.range n).map fun k : Nat => (k : Int) * (32767 - f (k : Int)))
    ((n : Int) * 65535) (by
      intro x hx
      obtain ⟨k, hk, rfl⟩ := List.mem_map.1 hx
      have hk1 := List.mem_range.1 hk
      have := hv k hk1
      unfold isI16 at this
      exact mul_le_mul (by omega) (by omega) (by omega) (by omega))
  simpa using h

/-- The sorting loop from index `i` on, when `nodes[0 .. i]` is already ascending: it ends
within `2 * weight + (n - 1 - i)` further turns, with `nodes[0 .. n)` ascending and a
rearrangement of what it was, and nothing else changed. -/
theorem polygon_sort_run (n : Nat) (hn : n ≤ 65535) :
    ∀ (fuel i : Nat) (ns : polygon_nodes_t), i + 1 ≤ n →
      (∀ k : Nat, k < n → isI16 (ns.nodes (k : Int))) →
      (∀ a b : Nat, a ≤ b → b ≤ i → ns.nodes (a : Int) ≤ ns.nodes (b : Int)) →
      2 * nodes_weight ns.nodes n + ((n : Int) - 1 - (i : Int)) < (fuel : Int) →
      ∃ ns1, polygon_sort (n : Int) fuel (i : Int) ns = some ns1 ∧
        (∀ a b : Nat, a ≤ b → b < n → ns1.nodes (a : Int) ≤ ns1.nodes (b : Int)) ∧
        (nodes_list ns1 n).Perm (nodes_list ns n) ∧
        (∀ k : Int, k < 0 ∨ (n : Int) ≤ k → ns1.nodes k = ns.nodes k) := by
  intro fuel
  induction fuel with
  | zero =>
    intro i ns hi hv _ hm
    have := nodes_weight_nonneg ns.nodes n hv
    simp only [Nat.cast_zero] at hm
    omega
  | succ f ih =>
    intro i ns hi hv hsorted hm
    unfold polygon_sort
    by_cases hc : (i : Int) < (n : Int) - 1
    · rw [if_pos hc]
      by_cases hs : ns.nodes (i : Int) > ns.nodes ((i : Int) + 1)
      · -- exchange and step back
        rw [if_pos hs]
        simp only []
        have hidx : (if (i : Int) ≠ 0 then wrapU16 ((i : Int) - 1) else (i : Int))
            = ((i - 1 : Nat) : Int) := by
          split_ifs with h0
          · unfold wrapU16; omega
          · omega
        rw [hidx]
        have hin : i + 1 < n := by omega
        have hnodes : ((ns.store (i : Int) (ns.nodes ((i : Int) + 1))).store ((i : Int) + 1)
            (ns.nodes (i : Int))).nodes
            = fun j : Int => if j = (i : Int) + 1 then ns.nodes (i : Int)
                else if j = (i : Int) then ns.nodes ((i : Int) + 1) else ns.nodes j := rfl
        generalize (ns.store (i : Int) (ns.nodes ((i : Int) + 1))).store ((i : Int) + 1)
            (ns.nodes (i : Int)) = ns2 at hnodes
        -- the weight drops
        have hw : nodes_weight ns2.nodes n
            = nodes_weight ns.nodes n - (ns.nodes (i : Int) - ns.nodes ((i : Int) + 1)) := by
          obtain ⟨A, C, h1, h2⟩ := map_swap_split (fun k v => (k : Int) * (32767 - v))
            ns.nodes n i hin
          unfold nodes_weight
          rw [hnodes, h1, h2]
          simp only [List.sum_append, List.sum_cons]
          push_cast
          ring
        have hperm : (nodes_list ns2 n).Perm (nodes_list ns n) := by
          obtain ⟨A, C, h1, h2⟩ := map_swap_split (fun _ v => v) ns.nodes n i hin
          unfold nodes_list
          rw [hnodes, h1, h2]
          exact List.Perm.append_left A (List.Perm.swap _ _ C)
        have hv2 : ∀ k : Nat, k < n → isI16 (ns2.nodes (k : Int)) := by
          intro k hk
          rw [hnodes]
          simp only []
          split_ifs
          · exact hv i (by omega)
          · have := hv (i + 1) hin
            push_cast at this
            exact this
          · exact hv k hk
        have hsorted2 : ∀ a b : Nat, a ≤ b → b ≤ i - 1 →
            ns2.nodes (a : Int) ≤ ns2.nodes (b : Int) := by
          intro a b hab hb
          by_cases hi0 : i = 0
          · have ha : a = b := by omega
            rw [ha]
          · rw [hnodes]
            simp only []
            rw [if_neg (by omega), if_neg (by omega), if_neg (by omega), if_neg (by omega)]
            exact hsorted a b hab (by omega)
        obtain ⟨ns1, h1, h2, h3, h4⟩ := ih (i - 1) ns2 (by omega) hv2 hsorted2
          (by rw [hw]; push_cast at hm ⊢; omega)
        refine ⟨ns1, h1, h2, h3.trans hperm, fun k hk => ?_⟩
        rw [h4 k hk, hnodes]
        simp only []
        rw [if_neg (by omega), if_neg (by omega)]
      · -- step forward
        rw [if_neg hs]
        have hidx : wrapU16 ((i : Int) + 1) = ((i + 1 : Nat) : Int) := by
          unfold wrapU16; push_cast; omega
        rw [hidx]
        have hsorted2 : ∀ a b : Nat, a ≤ b → b ≤ i + 1 →
            ns.nodes (a : Int) ≤ ns.nodes (b : Int) := by
          intro a b hab hb
          by_cases hbi : b ≤ i
          · exact hsorted a b hab hbi
          · have hbe : b = i + 1 := by omega
            by_cases hae : a = b
            · rw [hae]
            · have h1 := hsorted a i (by omega) (le_refl _)
              rw [hbe]
              push_cast
              omega
        obtain ⟨ns1, h1, h2, h3, h4⟩ := ih (i + 1) ns (by omega) hv hsorted2
          (by push_cast at hm ⊢; omega)
        exact ⟨ns1, h1, h2, h3, h4⟩
    · rw [if_neg hc]
      refine ⟨ns, rfl, fun a b hab hb => hsorted a b hab (by omega), List.Perm.refl _,
        fun _ _ => rfl⟩

/-! ### Bresenham line -/

/-- The loop of `g_draw_line` draws the points of its call record, in order. -/
theorem g_draw_line_loop_points (x1 y1 dx sx dy sy : Int) (color : g_color_t) :
    ∀ (fuel : Nat) (x0 y0 e_xy : Int) (vdb : g_vdb_t),
      g_draw_line_loop x1 y1 dx sx dy sy color fuel x0 y0 e_xy vdb
        = (g_draw_line_points x1 y1 dx sx dy sy fuel x0 y0 e_xy).map
            fun pts => draw_pixels vdb pts color := by
  intro fuel
  induction fuel with
  | zero => intro x0 y0 e vdb; rfl
  | succ n ih =>
    intro x0 y0 e vdb
    unfold g_draw_line_loop g_draw_line_points
    by_cases h : x0 = x1 ∧ y0 = y1
    · rw [if_pos h, if_pos h]; rfl
    · rw [if_neg h, if_neg h]
      simp only []
      rw [ih, Option.map_map]
      rfl

/-- The Bresenham branch of `g_draw_line` draws the points of its call record. -/
theorem g_draw_line_eq_calls (fuel : Nat) (vdb : g_vdb_t) (x0 y0 x1 y1 : Int)
    (color : g_color_t) (thickness : Int) (hx : x0 ≠ x1) (hy : y0 ≠ y1) :
    g_draw_line fuel vdb x0 y0 x1 y1 color thickness
      = (g_draw_line_calls fuel x0 y0 x1 y1).map
          fun pts => (ESP_OK, draw_pixels vdb pts color) := by
  unfold g_draw_line g_draw_line_calls
  rw [if_neg hx, if_neg hy]
  simp only []
  rw [g_draw_line_loop_points, Option.map_map]
  rfl

/-- The loop of `g_draw_line` in the x-major case, with `r` columns and `q` rows to go: the
error term stays in `[0, dx)` and `e - r * dy + q * dx` does not change. -/
theorem g_draw_line_points_xmajor (x1 y1 dx sx dy sy : Int) (hx1 : isI16 x1)
    (hy1 : isI16 y1) (hsx : sx = 1 ∨ sx = -1) (hsy : sy = 1 ∨ sy = -1) (hdy : 0 ≤ dy)
    (hdd : dy < dx) (hdx : dx ≤ 32767) :
    ∀ (r fuel : Nat) (x y e q : Int), r < fuel → isI16 x → isI16 y →
      x1 - x = (r : Int) * sx → y1 - y = q * sy → 0 ≤ q → 0 ≤ e → e < dx →
      0 ≤ e - (r : Int) * dy + q * dx → e - (r : Int) * dy + q * dx < dx →
      ∃ pts, g_draw_line_points x1 y1 dx sx dy sy fuel x y e = some pts ∧
        pts.length = r + 1 ∧ pts.head? = some (x, y) ∧ pts.getLast? = some (x1, y1) ∧
        pts.Chain' adjacent := by
  intro r
  induction r with
  | zero =>
    intro fuel x y e q hf hx hy hrx hqy hq he0 he1 hJ0 hJ1
    obtain ⟨f, rfl⟩ : ∃ f, fuel = f + 1 := ⟨fuel - 1, by omega⟩
    have hq0 : q = 0 := by
      by_contra hne
      have : dx ≤ q * dx := le_mul_of_one_le_left (by omega) (by omega)
      simp only [Nat.cast_zero, zero_mul, sub_zero] at hJ1
      omega
    have hxe : x = x1 := by simp at hrx; omega
    have hye : y = y1 := by rw [hq0] at hqy; simp at hqy; omega
    unfold g_draw_line_points
    rw [if_pos ⟨hxe, hye⟩]
    refine ⟨[(x, y)], rfl, rfl, rfl, ?_, List.chain'_singleton _⟩
    rw [hxe, hye]; rfl
  | succ k ih =>
    intro fuel x y e q hf hx hy hrx hqy hq he0 he1 hJ0 hJ1
    obtain ⟨f, rfl⟩ : ∃ f, fuel = f + 1 := ⟨fuel - 1, by omega⟩
    have hk : ((k + 1 : Nat) : Int) = (k : Int) + 1 := by push_cast; ring
    rw [hk] at hrx hJ0 hJ1
    have e1 : ((k : Int) + 1) * sx = (k : Int) * sx + sx := by ring
    have e2 : ((k : Int) + 1) * dy = (k : Int) * dy + dy := by ring
    rw [e1] at hrx
    rw [e2] at hJ0 hJ1
    have hkd : 0 ≤ (k : Int) * dy := mul_nonneg (by omega) hdy
    have hks : -(k : Int) ≤ (k : Int) * sx ∧ (k : Int) * sx ≤ (k : Int) := by
      rcases hsx with h | h <;> rw [h] <;> constructor <;> omega
    have hne : ¬ (x = x1 ∧ y = y1) := by
      rintro ⟨h, _⟩
      rcases hsx with h1 | h1 <;> rw [h1] at hrx hks <;> omega
    unfold isI16 at hx hy hx1 hy1
    have hxn : wrapI16 (x + sx) = x + sx := by
      apply wrapI16_eq; unfold isI16
      rcases hsx with h1 | h1 <;> rw [h1] at hrx hks ⊢ <;> omega
    have hgt : e > -dx := by omega
    have he1n : wrapI16 (e - dy) = e - dy := by
      apply wrapI16_eq; unfold isI16; omega
    unfold g_draw_line_points
    rw [if_neg hne]
    simp only [if_pos hgt, hxn, he1n]
    by_cases hlt : e < dy
    · -- the row advances as well
      have hq1 : 1 ≤ q := by
        by_contra hc
        have : q = 0 := by omega
        rw [this] at hJ0
        simp only [zero_mul, add_zero] at hJ0
        omega
      have e3 : (q - 1) * dx = q * dx - dx := by ring
      have e4 : (q - 1) * sy = q * sy - sy := by ring
      have hqs : -q ≤ q * sy ∧ q * sy ≤ q := by
        rcases hsy with h | h <;> rw [h] <;> constructor <;> omega
      have hyn : wrapI16 (y + sy) = y + sy := by
        apply wrapI16_eq; unfold isI16
        rcases hsy with h1 | h1 <;> rw [h1] at hqy hqs ⊢ <;> omega
      have he2n : wrapI16 (e - dy + dx) = e - dy + dx := by
        apply wrapI16_eq; unfold isI16; omega
      simp only [if_pos hlt, hyn, he2n]
      obtain ⟨pts, hp, hl, hh, hla, hch⟩ := ih f (x + sx) (y + sy) (e - dy + dx) (q - 1)
        (by omega) (by rw [← hxn]; exact isI16_wrapI16 _) (by rw [← hyn]; exact isI16_wrapI16 _)
        (by omega) (by rw [e4]; omega) (by omega) (by omega) (by omega)
        (by rw [e3]; omega) (by rw [e3]; omega)
      rw [hp]
      refine ⟨(x, y) :: pts, rfl, by simp [hl], rfl, ?_, ?_⟩
      · cases pts with
        | nil => simp at hl
        | cons a t => rw [List.getLast?_cons_cons]; exact hla
      · rw [List.chain'_cons']
        refine ⟨fun p hpm => ?_, hch⟩
        rw [hh] at hpm
        simp only [Option.mem_def, Option.some.injEq] at hpm
        subst hpm
        unfold adjacent
        simp only [add_sub_cancel_left]
        rcases hsx with h1 | h1 <;> rcases hsy with h2 | h2 <;> rw [h1, h2] <;> simp
    · have he2n : ¬ e < dy := hlt
      simp only [if_neg hlt]
      obtain ⟨pts, hp, hl, hh, hla, hch⟩ := ih f (x + sx) y (e - dy) q
        (by omega) (by rw [← hxn]; exact isI16_wrapI16 _) (by unfold isI16; exact hy)
        (by omega) hqy hq (by omega) (by omega) (by omega) (by omega)
      rw [hp]
      refine ⟨(x, y) :: pts, rfl, by simp [hl], rfl, ?_, ?_⟩
      · cases pts with
        | nil => simp at hl
        | cons a t => rw [List.getLast?_cons_cons]; exact hla
      · rw [List.chain'_cons']
        refine ⟨fun p hpm => ?_, hch⟩
        rw [hh] at hpm
        simp only [Option.mem_def, Option.some.injEq] at hpm
        subst hpm
        unfold adjacent
        simp only [add_sub_cancel_left, sub_self]
        rcases hsx with h1 | h1 <;> rw [h1] <;> simp

/-- The loop of `g_draw_line` in the y-major case (`dx ≤ dy`), with `r` rows and `q` columns
to go: the error term stays in `(-dy, 0]` and `e + r * dx - q * dy` does not change. -/
theorem g_draw_line_points_ymajor (x1 y1 dx sx dy sy : Int) (hx1 : isI16 x1)
    (hy1 : isI16 y1) (hsx : sx = 1 ∨ sx = -1) (hsy : sy = 1 ∨ sy = -1) (hdx : 0 ≤ dx)
    (hdd : dx ≤ dy) (hdy0 : 0 < dy) (hdy : dy ≤ 32767) :
    ∀ (r fuel : Nat) (x y e q : Int), r < fuel → isI16 x → isI16 y →
      y1 - y = (r : Int) * sy → x1 - x = q * sx → 0 ≤ q → -dy < e → e ≤ 0 →
      -dy < e + (r : Int) * dx - q * dy → e + (r : Int) * dx - q * dy ≤ 0 →
      ∃ pts, g_draw_line_points x1 y1 dx sx dy sy fuel x y e = some pts ∧
        pts.length = r + 1 ∧ pts.head? = some (x, y) ∧ pts.getLast? = some (x1, y1) ∧
        pts.Chain' adjacent := by
  intro r
  induction r with
  | zero =>
    intro fuel x y e q hf hx hy hry hqx hq he0 he1 hJ0 hJ1
    obtain ⟨f, rfl⟩ : ∃ f, fuel = f + 1 := ⟨fuel - 1, by omega⟩
    have hq0 : q = 0 := by
      by_contra hne
      have : dy ≤ q * dy := le_mul_of_one_le_left (by omega) (by omega)
      simp only [Nat.cast_zero, zero_mul, add_zero] at hJ0
      omega
    have hye : y = y1 := by simp at hry; omega
    have hxe : x = x1 := by rw [hq0] at hqx; simp at hqx; omega
    unfold g_draw_line_points
    rw [if_pos ⟨hxe, hye⟩]
    refine ⟨[(x, y)], rfl, rfl, rfl, ?_, List.chain'_singleton _⟩
    rw [hxe, hye]; rfl
  | succ k ih =>
    intro fuel x y e q hf hx hy hry hqx hq he0 he1 hJ0 hJ1
    obtain ⟨f, rfl⟩ : ∃ f, fuel = f + 1 := ⟨fuel - 1, by omega⟩
    have hk : ((k + 1 : Nat) : Int) = (k : Int) + 1 := by push_cast; ring
    rw [hk] at hry hJ0 hJ1
    have e1 : ((k : Int) + 1) * sy = (k : Int) * sy + sy := by ring
    have e2 : ((k : Int) + 1) * dx = (k : Int) * dx + dx := by ring
    rw [e1] at hry
    rw [e2] at hJ0 hJ1
    have hkd : 0 ≤ (k : Int) * dx := mul_nonneg (by omega) hdx
    have hks : -(k : Int) ≤ (k : Int) * sy ∧ (k : Int) * sy ≤ (k : Int) := by
      rcases hsy with h | h <;> rw [h] <;> constructor <;> omega
    have hne : ¬ (x = x1 ∧ y = y1) := by
      rintro ⟨_, h⟩
      rcases hsy with h1 | h1 <;> rw [h1] at hry hks <;> omega
    unfold isI16 at hx hy hx1 hy1
    have hyn : wrapI16 (y + sy) = y + sy := by
      apply wrapI16_eq; unfold isI16
      rcases hsy with h1 | h1 <;> rw [h1] at hry hks ⊢ <;> omega
    have hlt : e < dy := by omega
    unfold g_draw_line_points
    rw [if_neg hne]
    simp only [if_pos hlt, hyn]
    by_cases hgt : e > -dx
    · -- the column advances as well
      have hq1 : 1 ≤ q := by
        by_contra hc
        have : q = 0 := by omega
        rw [this] at hJ1
        simp only [zero_mul, sub_zero] at hJ1
        omega
      have e3 : (q - 1) * dy = q * dy - dy := by ring
      have e4 : (q - 1) * sx = q * sx - sx := by ring
      have hqs : -q ≤ q * sx ∧ q * sx ≤ q := by
        rcases hsx with h | h <;> rw [h] <;> constructor <;> omega
      have hxn : wrapI16 (x + sx) = x + sx := by
        apply wrapI16_eq; unfold isI16
        rcases hsx with h1 | h1 <;> rw [h1] at hqx hqs ⊢ <;> omega
      have he2n : wrapI16 (wrapI16 (e - dy) + dx) = e - dy + dx := by
        unfold wrapI16; omega
      simp only [if_pos hgt, hxn, he2n]
      obtain ⟨pts, hp, hl, hh, hla, hch⟩ := ih f (x + sx) (y + sy) (e - dy + dx) (q - 1)
        (by omega) (by rw [← hxn]; exact isI16_wrapI16 _) (by rw [← hyn]; exact isI16_wrapI16 _)
        (by omega) (by rw [e4]; omega) (by omega) (by omega) (by omega)
        (by rw [e3]; omega) (by rw [e3]; omega)
      rw [hp]
      refine ⟨(x, y) :: pts, rfl, by simp [hl], rfl, ?_, ?_⟩
      · cases pts with
        | nil => simp at hl
        | cons a t => rw [List.getLast?_cons_cons]; exact hla
      · rw [List.chain'_cons']
        refine ⟨fun p hpm => ?_, hch⟩
        rw [hh] at hpm
        simp only [Option.mem_def, Option.some.injEq] at hpm
        subst hpm
        unfold adjacent
        simp only [add_sub_cancel_left]
        rcases hsx with h1 | h1 <;> rcases hsy with h2 | h2 <;> rw [h1, h2] <;> simp
    · have he2n : wrapI16 (e + dx) = e + dx := by
        apply wrapI16_eq; unfold isI16; omega
      simp only [if_neg hgt, he2n]
      obtain ⟨pts, hp, hl, hh, hla, hch⟩ := ih f x (y + sy) (e + dx) q
        (by omega) (by unfold isI16; exact hx) (by rw [← hyn]; exact isI16_wrapI16 _)
        (by omega) hqx hq (by omega) (by omega) (by omega) (by omega)
      rw [hp]
      refine ⟨(x, y) :: pts, rfl, by simp [hl], rfl, ?_, ?_⟩
      · cases pts with
        | nil => simp at hl
        | cons a t => rw [List.getLast?_cons_cons]; exact hla
      · rw [List.chain'_cons']
        refine ⟨fun p hpm => ?_, hch⟩
        rw [hh] at hpm
        simp only [Option.mem_def, Option.some.injEq] at hpm
        subst hpm
        unfold adjacent
        simp only [add_sub_cancel_left, sub_self]
        rcases hsy with h1 | h1 <;> rw [h1] <;> simp

/-- For a target column 32768 to the left the stored `dx` is `-32768`: the column test
`e > -dx` never holds for a 16-bit `e`, the column never moves, and the loop of `g_draw_line`
does not end. -/
theorem g_draw_line_loop_stuck (y1 : Int) (color : g_color_t) :
    ∀ (fuel : Nat) (y e : Int) (vdb : g_vdb_t), e ≤ 32767 →
      g_draw_line_loop (-32768) y1 (-32768) (-1) 1 1 color fuel 0 y e vdb = none := by
  intro fuel
  induction fuel with
  | zero => intro y e vdb _; rfl
  | succ n ih =>
    intro y e vdb he
    unfold g_draw_line_loop
    rw [if_neg (by omega)]
    simp only []
    rw [if_neg (show ¬ e > -(-32768) by omega), if_neg (show ¬ e > -(-32768) by omega)]
    by_cases h : e < 1
    · rw [if_pos h, if_pos h]
      exact ih _ _ _ (by unfold wrapI16; omega)
    · rw [if_neg h, if_neg h]
      exact ih _ _ _ he

/-! ### Line fast paths and index safety -/

/-- The last turn of a range loop. -/
theorem forRange_succ_right {σ : Type} (lo hi : Int) (body : Int → σ → σ) (s : σ)
    (h : lo ≤ hi) : forRange lo (hi + 1) body s = body hi (forRange lo hi body s) := by
  rw [forRange_eq_foldl, forRange_eq_foldl]
  have hn : (hi + 1 - lo).toNat = (hi - lo).toNat + 1 := by omega
  rw [hn, List.range_succ, List.foldl_append]
  simp only [List.foldl_cons, List.foldl_nil]
  congr 1
  omega

/-- An empty range loop. -/
theorem forRange_empty {σ : Type} (lo hi : Int) (body : Int → σ → σ) (s : σ)
    (h : hi ≤ lo) : forRange lo hi body s = s := by
  rw [forRange_eq_foldl]
  have hn : (hi - lo).toNat = 0 := by omega
  rw [hn]
  rfl

/-- A loop of stores leaves the region alone. -/
theorem forRange_store_region (lo hi : Int) (f : Int → Int) (c : g_color_t) (v : g_vdb_t) :
    (forRange lo hi (fun i s => s.store (f i) c) v).region = v.region := by
  rw [forRange_store, paint_region]

/-- The window width as a number, for a window that is not empty. -/
theorem g_region_width_eq (reg : g_region_t) (hw : reg.wf) (hne : reg.x0 ≤ reg.x1) :
    g_region_width reg = reg.x1 - reg.x0 + 1 := by
  obtain ⟨⟨_, _⟩, _, ⟨_, _⟩, _⟩ := hw
  unfold g_region_width
  exact wrapSize_eq (by omega) (by omega)

/-- The window height as a number, for a window that is not empty. -/
theorem g_region_height_eq (reg : g_region_t) (hw : reg.wf) (hne : reg.y0 ≤ reg.y1) :
    g_region_height reg = reg.y1 - reg.y0 + 1 := by
  obtain ⟨_, ⟨_, _⟩, _, ⟨_, _⟩⟩ := hw
  unfold g_region_height
  exact wrapSize_eq (by omega) (by omega)

/-- With no 16-bit overflow the thickness-1 path of `g_draw_hline` is the pixel-by-pixel
segment. -/
theorem g_draw_hline_eq_pixels (fuel : Nat) (vdb : g_vdb_t) (x y : Int) (c : g_color_t)
    (hw : vdb.region.wf) (hne : vdb.region.x0 ≤ vdb.region.x1)
    (hW : vdb.region.x1 - vdb.region.x0 + 1 ≤ 32767) (hx : isI16 x)
    (hxr : isI16 (x - vdb.region.x0)) :
    ∀ m : Nat, x + (m : Int) - 1 ≤ 32767 →
      g_draw_hline fuel vdb x y (m : Int) c 1
        = some (ESP_OK, hline_by_pixels vdb x y (m : Int) c) := by
  have hWe := g_region_width_eq vdb.region hw hne
  obtain ⟨⟨hx0a, hx0b⟩, _, ⟨hx1a, hx1b⟩, _⟩ := hw
  unfold isI16 at hx hxr
  have hval : ∀ w : Int, 0 ≤ w → g_draw_hline fuel vdb x y w c 1 =
      some (ESP_OK, if y < vdb.region.y0 ∨ y > vdb.region.y1 then vdb else
        forRange (if x < vdb.region.x0 then 0 else x - vdb.region.x0)
          (if x + w - 1 > vdb.region.x1 then vdb.region.x1 - vdb.region.x0 + 1
            else x + w - vdb.region.x0)
          (fun i s => s.store (wrapSize ((y - vdb.region.y0)
            * (vdb.region.x1 - vdb.region.x0 + 1) + i)) c) vdb) := by
    intro w hw0
    unfold g_draw_hline
    rw [if_neg (by decide), if_pos rfl]
    by_cases hrow : y < vdb.region.y0 ∨ y > vdb.region.y1
    · rw [if_pos hrow, if_pos hrow]
    · rw [if_neg hrow, if_neg hrow]
      simp only [hWe, wrapI16_wrapSize]
      rw [wrapI16_eq (by unfold isI16; split_ifs <;> omega),
        wrapI16_eq (by unfold isI16; split_ifs <;> omega)]
  intro m
  induction m with
  | zero =>
    intro _
    simp only [Nat.cast_zero]
    rw [hval 0 (le_refl _)]
    unfold hline_by_pixels
    rw [forRange_empty 0 _ _ _ (le_refl _)]
    by_cases hrow : y < vdb.region.y0 ∨ y > vdb.region.y1
    · rw [if_pos hrow]
    · rw [if_neg hrow, forRange_empty _ _ _ _ (by split_ifs <;> omega)]
  | succ k ih =>
    intro hk
    have hk1 : ((k + 1 : Nat) : Int) = (k : Int) + 1 := by push_cast; ring
    have ih1 := ih (by omega)
    rw [hval _ (by omega)] at ih1
    rw [hval _ (by omega), hk1]
    have hprev : hline_by_pixels vdb x y ((k : Int) + 1) c
        = (g_draw_pixel (hline_by_pixels vdb x y (k : Int) c) (wrapI16 (x + (k : Int))) y c).2 := by
      unfold hline_by_pixels
      rw [forRange_succ_right 0 _ _ _ (by omega)]
    rw [hprev]
    have hih : hline_by_pixels vdb x y (k : Int) c = _ :=
      (Prod.mk.inj (Option.some.inj ih1)).2.symm
    rw [hih, wrapI16_eq (by unfold isI16; omega)]
    by_cases hrow : y < vdb.region.y0 ∨ y > vdb.region.y1
    · rw [if_pos hrow, if_pos hrow]
      unfold g_draw_pixel
      rw [if_pos (by omega)]
    · rw [if_neg hrow, if_neg hrow]
      unfold g_draw_pixel
      rw [forRange_store_region]
      by_cases hleft : x + (k : Int) < vdb.region.x0
      · rw [if_pos (Or.inl hleft)]
        have h1 : (if x + ((k : Int) + 1) - 1 > vdb.region.x1
            then vdb.region.x1 - vdb.region.x0 + 1
            else x + ((k : Int) + 1) - vdb.region.x0)
            ≤ (if x < vdb.region.x0 then 0 else x - vdb.region.x0) := by
          split_ifs <;> omega
        have h2 : (if x + (k : Int) - 1 > vdb.region.x1
            then vdb.region.x1 - vdb.region.x0 + 1
            else x + (k : Int) - vdb.region.x0)
            ≤ (if x < vdb.region.x0 then 0 else x - vdb.region.x0) := by
          split_ifs <;> omega
        rw [forRange_empty _ _ _ _ h1, forRange_empty _ _ _ _ h2]
      · by_cases hright : x + (k : Int) > vdb.region.x1
        · rw [if_pos (Or.inr (Or.inr (Or.inl hright)))]
          have e : (if x + ((k : Int) + 1) - 1 > vdb.region.x1
              then vdb.region.x1 - vdb.region.x0 + 1
              else x + ((k : Int) + 1) - vdb.region.x0)
              = (if x + (k : Int) - 1 > vdb.region.x1
              then vdb.region.x1 - vdb.region.x0 + 1
              else x + (k : Int) - vdb.region.x0) := by
            split_ifs <;> omega
          rw [e]
        · rw [if_neg (show ¬ (x + (k : Int) < vdb.region.x0 ∨ y < vdb.region.y0 ∨
            x + (k : Int) > vdb.region.x1 ∨ y > vdb.region.y1) by omega)]
          have hlo : (if x < vdb.region.x0 then 0 else x - vdb.region.x0)
              ≤ x + (k : Int) - vdb.region.x0 := by
            split_ifs <;> omega
          have e1 : (if x + ((k : Int) + 1) - 1 > vdb.region.x1
              then vdb.region.x1 - vdb.region.x0 + 1
              else x + ((k : Int) + 1) - vdb.region.x0) = (x + (k : Int) - vdb.region.x0) + 1 := by
            rw [if_neg (by omega)]; ring
          have e2 : (if x + (k : Int) - 1 > vdb.region.x1
              then vdb.region.x1 - vdb.region.x0 + 1
              else x + (k : Int) - vdb.region.x0) = x + (k : Int) - vdb.region.x0 := by
            rw [if_neg (by omega)]
          rw [e1, e2, forRange_succ_right _ _ _ _ hlo]
          congr 3
          rw [hWe]
          congr 1
          ring

/-- With no 16-bit overflow the thickness-1 path of `g_draw_vline` is the pixel-by-pixel
segment. -/
theorem g_draw_vline_eq_pixels (fuel : Nat) (vdb : g_vdb_t) (x y : Int) (c : g_color_t)
    (hw : vdb.region.wf) (hne : vdb.region.y0 ≤ vdb.region.y1)
    (hH : vdb.region.y1 - vdb.region.y0 + 1 ≤ 32767) (hy : isI16 y)
    (hyr : isI16 (y - vdb.region.y0)) :
    ∀ m : Nat, y + (m : Int) - 1 ≤ 32767 →
      g_draw_vline fuel vdb x y (m : Int) c 1
        = some (ESP_OK, vline_by_pixels vdb x y (m : Int) c) := by
  have hHe := g_region_height_eq vdb.region hw hne
  obtain ⟨_, ⟨hy0a, hy0b⟩, _, ⟨hy1a, hy1b⟩⟩ := hw
  unfold isI16 at hy hyr
  have hval : ∀ h : Int, 0 ≤ h → g_draw_vline fuel vdb x y h c 1 =
      some (ESP_OK, if x < vdb.region.x0 ∨ x > vdb.region.x1 then vdb else
        forRange (if y < vdb.region.y0 then 0 else y - vdb.region.y0)
          (if y + h - 1 > vdb.region.y1 then vdb.region.y1 - vdb.region.y0 + 1
            else y + h - vdb.region.y0)
          (fun i s => s.store (wrapSize (i * g_region_width vdb.region + x
            - vdb.region.x0)) c) vdb) := by
    intro h hh0
    unfold g_draw_vline
    rw [if_neg (by decide), if_pos rfl]
    by_cases hcol : x < vdb.region.x0 ∨ x > vdb.region.x1
    · rw [if_pos hcol, if_pos hcol]
    · rw [if_neg hcol, if_neg hcol]
      simp only [hHe, wrapI16_wrapSize]
      rw [wrapI16_eq (by unfold isI16; split_ifs <;> omega),
        wrapI16_eq (by unfold isI16; split_ifs <;> omega)]
  intro m
  induction m with
  | zero =>
    intro _
    simp only [Nat.cast_zero]
    rw [hval 0 (le_refl _)]
    unfold vline_by_pixels
    rw [forRange_empty 0 _ _ _ (le_refl _)]
    by_cases hcol : x < vdb.region.x0 ∨ x > vdb.region.x1
    · rw [if_pos hcol]
    · rw [if_neg hcol, forRange_empty _ _ _ _ (by split_ifs <;> omega)]
  | succ k ih =>
    intro hk
    have hk1 : ((k + 1 : Nat) : Int) = (k : Int) + 1 := by push_cast; ring
    have ih1 := ih (by omega)
    rw [hval _ (by omega)] at ih1
    rw [hval _ (by omega), hk1]
    have hprev : vline_by_pixels vdb x y ((k : Int) + 1) c
        = (g_draw_pixel (vline_by_pixels vdb x y (k : Int) c) x (wrapI16 (y + (k : Int))) c).2 := by
      unfold vline_by_pixels
      rw [forRange_succ_right 0 _ _ _ (by omega)]
    rw [hprev]
    have hih : vline_by_pixels vdb x y (k : Int) c = _ :=
      (Prod.mk.inj (Option.some.inj ih1)).2.symm
    rw [hih, wrapI16_eq (by unfold isI16; omega)]
    by_cases hcol : x < vdb.region.x0 ∨ x > vdb.region.x1
    · rw [if_pos hcol, if_pos hcol]
      unfold g_draw_pixel
      rw [if_pos (by omega)]
    · rw [if_neg hcol, if_neg hcol]
      unfold g_draw_pixel
      rw [forRange_store_region]
      by_cases hup : y + (k : Int) < vdb.region.y0
      · rw [if_pos (Or.inr (Or.inl hup))]
        have h1 : (if y + ((k : Int) + 1) - 1 > vdb.region.y1
            then vdb.region.y1 - vdb.region.y0 + 1
            else y + ((k : Int) + 1) - vdb.region.y0)
            ≤ (if y < vdb.region.y0 then 0 else y - vdb.region.y0) := by
          split_ifs <;> omega
        have h2 : (if y + (k : Int) - 1 > vdb.region.y1
            then vdb.region.y1 - vdb.region.y0 + 1
            else y + (k : Int) - vdb.region.y0)
            ≤ (if y < vdb.region.y0 then 0 else y - vdb.region.y0) := by
          split_ifs <;> omega
        rw [forRange_empty _ _ _ _ h1, forRange_empty _ _ _ _ h2]
      · by_cases hdown : y + (k : Int) > vdb.region.y1
        · rw [if_pos (Or.inr (Or.inr (Or.inr hdown)))]
          have e : (if y + ((k : Int) + 1) - 1 > vdb.region.y1
              then vdb.region.y1 - vdb.region.y0 + 1
              else y + ((k : Int) + 1) - vdb.region.y0)
              = (if y + (k : Int) - 1 > vdb.region.y1
              then vdb.region.y1 - vdb.region.y0 + 1
              else y + (k : Int) - vdb.region.y0) := by
            split_ifs <;> omega
          rw [e]
        · rw [if_neg (show ¬ (x < vdb.region.x0 ∨ y + (k : Int) < vdb.region.y0 ∨
            x > vdb.region.x1 ∨ y + (k : Int) > vdb.region.y1) by omega)]
          have hlo : (if y < vdb.region.y0 then 0 else y - vdb.region.y0)
              ≤ y + (k : Int) - vdb.region.y0 := by
            split_ifs <;> omega
          have e1 : (if y + ((k : Int) + 1) - 1 > vdb.region.y1
              then vdb.region.y1 - vdb.region.y0 + 1
              else y + ((k : Int) + 1) - vdb.region.y0) = (y + (k : Int) - vdb.region.y0) + 1 := by
            rw [if_neg (by omega)]; ring
          have e2 : (if y + (k : Int) - 1 > vdb.region.y1
              then vdb.region.y1 - vdb.region.y0 + 1
              else y + (k : Int) - vdb.region.y0) = y + (k : Int) - vdb.region.y0 := by
            rw [if_neg (by omega)]
          rw [e1, e2, forRange_succ_right _ _ _ _ hlo]

/-- The pixel-by-pixel horizontal segment gives the colour to the window pixels of the segment
and leaves the other window pixels alone. -/
theorem hline_by_pixels_pixel (vdb : g_vdb_t) (x y n : Int) (c : g_color_t)
    (hw : vdb.region.wf) (hx : isI16 x) (hxn : x + n - 1 ≤ 32767) (px py : Int)
    (hin : vdb.region.contains px py) :
    (hline_by_pixels vdb x y n c).pixel px py
      = if py = y ∧ x ≤ px ∧ px < x + n then c else vdb.pixel px py := by
  have hP := forRange_paintsTo c vdb.region
    (fun i j => vdb.region.contains (wrapI16 (x + i)) y ∧
      j = wrapSize ((y - vdb.region.y0) * g_region_width vdb.region + wrapI16 (x + i)
        - vdb.region.x0))
    (fun i s => (g_draw_pixel s (wrapI16 (x + i)) y c).2)
    (fun i s hs => g_draw_pixel_paintsTo vdb.region s _ _ c hs) 0 n vdb rfl
  obtain ⟨hreg, hbuf⟩ := hP
  have hwrap : ∀ i, 0 ≤ i → i < n → wrapI16 (x + i) = x + i := by
    intro i h0 h1; apply wrapI16_eq; unfold isI16 at *; omega
  unfold hline_by_pixels g_vdb_t.pixel g_vdb_t.index
  rw [hreg]
  by_cases hc : py = y ∧ x ≤ px ∧ px < x + n
  · rw [if_pos hc]
    obtain ⟨rfl, h1, h2⟩ := hc
    refine (hbuf _).1 ⟨px - x, by omega, by omega, ?_, ?_⟩
    · rw [hwrap (px - x) (by omega) (by omega)]
      have e : x + (px - x) = px := by ring
      rw [e]; exact hin
    · rw [hwrap (px - x) (by omega) (by omega)]
      have e : x + (px - x) = px := by ring
      rw [e, pixel_index_eq vdb px py hw hin]; rfl
  · rw [if_neg hc]
    refine (hbuf _).2 ?_
    rintro ⟨i, hi0, hi1, hci, hj⟩
    rw [hwrap i hi0 hi1] at hci hj
    rw [pixel_index_eq vdb (x + i) y hw hci] at hj
    obtain ⟨e1, e2⟩ := index_inj vdb.region px py (x + i) y hin hci hj
    exact hc ⟨e2, by omega, by omega⟩

/-- The pixel-by-pixel vertical segment gives the colour to the window pixels of the segment
and leaves the other window pixels alone. -/
theorem vline_by_pixels_pixel (vdb : g_vdb_t) (x y n : Int) (c : g_color_t)
    (hw : vdb.region.wf) (hy : isI16 y) (hyn : y + n - 1 ≤ 32767) (px py : Int)
    (hin : vdb.region.contains px py) :
    (vline_by_pixels vdb x y n c).pixel px py
      = if px = x ∧ y ≤ py ∧ py < y + n then c else vdb.pixel px py := by
  have hP := forRange_paintsTo c vdb.region
    (fun i j => vdb.region.contains x (wrapI16 (y + i)) ∧
      j = wrapSize ((wrapI16 (y + i) - vdb.region.y0) * g_region_width vdb.region + x
        - vdb.region.x0))
    (fun i s => (g_draw_pixel s x (wrapI16 (y + i)) c).2)
    (fun i s hs => g_draw_pixel_paintsTo vdb.region s _ _ c hs) 0 n vdb rfl
  obtain ⟨hreg, hbuf⟩ := hP
  have hwrap : ∀ i, 0 ≤ i → i < n → wrapI16 (y + i) = y + i := by
    intro i h0 h1; apply wrapI16_eq; unfold isI16 at *; omega
  unfold vline_by_pixels g_vdb_t.pixel g_vdb_t.index
  rw [hreg]
  by_cases hc : px = x ∧ y ≤ py ∧ py < y + n
  · rw [if_pos hc]
    obtain ⟨rfl, h1, h2⟩ := hc
    refine (hbuf _).1 ⟨py - y, by omega, by omega, ?_, ?_⟩
    · rw [hwrap (py - y) (by omega) (by omega)]
      have e : y + (py - y) = py := by ring
      rw [e]; exact hin
    · rw [hwrap (py - y) (by omega) (by omega)]
      have e : y + (py - y) = py := by ring
      rw [e, pixel_index_eq vdb px py hw hin]; rfl
  · rw [if_neg hc]
    refine (hbuf _).2 ?_
    rintro ⟨i, hi0, hi1, hci, hj⟩
    rw [hwrap i hi0 hi1] at hci hj
    rw [pixel_index_eq vdb x (y + i) hw hci] at hj
    obtain ⟨e1, e2⟩ := index_inj vdb.region px py x (y + i) hin hci hj
    exact hc ⟨e1, by omega, by omega⟩

/-- No store at all. -/
theorem writesWithin_refl (N : Int) (v : g_vdb_t) : WritesWithin N v v :=
  ⟨rfl, [], rfl, fun _ h => absurd h (List.not_mem_nil _)⟩

/-- Stores after stores. -/
theorem writesWithin_trans (N : Int) (v v1 v2 : g_vdb_t) (h1 : WritesWithin N v v1)
    (h2 : WritesWithin N v1 v2) : WritesWithin N v v2 := by
  obtain ⟨r1, l1, e1, b1⟩ := h1
  obtain ⟨r2, l2, e2, b2⟩ := h2
  refine ⟨r2.trans r1, l2 ++ l1, by rw [e2, e1, List.append_assoc], fun i hi => ?_⟩
  rcases List.mem_append.1 hi with h | h
  · exact b2 i h
  · exact b1 i h

/-- One store to an index in range. -/
theorem writesWithin_store (N : Int) (v : g_vdb_t) (i : Int) (c : g_color_t) (h0 : 0 ≤ i)
    (h1 : i < N) : WritesWithin N v (v.store i c) :=
  ⟨rfl, [i], rfl, fun j hj => by
    rw [List.mem_singleton] at hj
    rw [hj]; exact ⟨h0, h1⟩⟩

/-- A range loop whose turns each store within range stores within range. -/
theorem writesWithin_forRange (N : Int) (lo hi : Int) (body : Int → g_vdb_t → g_vdb_t)
    (v : g_vdb_t)
    (hbody : ∀ i s, lo ≤ i → i < hi → s.region = v.region → WritesWithin N s (body i s)) :
    WritesWithin N v (forRange lo hi body v) := by
  by_cases hle : lo ≤ hi
  · refine forRange_induction lo hi body v (fun _ s => WritesWithin N v s) hle
      (writesWithin_refl N v) ?_
    intro i t hi0 hi1 ht
    exact writesWithin_trans N v t _ ht (hbody i t hi0 hi1 ht.1)
  · rw [forRange_empty lo hi body v (by omega)]
    exact writesWithin_refl N v

/-- The cell of a window pixel lies in `[0, width * height)`. -/
theorem index_in_range (reg : g_region_t) (px py : Int) (hin : reg.contains px py) :
    0 ≤ (py - reg.y0) * (reg.x1 - reg.x0 + 1) + (px - reg.x0) ∧
    (py - reg.y0) * (reg.x1 - reg.x0 + 1) + (px - reg.x0)
      < (reg.x1 - reg.x0 + 1) * (reg.y1 - reg.y0 + 1) := by
  obtain ⟨h1, h2, h3, h4⟩ := hin
  generalize hW : reg.x1 - reg.x0 + 1 = W
  have hW0 : 0 ≤ W := by omega
  have hm0 : 0 ≤ (py - reg.y0) * W := mul_nonneg (by omega) hW0
  have hm1 : (py - reg.y0) * W ≤ (reg.y1 - reg.y0) * W :=
    mul_le_mul_of_nonneg_right (by omega) hW0
  have hm2 : W * (reg.y1 - reg.y0 + 1) = (reg.y1 - reg.y0) * W + W := by ring
  constructor
  · omega
  · rw [hm2]; omega

/-- Function `g_draw_pixel` stores inside the window buffer. -/
theorem g_draw_pixel_within (vdb : g_vdb_t) (x y : Int) (c : g_color_t)
    (hw : vdb.region.wf) :
    WritesWithin ((vdb.region.x1 - vdb.region.x0 + 1) * (vdb.region.y1 - vdb.region.y0 + 1))
      vdb (g_draw_pixel vdb x y c).2 := by
  unfold g_draw_pixel
  by_cases hout : x < vdb.region.x0 ∨ y < vdb.region.y0 ∨ x > vdb.region.x1 ∨ y > vdb.region.y1
  · rw [if_pos hout]
    exact writesWithin_refl _ vdb
  · rw [if_neg hout]
    have hin : vdb.region.contains x y := by unfold g_region_t.contains; omega
    have h := index_in_range vdb.region x y hin
    rw [pixel_index_eq vdb x y hw hin]
    exact writesWithin_store _ vdb _ c h.1 h.2

/-- A sequence of `g_draw_pixel` calls stores inside the window buffer. -/
theorem pixels_within (vdb : g_vdb_t) (px py : Int → Int) (n : Int) (c : g_color_t)
    (hw : vdb.region.wf) :
    WritesWithin ((vdb.region.x1 - vdb.region.x0 + 1) * (vdb.region.y1 - vdb.region.y0 + 1))
      vdb (forRange 0 n (fun i s => (g_draw_pixel s (px i) (py i) c).2) vdb) := by
  apply writesWithin_forRange
  intro i s _ _ hs
  have h := g_draw_pixel_within s (px i) (py i) c (by rw [hs]; exact hw)
  rw [hs] at h
  exact h

/-- The copy of one row stores within range when its destination cells are in range. -/
theorem memcpy_within (N : Int) (v : g_vdb_t) (dst src n : Int)
    (h : ∀ k, 0 ≤ k → k < n → 0 ≤ wrapSize (dst + k) ∧ wrapSize (dst + k) < N) :
    WritesWithin N v (memcpy v dst src n) := by
  unfold memcpy
  apply writesWithin_forRange
  intro k s hk0 hk1 _
  exact writesWithin_store N s _ _ (h k hk0 hk1).1 (h k hk0 hk1).2

/-- The filled branch of `g_draw_rect` on a clipped rectangle that lies inside the window:
both loops end and every store goes to a cell of the window buffer. -/
theorem g_draw_rect_fill_within (fuel : Nat) (vdb : g_vdb_t) (f : g_region_t)
    (color : g_color_t) (hw : vdb.region.wf) (hne : vdb.region.x0 ≤ vdb.region.x1)
    (hW : vdb.region.x1 - vdb.region.x0 + 1 ≤ 32767)
    (hH : vdb.region.y1 - vdb.region.y0 + 1 ≤ 32767)
    (hfx : 0 ≤ f.x0 ∧ f.x0 ≤ f.x1 ∧ f.x1 ≤ vdb.region.x1 - vdb.region.x0)
    (hfy : 0 ≤ f.y0 ∧ f.y0 ≤ f.y1 ∧ f.y1 ≤ vdb.region.y1 - vdb.region.y0)
    (hfuel : vdb.region.x1 - vdb.region.x0 + 1 < (fuel : Int) ∧
      vdb.region.y1 - vdb.region.y0 + 1 < (fuel : Int)) :
    ∃ v1, g_draw_rect_fill fuel vdb f color = some v1 ∧
      WritesWithin ((vdb.region.x1 - vdb.region.x0 + 1)
        * (vdb.region.y1 - vdb.region.y0 + 1)) vdb v1 := by
  have hWe := g_region_width_eq vdb.region hw hne
  have hfw : g_region_width f = f.x1 - f.x0 + 1 := by
    unfold g_region_width; exact wrapSize_eq (by omega) (by omega)
  generalize hWd : vdb.region.x1 - vdb.region.x0 + 1 = W at *
  generalize hHd : vdb.region.y1 - vdb.region.y0 + 1 = H at *
  have hH1 : 1 ≤ H := by omega
  have hWH : W * H ≤ 32767 * 32767 := mul_le_mul hW hH (by omega) (by omega)
  -- row starts
  have hrow : ∀ r : Int, 0 ≤ r → r ≤ H - 1 → 0 ≤ r * W ∧ r * W + W ≤ W * H := by
    intro r hr0 hr1
    have h1 : 0 ≤ r * W := mul_nonneg hr0 (by omega)
    have h2 : r * W ≤ (H - 1) * W := mul_le_mul_of_nonneg_right hr1 (by omega)
    have h3 : (H - 1) * W = W * H - W := by ring
    omega
  have hcond1 : (fun c : Int => decide (c ≤ f.x1)) = fun c : Int => decide (c < f.x1 + 1) := by
    funext c; simp [Int.lt_add_one_iff]
  have hcond2 : (fun r : Int => decide (r ≤ f.y1)) = fun r : Int => decide (r < f.y1 + 1) := by
    funext r; simp [Int.lt_add_one_iff]
  obtain ⟨hr0, hr1⟩ := hrow f.y0 (by omega) (by omega)
  have ebuf : wrapSize (f.y0 * W) = f.y0 * W := wrapSize_eq hr0 (by omega)
  have ebuf2 : wrapSize (f.y0 * W + W) = (f.y0 + 1) * W := by
    rw [wrapSize_eq (by omega) (by omega)]; ring
  have ey : wrapI16 (f.y0 + 1) = f.y0 + 1 := wrapI16_eq (by unfold isI16; omega)
  unfold g_draw_rect_fill
  simp only [hWe, ebuf, ebuf2, ey, hfw, hcond1, hcond2]
  rw [forLoop_eq_forRange (f.x1 + 1) (by omega) _ fuel f.x0 vdb (by omega) (by omega)]
  simp only [Option.some_bind]
  rw [forLoop_eq_forRange (f.y1 + 1) (by omega) _ fuel (f.y0 + 1) _ (by omega) (by omega)]
  refine ⟨_, rfl, ?_⟩
  -- the first row
  have h1 : WritesWithin (W * H) vdb
      (forRange f.x0 (f.x1 + 1) (fun c s => s.store (wrapSize (f.y0 * W + c)) color) vdb) := by
    apply writesWithin_forRange
    intro c s hc0 hc1 _
    have e : wrapSize (f.y0 * W + c) = f.y0 * W + c := wrapSize_eq (by omega) (by omega)
    rw [e]
    exact writesWithin_store _ s _ _ (by omega) (by omega)
  generalize forRange f.x0 (f.x1 + 1) (fun c s => s.store (wrapSize (f.y0 * W + c)) color) vdb
    = v1 at h1 ⊢
  -- the further rows
  have h2 := forRange_induction (f.y0 + 1) (f.y1 + 1)
    (fun _ (s : g_vdb_t × Int) =>
      (memcpy s.1 (wrapSize (s.2 + f.x0)) (wrapSize (f.y0 * W + f.x0)) (f.x1 - f.x0 + 1),
        wrapSize (s.2 + W)))
    (v1, (f.y0 + 1) * W)
    (fun r s => WritesWithin (W * H) vdb s.1 ∧ s.2 = r * W) (by omega) ⟨h1, rfl⟩
    (by
      rintro r ⟨s, p⟩ hr0 hr1 ⟨hs, hp⟩
      simp only [] at hp ⊢
      subst hp
      obtain ⟨ha, hb⟩ := hrow r (by omega) (by omega)
      constructor
      · refine writesWithin_trans _ vdb s _ hs (memcpy_within _ s _ _ _ (fun k hk0 hk1 => ?_))
        have e1 : wrapSize (r * W + f.x0) = r * W + f.x0 := wrapSize_eq (by omega) (by omega)
        rw [e1, wrapSize_eq (by omega) (by omega)]
        constructor <;> omega
      · rw [wrapSize_eq (by omega) (by omega)]; ring)
  exact h2.1

/-- Function `g_draw_rect` with `G_FILLED`, when the clipping differences fit 16 bits: it
returns, and every store goes to a cell of the window buffer. -/
theorem g_draw_rect_filled_within (fuel : Nat) (vdb : g_vdb_t) (region : g_region_t)
    (color : g_color_t) (hw : vdb.region.wf)
    (hne : vdb.region.x0 ≤ vdb.region.x1 ∧ vdb.region.y0 ≤ vdb.region.y1)
    (hW : vdb.region.x1 - vdb.region.x0 + 1 ≤ 32767)
    (hH : vdb.region.y1 - vdb.region.y0 + 1 ≤ 32767)
    (hx0 : isI16 (region.x0 - vdb.region.x0)) (hy0 : isI16 (region.y0 - vdb.region.y0))
    (hx1 : isI16 (region.x1 - vdb.region.x0)) (hy1 : isI16 (region.y1 - vdb.region.y0))
    (hfuel : vdb.region.x1 - vdb.region.x0 + 1 < (fuel : Int) ∧
      vdb.region.y1 - vdb.region.y0 + 1 < (fuel : Int)) :
    ∃ v1, g_draw_rect fuel vdb region color G_FILLED = some (ESP_OK, v1) ∧
      WritesWithin ((vdb.region.x1 - vdb.region.x0 + 1)
        * (vdb.region.y1 - vdb.region.y0 + 1)) vdb v1 := by
  have hWe := g_region_width_eq vdb.region hw hne.1
  have hHe := g_region_height_eq vdb.region hw hne.2
  unfold isI16 at hx0 hy0 hx1 hy1
  have hclip : g_draw_rect_clip vdb region =
      { x0 := if region.x0 ≤ vdb.region.x0 then 0 else region.x0 - vdb.region.x0
        y0 := if region.y0 ≤ vdb.region.y0 then 0 else region.y0 - vdb.region.y0
        x1 := if region.x1 > vdb.region.x1 then vdb.region.x1 - vdb.region.x0
                else region.x1 - vdb.region.x0
        y1 := if region.y1 > vdb.region.y1 then vdb.region.y1 - vdb.region.y0
                else region.y1 - vdb.region.y0 } := by
    unfold g_draw_rect_clip
    rw [hWe, hHe, wrapI16_wrapSize, wrapI16_wrapSize,
      wrapI16_eq (by unfold isI16; split_ifs <;> omega),
      wrapI16_eq (by unfold isI16; split_ifs <;> omega),
      wrapI16_eq (by unfold isI16; split_ifs <;> omega),
      wrapI16_eq (by unfold isI16; split_ifs <;> omega)]
    congr 1
    · split_ifs <;> omega
    · split_ifs <;> omega
  obtain ⟨f, hf, e0, e1, e2, e3⟩ : ∃ f, g_draw_rect_clip vdb region = f ∧
      f.x0 = (if region.x0 ≤ vdb.region.x0 then 0 else region.x0 - vdb.region.x0) ∧
      f.y0 = (if region.y0 ≤ vdb.region.y0 then 0 else region.y0 - vdb.region.y0) ∧
      f.x1 = (if region.x1 > vdb.region.x1 then vdb.region.x1 - vdb.region.x0
                else region.x1 - vdb.region.x0) ∧
      f.y1 = (if region.y1 > vdb.region.y1 then vdb.region.y1 - vdb.region.y0
                else region.y1 - vdb.region.y0) := ⟨_, hclip, rfl, rfl, rfl, rfl⟩
  rw [g_draw_rect_filled_eq]
  unfold g_draw_rect_filled
  simp only [hf]
  by_cases hout : g_draw_rect_out f = true
  · rw [if_pos hout]
    exact ⟨vdb, rfl, writesWithin_refl _ vdb⟩
  · rw [if_neg hout]
    have hin : ¬ (f.x1 ≤ 0 ∨ f.y1 ≤ 0 ∨ f.y0 > f.y1 ∨ f.x0 > f.x1) := by
      intro h
      apply hout
      unfold g_draw_rect_out
      exact decide_eq_true h
    obtain ⟨v1, h1, h2⟩ := g_draw_rect_fill_within fuel vdb f color hw hne.1 hW hH
      ⟨by rw [e0]; split_ifs <;> omega, by omega, by rw [e2]; split_ifs <;> omega⟩
      ⟨by rw [e1]; split_ifs <;> omega, by omega, by rw [e3]; split_ifs <;> omega⟩
      hfuel
    rw [h1]
    exact ⟨v1, rfl, h2⟩

/-! ### Claims -/

/-- C1 (code defect): a filled rectangle that covers exactly the left column of the window
is discarded by the test `fill_region.x1 <= 0`: the call returns success with the buffer
untouched, so the window pixel `(0, 0)`, which lies in the rectangle, does not read the
colour. -/
theorem g_draw_rect_left_column_dropped (fuel : Nat) :
    (blank ⟨0, 0, 239, 159⟩).region.contains 0 0 ∧
    (⟨0, 0, 0, 159⟩ : g_region_t).contains 0 0 ∧
    g_draw_rect fuel (blank ⟨0, 0, 239, 159⟩) ⟨0, 0, 0, 159⟩ 65535 G_FILLED
      = some (ESP_OK, blank ⟨0, 0, 239, 159⟩) ∧
    (blank ⟨0, 0, 239, 159⟩).pixel 0 0 ≠ 65535 :=
  ⟨by decide, by decide, rfl, by decide⟩

/-- C2: `g_draw_pixel` always returns success; for a pixel inside the window the cell at index
`(y - y0) * width + (x - x0)` becomes the colour and every other cell is unchanged; for a pixel
outside the window the whole buffer is unchanged. -/
theorem g_draw_pixel_spec (vdb : g_vdb_t) (x y : Int) (color : g_color_t)
    (hw : vdb.region.wf) :
    (g_draw_pixel vdb x y color).1 = ESP_OK ∧
    (g_draw_pixel vdb x y color).2.region = vdb.region ∧
    (vdb.region.contains x y →
      ∀ i, (g_draw_pixel vdb x y color).2.buf i
        = if i = (y - vdb.region.y0) * (vdb.region.x1 - vdb.region.x0 + 1)
                  + (x - vdb.region.x0) then color else vdb.buf i) ∧
    (¬ vdb.region.contains x y → (g_draw_pixel vdb x y color).2.buf = vdb.buf) := by
  by_cases hin : vdb.region.contains x y
  · have hidx := pixel_index_eq vdb x y hw hin
    unfold g_vdb_t.index at hidx
    have hc : ¬ (x < vdb.region.x0 ∨ y < vdb.region.y0 ∨ x > vdb.region.x1
        ∨ y > vdb.region.y1) := by
      unfold g_region_t.contains at hin; omega
    have hval : g_draw_pixel vdb x y color = (ESP_OK, vdb.store
        ((y - vdb.region.y0) * (vdb.region.x1 - vdb.region.x0 + 1) + (x - vdb.region.x0))
        color) := by
      simp only [g_draw_pixel, if_neg hc, hidx]
    rw [hval]
    exact ⟨rfl, rfl, fun _ _ => rfl, fun h => absurd hin h⟩
  · have hc : (x < vdb.region.x0 ∨ y < vdb.region.y0 ∨ x > vdb.region.x1
        ∨ y > vdb.region.y1) := by
      unfold g_region_t.contains at hin; omega
    have hval : g_draw_pixel vdb x y color = (ESP_OK, vdb) := by
      simp only [g_draw_pixel, if_pos hc]
    rw [hval]
    exact ⟨rfl, rfl, fun h => absurd h hin, fun _ => rfl⟩

/-- C2 (witness): the pixel `(2, 1)` of a blank 4 x 4 window. -/
theorem g_draw_pixel_spec_witness :
    (blank ⟨0, 0, 3, 3⟩).region.wf ∧
    (g_draw_pixel (blank ⟨0, 0, 3, 3⟩) 2 1 7).1 = ESP_OK ∧
    (g_draw_pixel (blank ⟨0, 0, 3, 3⟩) 2 1 7).2.buf 6 = 7 :=
  ⟨by decide, (g_draw_pixel_spec (blank ⟨0, 0, 3, 3⟩) 2 1 7 (by decide)).1, by decide⟩

/-- C3 (code defect): for the two-row region `{0,0,239,1}` and capacity `240 * 160` the strip
height is 2, the whole height, yet the loop bound `y < y1 - 1` admits no strip at all: nothing
is painted or sent, so the strips do not cover the region.  Likewise with capacity 2 the
four-row region `{0,0,0,3}` gets the single strip `{0,0,0,1}`: rows 2 and 3 are never sent. -/
theorem g_refresh_region_two_rows_uncovered (fuel : Nat) (draw_cb : g_draw_t) :
    g_refresh_region_step 38400 ⟨0, 0, 239, 1⟩ = 2 ∧
    g_region_height ⟨0, 0, 239, 1⟩ = 2 ∧
    g_refresh_region (fuel + 1) (blankDisp 38400) ⟨0, 0, 239, 1⟩ draw_cb
      = some (ESP_OK, blankDisp 38400) ∧
    (blankDisp 38400).sent = [] ∧
    g_refresh_region_step 2 ⟨0, 0, 0, 3⟩ = 2 ∧
    (g_refresh_region 3 (blankDisp 2) ⟨0, 0, 0, 3⟩ noPaint).map
      (fun r => r.2.sent.map Prod.fst) = some [⟨0, 0, 0, 1⟩] :=
  ⟨by decide, by decide, rfl, rfl, by decide, by decide⟩

/-- C4 (code defect): for the one-pixel-wide region `{0,0,0,9}` and capacity `240 * 160` the
quotient 38400 does not fit `g_coord_t`: the step is -27136, the first strip is
`{0,0,0,-27137}`, the flush hands 4294940160 pixels to the transport, far more than the
capacity, and the loop never finishes. -/
theorem g_refresh_region_narrow_region_overflow :
    g_refresh_region_step 38400 ⟨0, 0, 0, 9⟩ = -27136 ∧
    (g_refresh_region_body ⟨0, 0, 0, 9⟩ noPaint (-27136) 0 (blankDisp 38400)).sent
      = [(⟨0, 0, 0, -27137⟩, 4294940160)] ∧
    (38400 : Int) < 4294940160 ∧
    ∀ fuel, g_refresh_region fuel (blankDisp 38400) ⟨0, 0, 0, 9⟩ noPaint = none := by
  refine ⟨by decide, by decide, by decide, fun fuel => ?_⟩
  have hstep : g_refresh_region_step (blankDisp 38400).vdb_size ⟨0, 0, 0, 9⟩ = -27136 := by
    decide
  simp only [g_refresh_region, hstep, Option.map_eq_none']
  apply forLoop_diverges _ _ _ (fun i => i ≤ 0)
  · intro i hi
    constructor
    · simp only [decide_eq_true_eq]; omega
    · show i + -27136 ≤ 0
      omega
  · intro i s; exact ⟨_, rfl⟩
  · exact le_refl 0

/-- C5 (counterexample): region `{0,0,0,6}` with capacity 4 is refreshed in two strips, and
the second one is `{0,4,0,7}`, not `{0,4,0,min(7,6)}`: it extends below `y1 = 6`. -/
theorem g_refresh_region_strip_overhang :
    (g_refresh_region 3 (blankDisp 4) ⟨0, 0, 0, 6⟩ noPaint).map
        (fun r => r.2.sent.map Prod.fst) = some [⟨0, 4, 0, 7⟩, ⟨0, 0, 0, 3⟩] ∧
    (⟨0, 4, 0, 7⟩ : g_region_t) ≠ ⟨0, 4, 0, min (4 + 4 - 1) 6⟩ :=
  ⟨by decide, by decide⟩

/-- C5 (amended): whenever the strip height `s` is at least 1, `g_refresh_region` finishes with
success, and every window it assigned and sent is `{R.x0, y, R.x1, y + s - 1}` (the last field
reduced to 16 bits, no clamp to `R.y1`) for a start row `y` with `R.y0 ≤ y < R.y1 - 1`. -/
theorem g_refresh_region_strips (fuel : Nat) (d : g_disp_t) (R : g_region_t)
    (draw_cb : g_draw_t) (hR : R.wf)
    (hcb : ∀ r v, (draw_cb r v).region = v.region)
    (hs : 1 ≤ g_refresh_region_step d.vdb_size R)
    (hfuel : (R.y1 - R.y0).toNat < fuel) :
    ∃ d1 new, g_refresh_region fuel d R draw_cb = some (ESP_OK, d1) ∧
      d1.sent = new ++ d.sent ∧
      ∀ e ∈ new, ∃ y, R.y0 ≤ y ∧ y < R.y1 - 1 ∧
        e.1 = ⟨R.x0, y, R.x1, wrapI16 (y + g_refresh_region_step d.vdb_size R - 1)⟩ := by
  obtain ⟨d1, new, h1, h2, h3⟩ :=
    g_refresh_region_loop_sent R draw_cb _ hcb hs fuel R.y0 d (by omega)
  refine ⟨d1, new, ?_, h2, ?_⟩
  · simp only [g_refresh_region, h1, Option.map_some']
  · intro e he
    obtain ⟨y, ha, hb, hc⟩ := h3 e he
    obtain ⟨_, ⟨hy0, _⟩, _, ⟨_, hy1⟩⟩ := hR
    have hy : isI16 y := ⟨by omega, by omega⟩
    exact ⟨y, ha, hb, by rw [hc, wrapI16_eq hy]⟩

/-- C5 (witness): region `{0,0,0,6}` with capacity 4. -/
theorem g_refresh_region_strips_witness :
    ∃ d1 new, g_refresh_region 7 (blankDisp 4) ⟨0, 0, 0, 6⟩ noPaint = some (ESP_OK, d1) ∧
      d1.sent = new ++ (blankDisp 4).sent ∧
      ∀ e ∈ new, ∃ y, (0 : Int) ≤ y ∧ y < 6 - 1 ∧
        e.1 = ⟨0, y, 0, wrapI16 (y + g_refresh_region_step 4 ⟨0, 0, 0, 6⟩ - 1)⟩ :=
  g_refresh_region_strips 7 (blankDisp 4) ⟨0, 0, 0, 6⟩ noPaint (by decide)
    (fun _ _ => rfl) (by decide) (by decide)

/-- C6 (counterexample): the region `{0,0,9,0}` is 10 pixels wide, the capacity is 4, and
`g_refresh_region` returns success. -/
theorem g_refresh_region_too_wide_ok :
    (4 : Int) / g_region_width ⟨0, 0, 9, 0⟩ < 1 ∧
    g_refresh_region 1 (blankDisp 4) ⟨0, 0, 9, 0⟩ noPaint = some (ESP_OK, blankDisp 4) ∧
    ESP_OK = 0 :=
  ⟨by decide, rfl, rfl⟩

/-- C6 (amended): `g_refresh_region` has no out-of-capacity error.  For every region `R`
wider than the capacity (`capacity < width(R)`, so that `capacity / width(R) < 1`): the strip
height the call computes is at most 0, and it is 0 when the height of `R` fits `g_coord_t`;
when `R` is at most 2 rows high (`R.y1 - 1 ≤ R.y0`) the call returns success at once with the
display state untouched (no paint, no flush); when `R` is more than 2 rows high and its height
fits `g_coord_t` the call never returns; and every result the call returns, for any fuel, is
success. -/
theorem g_refresh_region_no_capacity_error (d : g_disp_t) (R : g_region_t)
    (draw_cb : g_draw_t)
    (hC : 0 ≤ d.vdb_size ∧ d.vdb_size < 4294967296)
    (hwide : d.vdb_size < g_region_width R) :
    d.vdb_size / g_region_width R < 1 ∧
    g_refresh_region_step d.vdb_size R ≤ 0 ∧
    (0 ≤ R.y1 - R.y0 + 1 → R.y1 - R.y0 + 1 ≤ 32767 →
      g_refresh_region_step d.vdb_size R = 0) ∧
    (R.y1 - 1 ≤ R.y0 →
      ∀ fuel, g_refresh_region (fuel + 1) d R draw_cb = some (ESP_OK, d)) ∧
    (R.y0 < R.y1 - 1 → R.y1 - R.y0 + 1 ≤ 32767 →
      ∀ fuel, g_refresh_region fuel d R draw_cb = none) ∧
    ∀ n r, g_refresh_region n d R draw_cb = some r → r.1 = ESP_OK := by
  have hq0 : d.vdb_size / g_region_width R = 0 := Int.ediv_eq_zero_of_lt hC.1 hwide
  have hq : d.vdb_size / g_region_width R < 1 := by omega
  refine ⟨hq, ?_, fun h0 h1 => g_refresh_region_step_too_wide d.vdb_size R hC hwide h0 h1,
    fun hh fuel => ?_,
    fun h3 h1 => g_refresh_region_too_wide_diverges d R draw_cb hC hwide h3 h1, ?_⟩
  · have h00 : wrapI16 0 = 0 := by decide
    simp only [g_refresh_region_step, wrapSize_eq hC.1 hC.2, hq0, h00]
    split_ifs <;> omega
  · have hc : ¬ (R.y0 < R.y1 - 1) := by omega
    simp [g_refresh_region, forLoop_succ, hc]
  · intro n r hr
    simp only [g_refresh_region, Option.map_eq_some'] at hr
    obtain ⟨a, _, ha⟩ := hr
    rw [← ha]

/-- C6 (witness): with capacity 4, the region `{0,0,9,0}` (10 wide, 1 row) returns success at
once with step 0, and the region `{0,0,9,5}` (10 wide, 6 rows) never returns. -/
theorem g_refresh_region_no_capacity_error_witness :
    (g_refresh_region_step (blankDisp 4).vdb_size ⟨0, 0, 9, 0⟩ = 0 ∧
      ∀ fuel, g_refresh_region (fuel + 1) (blankDisp 4) ⟨0, 0, 9, 0⟩ noPaint
        = some (ESP_OK, blankDisp 4)) ∧
    (∀ fuel, g_refresh_region fuel (blankDisp 4) ⟨0, 0, 9, 5⟩ noPaint = none) ∧
    ∀ n r, g_refresh_region n (blankDisp 4) ⟨0, 0, 9, 5⟩ noPaint = some r → r.1 = ESP_OK :=
  ⟨⟨(g_refresh_region_no_capacity_error (blankDisp 4) ⟨0, 0, 9, 0⟩ noPaint (by decide)
        (by decide)).2.2.1 (by decide) (by decide),
      (g_refresh_region_no_capacity_error (blankDisp 4) ⟨0, 0, 9, 0⟩ noPaint (by decide)
        (by decide)).2.2.2.1 (by decide)⟩,
    (g_refresh_region_no_capacity_error (blankDisp 4) ⟨0, 0, 9, 5⟩ noPaint (by decide)
      (by decide)).2.2.2.2.1 (by decide) (by decide),
    (g_refresh_region_no_capacity_error (blankDisp 4) ⟨0, 0, 9, 5⟩ noPaint (by decide)
      (by decide)).2.2.2.2.2⟩

/-- C7 (counterexample): in the window `{0,0,32767,0}`, which is 32768 pixels wide, the
outlined circle of radius 0 at `(32767, 0)` stores to cell 32767, while the filled circle
stores to no cell at all: the right bound of its span wraps to -32768. -/
theorem g_draw_circle_wide_window :
    (g_draw_circle 2 (blank ⟨0, 0, 32767, 0⟩) 32767 0 0 7 1).map (fun r => r.2.written)
      = some [32767, 32767, 32767, 32767, 32767, 32767, 32767, 32767] ∧
    (g_draw_circle 2 (blank ⟨0, 0, 32767, 0⟩) 32767 0 0 7 G_FILLED).map
      (fun r => r.2.written) = some [] := by
  constructor <;> decide

/-- C7 (amended): when the window is at most 32767 pixels wide and `cx - r`, `cx + r` are
`g_coord_t` values, both circle draws return, and every buffer cell stored to by the outlined
draw (thickness 1) is also stored to by the filled draw of the same centre and radius. -/
theorem g_draw_circle_filled_covers_outline (fuel : Nat) (vdb : g_vdb_t) (cx cy r : Int)
    (color : g_color_t) (hw : vdb.region.wf)
    (hwidth : vdb.region.x1 - vdb.region.x0 + 1 ≤ 32767)
    (hr : 0 ≤ r) (hl : isI16 (cx - r)) (hh : isI16 (cx + r))
    (hfuel : (r + 1).toNat < fuel) :
    ∃ vo vf, g_draw_circle fuel vdb cx cy r color 1 = some (ESP_OK, vo) ∧
      g_draw_circle fuel vdb cx cy r color G_FILLED = some (ESP_OK, vf) ∧
      ∀ i ∈ vo.written, i ∈ vf.written := by
  obtain ⟨hl1, _⟩ := hl
  obtain ⟨_, hh2⟩ := hh
  have hr1 : wrapI16 r = r := by apply wrapI16_eq; unfold isI16; omega
  obtain ⟨vo, vf, h1, h2, h3⟩ := circle_loops_covered vdb.region cx cy r color hw hwidth hl1
    hh2 fuel r 0 (wrapI16 (3 - 2 * r)) vdb vdb ⟨rfl, rfl, fun i hi => hi⟩ (le_refl 0)
    (le_refl r) (by unfold wrapI16; omega) (by omega)
  refine ⟨vo, vf, ?_, ?_, h3.2.2⟩
  · have : ¬ ((1 : Int) = G_FILLED) := by decide
    simp only [g_draw_circle, if_neg this, hr1, h1, Option.map_some']
  · simp only [g_draw_circle, if_true, hr1, h2, Option.map_some']

/-- C7 (witness): the circle of radius 2 at `(3, 3)` in a 7 x 7 window. -/
theorem g_draw_circle_filled_covers_outline_witness :
    ∃ vo vf, g_draw_circle 4 (blank ⟨0, 0, 6, 6⟩) 3 3 2 7 1 = some (ESP_OK, vo) ∧
      g_draw_circle 4 (blank ⟨0, 0, 6, 6⟩) 3 3 2 7 G_FILLED = some (ESP_OK, vf) ∧
      ∀ i ∈ vo.written, i ∈ vf.written :=
  g_draw_circle_filled_covers_outline 4 (blank ⟨0, 0, 6, 6⟩) 3 3 2 7 (by decide) (by decide)
    (by decide) (by decide) (by decide) (by decide)

/-- C9 (counterexample): the 66-vertex zigzag crosses row 5 with all of its 66 segments; in a
window on row 5 that row is scanned, the segment loop stores intersections at `nodes[64]`
(and beyond), and every run that returns has done so: no capacity check rejects the call. -/
theorem draw_polygon_fill_nodes_overflow :
    polygon_limits 320 (blank ⟨0, 5, 70, 5⟩) zigzag 66 = (5, 5) ∧
    polygon_crossings zigzag 66 5 66 = 66 ∧
    64 ∈ (polygon_scan zigzag 66 5 ⟨fun _ => 0, []⟩).1.stored ∧
    ∀ fuel r, _draw_polygon_fill fuel 320 (fun _ => 0) (blank ⟨0, 5, 70, 5⟩) zigzag 66 7
      = some r → 64 ∈ r.2.stored := by
  have hlim := zigzag_limits
  have hcr : polygon_crossings zigzag 66 5 66 = 66 :=
    polygon_crossings_all zigzag 66 5 66 zigzag_crosses
  have hscan : ∀ ns, 64 ∈ (polygon_scan zigzag 66 5 ns).1.stored := by
    intro ns
    rw [(polygon_scan_eq zigzag 66 5 ns).2]
    have h66 : (66 : Int).toNat = 66 := rfl
    rw [h66, hcr]
    exact List.mem_append_left _ (by decide)
  refine ⟨hlim, hcr, hscan _, ?_⟩
  intro fuel r hr
  unfold _draw_polygon_fill at hr
  rw [hlim] at hr
  cases fuel with
  | zero => simp [forLoop] at hr
  | succ n =>
    rw [forLoop_succ] at hr
    simp only [le_refl, decide_True, if_true] at hr
    cases hrow : polygon_row (n + 1) zigzag 66 7 5
        (blank ⟨0, 5, 70, 5⟩, { nodes := fun _ => 0, stored := [] }) with
    | none => simp [hrow] at hr
    | some s1 =>
      rw [hrow] at hr
      have h1 : 64 ∈ s1.2.stored :=
        polygon_row_stored_mono _ _ _ _ _ _ s1 hrow 64 (hscan _)
      refine forLoop_invariant _ _ _ (fun s => 64 ∈ s.2.stored) ?_ n _ s1 r h1 hr
      intro i s s2 hP hb
      obtain ⟨new, h2, _⟩ := polygon_row_stored _ _ _ _ _ s s2 hb
      rw [h2, (polygon_scan_eq zigzag 66 i s.2).2]
      exact List.mem_append_right _ (List.mem_append_right _ hP)

/-- C9 (amended): when every scanline intersects at most 64 segments of the polygon, every
store into `nodes` made by the filled draw (segment loop and sorting loop alike) is at an
index in `[0, 64)`. -/
theorem draw_polygon_fill_nodes_bounded (fuel : Nat) (DISP_HEIGHT : Int)
    (nodes0 : Int → Int) (vdb : g_vdb_t) (points : Int → g_point_t) (len : Int)
    (color : g_color_t)
    (hcross : ∀ y, polygon_crossings points len y len.toNat ≤ 64)
    (r : g_vdb_t × polygon_nodes_t)
    (hr : _draw_polygon_fill fuel DISP_HEIGHT nodes0 vdb points len color = some r) :
    ∀ k ∈ r.2.stored, 0 ≤ k ∧ k < 64 := by
  unfold _draw_polygon_fill at hr
  refine forLoop_invariant _ _ _ (fun s => ∀ k ∈ s.2.stored, 0 ≤ k ∧ k < 64) ?_ fuel _ _ r
    (by simp) hr
  intro i s s1 hP hb
  obtain ⟨new, h1, h2⟩ := polygon_row_stored _ _ _ _ _ s s1 hb
  intro k hk
  rw [h1, (polygon_scan_eq points len i s.2).2, ← List.append_assoc] at hk
  rcases List.mem_append.1 hk with hk | hk
  · exact h2 (hcross i) k hk
  · exact hP k hk

unseal Rat.add Rat.mul Rat.inv Rat.sub in
/-- C9 (witness): the triangle `(1,0) (5,0) (3,4)`; the fill returns. -/
theorem draw_polygon_fill_nodes_bounded_witness :
    (∀ y, polygon_crossings triangle 3 y (3 : Int).toNat ≤ 64) ∧
    ∃ r, _draw_polygon_fill 50 320 (fun _ => 0) (blank ⟨0, 0, 6, 5⟩) triangle 3 7 = some r ∧
      ∀ k ∈ r.2.stored, 0 ≤ k ∧ k < 64 := by
  have hcross : ∀ y, polygon_crossings triangle 3 y (3 : Int).toNat ≤ 64 := fun y =>
    (polygon_crossings_le triangle 3 y _).trans (by decide)
  have hsome : (_draw_polygon_fill 50 320 (fun _ => 0) (blank ⟨0, 0, 6, 5⟩) triangle 3
      7).isSome = true := by decide
  obtain ⟨r, hr⟩ := Option.isSome_iff_exists.1 hsome
  exact ⟨hcross, r, hr, draw_polygon_fill_nodes_bounded 50 320 (fun _ => 0)
    (blank ⟨0, 0, 6, 5⟩) triangle 3 7 hcross r hr⟩

/-- C10 (counterexample): blitting a 2 x 1 bitmap whose second bit is set at `x = 32767`
plots the pixel `(-32768, 0)`: the column `x + 1` wraps around, and a window pixel outside the
bitmap cell (columns 32767 and 32768) changes. -/
theorem g_draw_bitmap_mono_wraps :
    (g_draw_bitmap_mono 3 (blank ⟨-32768, 0, -32768, 0⟩) 32767 0 (fun _ => 64) 2 1 7).map
      (fun r => r.2.pixel (-32768) 0) = some 7 ∧
    (blank ⟨-32768, 0, -32768, 0⟩).pixel (-32768) 0 = 0 ∧
    (blank ⟨-32768, 0, -32768, 0⟩).region.contains (-32768) 0 ∧
    ¬ ((32767 : Int) ≤ -32768 ∧ (-32768 : Int) < 32767 + 2) := by
  refine ⟨by decide, by decide, by decide, by decide⟩

/-- C10 (amended): when `width`, `height`, `x + width - 1` and `y + height - 1` fit
`g_coord_t` (no 16-bit overflow), the blit returns and, for `0 ≤ u < width`, `0 ≤ v < height`,
the window pixel `(x + u, y + v)` reads the colour if bit `7 - u mod 8` of byte
`bitmap[ceil(width/8) * v + u div 8]` is set and keeps its value if the bit is clear; window
pixels outside the `width x height` cell are unchanged. -/
theorem g_draw_bitmap_mono_spec (fuel : Nat) (vdb : g_vdb_t) (x y : Int)
    (bitmap : Int → Nat) (width height : Int) (color : g_color_t)
    (hw : vdb.region.wf) (hx : isI16 x) (hy : isI16 y)
    (hwd : 0 ≤ width ∧ width ≤ 32767) (hht : 0 ≤ height ∧ height ≤ 32767)
    (hxw : x + width - 1 ≤ 32767) (hyh : y + height - 1 ≤ 32767)
    (hfuel : width.toNat < fuel ∧ height.toNat < fuel) :
    ∃ v1, g_draw_bitmap_mono fuel vdb x y bitmap width height color = some (ESP_OK, v1) ∧
      v1.region = vdb.region ∧
      (∀ u v, 0 ≤ u → u < width → 0 ≤ v → v < height → vdb.region.contains (x + u) (y + v) →
        v1.pixel (x + u) (y + v)
          = if bitmap_bit bitmap width u v then color else vdb.pixel (x + u) (y + v)) ∧
      (∀ px py, vdb.region.contains px py →
        ¬ (x ≤ px ∧ px < x + width ∧ y ≤ py ∧ py < y + height) →
        v1.pixel px py = vdb.pixel px py) := by
  obtain ⟨v1, hrun, hreg, hP⟩ :=
    g_draw_bitmap_mono_paintsTo fuel vdb x y bitmap width height color hwd hht hfuel
  have hidx : ∀ a b, v1.index a b = vdb.index a b := by
    intro a b; unfold g_vdb_t.index; rw [hreg]
  have hwrapx : ∀ u, 0 ≤ u → u < width → wrapI16 (x + u) = x + u := by
    intro u h0 h1; apply wrapI16_eq; unfold isI16 at *; omega
  have hwrapy : ∀ v, 0 ≤ v → v < height → wrapI16 (y + v) = y + v := by
    intro v h0 h1; apply wrapI16_eq; unfold isI16 at *; omega
  -- a painted cell is the cell of a set bit inside the window
  have hS : ∀ px py, vdb.region.contains px py →
      (∃ v, 0 ≤ v ∧ v < height ∧ ∃ u, 0 ≤ u ∧ u < width ∧
        (bitmap_bit bitmap width u v = true ∧
          vdb.region.contains (wrapI16 (x + u)) (wrapI16 (y + v)) ∧
          vdb.index px py = wrapSize ((wrapI16 (y + v) - vdb.region.y0)
            * g_region_width vdb.region + wrapI16 (x + u) - vdb.region.x0))) →
      ∃ v, 0 ≤ v ∧ v < height ∧ ∃ u, 0 ≤ u ∧ u < width ∧
        bitmap_bit bitmap width u v = true ∧ px = x + u ∧ py = y + v := by
    rintro px py hin ⟨v, hv0, hv1, u, hu0, hu1, hbit, hc, hj⟩
    rw [hwrapx u hu0 hu1, hwrapy v hv0 hv1] at hc hj
    rw [pixel_index_eq vdb _ _ hw hc] at hj
    obtain ⟨e1, e2⟩ := index_inj vdb.region px py (x + u) (y + v) hin hc hj
    exact ⟨v, hv0, hv1, u, hu0, hu1, hbit, e1, e2⟩
  refine ⟨v1, hrun, hreg, ?_, ?_⟩
  · intro u v hu0 hu1 hv0 hv1 hin
    unfold g_vdb_t.pixel
    rw [hidx]
    by_cases hbit : bitmap_bit bitmap width u v = true
    · rw [if_pos hbit]
      refine (hP (vdb.index (x + u) (y + v))).1 ⟨v, hv0, hv1, u, hu0, hu1, hbit, ?_, ?_⟩
      · rw [hwrapx u hu0 hu1, hwrapy v hv0 hv1]; exact hin
      · rw [hwrapx u hu0 hu1, hwrapy v hv0 hv1, pixel_index_eq vdb _ _ hw hin]
    · rw [if_neg hbit]
      refine (hP (vdb.index (x + u) (y + v))).2 (fun h => ?_)
      obtain ⟨v2, _, _, u2, _, _, hbit2, e1, e2⟩ := hS _ _ hin h
      have hu : u2 = u := by omega
      have hv : v2 = v := by omega
      rw [hu, hv] at hbit2
      exact hbit hbit2
  · intro px py hin hout
    unfold g_vdb_t.pixel
    rw [hidx]
    refine (hP (vdb.index px py)).2 (fun h => ?_)
    obtain ⟨v2, _, _, u2, _, _, _, e1, e2⟩ := hS _ _ hin h
    exact hout (by omega)

/-- C10 (witness): a 3 x 2 bitmap with rows `101` and `010` blitted at `(1, 0)`. -/
theorem g_draw_bitmap_mono_spec_witness :
    ∃ v1, g_draw_bitmap_mono 4 (blank ⟨0, 0, 3, 1⟩) 1 0 (fun i => if i = 0 then 160 else 64)
        3 2 7 = some (ESP_OK, v1) ∧
      v1.region = (blank ⟨0, 0, 3, 1⟩).region ∧
      (∀ u v, 0 ≤ u → u < 3 → 0 ≤ v → v < 2 →
        (blank ⟨0, 0, 3, 1⟩).region.contains (1 + u) (0 + v) →
        v1.pixel (1 + u) (0 + v)
          = if bitmap_bit (fun i => if i = 0 then 160 else 64) 3 u v then 7
            else (blank ⟨0, 0, 3, 1⟩).pixel (1 + u) (0 + v)) ∧
      (∀ px py, (blank ⟨0, 0, 3, 1⟩).region.contains px py →
        ¬ (1 ≤ px ∧ px < 1 + 3 ∧ 0 ≤ py ∧ py < 0 + 2) →
        v1.pixel px py = (blank ⟨0, 0, 3, 1⟩).pixel px py) :=
  g_draw_bitmap_mono_spec 4 (blank ⟨0, 0, 3, 1⟩) 1 0 (fun i => if i = 0 then 160 else 64) 3 2 7
    (by decide) (by decide) (by decide) (by decide) (by decide) (by decide) (by decide)
    (by decide)

/-- C11 (counterexample): with the sample font (`wA = 6`, `wB = 2`),
`g_draw_string(32767, 0, "A\x1BB", 7)` draws `B` at column -32767, not at
`32767 + (6 - 2 + 1) / 2 = 32769`: the position handed to `g_draw_char` is a `g_coord_t`. -/
theorem g_draw_string_combining_wraps :
    (g_draw_string 300 sampleFont (blank ⟨0, 0, 19, 1⟩) 32767 0 (some (cstr [65, 27, 66]))
        7).map (fun r => r.2.drawn) = some [(-32767, 0, 66), (32767, 0, 65)] ∧
    _glyph_width sampleFont 65 = 6 ∧ _glyph_width sampleFont 66 = 2 ∧
    32767 + Int.tdiv (6 - 2 + 1) 2 = 32769 := by
  refine ⟨by decide, by decide, by decide, by decide⟩

/-- C11 (amended): with a proportional font and drawable characters `A`, `B` of ink widths
`wA, wB > 0`, `g_draw_string(x, y, "A\x1BB", c)` returns `ESP_OK` after exactly two calls of
`g_draw_char`: `A` at `(x, y)`, then `B` at the `g_coord_t` value of `x + (wA - wB + 1) / 2`
(truncating division), which is that number whenever it fits 16 bits; the pen offset `cx` at
the end is `wA + 1`, as it is after `g_draw_string(x, y, "A", c)`. -/
theorem g_draw_string_combining (fuel : Nat) (font : g_font_t) (vdb : g_vdb_t)
    (x y A B : Int) (color : g_color_t) (hf : font.wf) (hprop : font.monospace = false)
    (hx : isI16 x) (hy : isI16 y) (hA : font.drawable A) (hB : font.drawable B)
    (hwA : 0 < _glyph_width font A) (hwB : 0 < _glyph_width font B) (hfuel : 255 < fuel) :
    ∃ s s1 : g_draw_string_t,
      g_draw_string fuel font vdb x y (some (cstr [A, 27, B])) color = some (ESP_OK, s) ∧
      s.drawn = [(wrapI16 (x + Int.tdiv (_glyph_width font A - _glyph_width font B + 1) 2),
                    y, B), (x, y, A)] ∧
      (isI16 (x + Int.tdiv (_glyph_width font A - _glyph_width font B + 1) 2) →
        wrapI16 (x + Int.tdiv (_glyph_width font A - _glyph_width font B + 1) 2)
          = x + Int.tdiv (_glyph_width font A - _glyph_width font B + 1) 2) ∧
      s.cx = _glyph_width font A + 1 ∧
      g_draw_string fuel font vdb x y (some (cstr [A])) color = some (ESP_OK, s1) ∧
      s1.drawn = [(x, y, A)] ∧ s1.cx = _glyph_width font A + 1 := by
  obtain ⟨_, hA0, hA27, hA10, hA32, hAoff⟩ := hA
  obtain ⟨_, hB0, hB27, hB10, hB32, hBoff⟩ := hB
  obtain ⟨hA1, hA2⟩ := glyph_width_range font A
  obtain ⟨hB1, hB2⟩ := glyph_width_range font B
  generalize hwa : _glyph_width font A = wA at *
  generalize hwb : _glyph_width font B = wB at *
  have hdiv : -128 ≤ Int.tdiv (wA - wB + 1) 2 ∧ Int.tdiv (wA - wB + 1) 2 ≤ 128 := by
    rw [tdiv_two]; split_ifs <;> omega
  generalize hoff : Int.tdiv (wA - wB + 1) 2 = off at *
  obtain ⟨n, rfl⟩ : ∃ n, fuel = n + 4 := ⟨fuel - 4, by omega⟩
  -- the first character
  obtain ⟨v1, h1⟩ := g_draw_string_char_glyph (n + 4) font x y color A
    { vdb := vdb, cx := 0, cy := 0, last_char_width := 0, combining_mode := false, drawn := [] }
    hf hfuel hA27 hA10 hA32 hAoff wA 1 false (by rw [hprop]; simpa using hwa)
    (by rw [hprop]; rfl) rfl
  have ex : wrapI16 (x + 0) = x := by rw [add_zero]; exact wrapI16_eq hx
  have ey : wrapI16 (y + 0) = y := by rw [add_zero]; exact wrapI16_eq hy
  have ecx : wrapI16 (0 + (wA + 1)) = wA + 1 := by unfold wrapI16; omega
  have ewA0 : ¬ wA = 0 := by omega
  simp only [Bool.false_eq_true, if_false, if_neg ewA0, if_pos hwA, ex, ey, ecx] at h1
  -- the escape
  have h2 := g_draw_string_char_escape (n + 4) font x y color
    { vdb := v1, cx := wA + 1, cy := 0, last_char_width := wA, combining_mode := false,
      drawn := [(x, y, A)] }
  have ecx2 : wrapI16 (wA + 1 - (wA + 1)) = 0 := by rw [sub_self]; rfl
  simp only [hprop, Bool.false_eq_true, if_false, ecx2] at h2
  -- the second character
  obtain ⟨v3, h3⟩ := g_draw_string_char_glyph (n + 4) font x y color B
    { vdb := v1, cx := 0, cy := 0, last_char_width := wA, combining_mode := true,
      drawn := [(x, y, A)] }
    hf hfuel hB27 hB10 hB32 hBoff wB 1 true (by rw [hprop]; simpa using hwb)
    (by rw [hprop]; rfl) (by rw [hprop]; rfl)
  have eoff : wrapI16 (0 + off) = off := by unfold wrapI16; omega
  simp only [if_true, if_pos hwB, hoff, ey, ecx, eoff] at h3
  refine ⟨⟨v3, wA + 1, 0, wA, false, [(wrapI16 (x + off), y, B), (x, y, A)]⟩,
    ⟨v1, wA + 1, 0, wA, false, [(x, y, A)]⟩, ?_, ?_, ?_, ?_, ?_, ?_, ?_⟩
  · unfold g_draw_string
    simp only []
    rw [g_draw_string_loop_step (n + 4) font x y color _ (n + 3) 0 1 A _ _ rfl hA0 rfl h1,
      g_draw_string_loop_step (n + 4) font x y color _ (n + 2) 1 2 27 _ _ rfl (by decide) rfl h2,
      g_draw_string_loop_step (n + 4) font x y color _ (n + 1) 2 3 B _ _ rfl hB0 rfl h3,
      g_draw_string_loop_stop (n + 4) font x y color _ n 3 _ rfl]
    rfl
  · rfl
  · intro h; exact wrapI16_eq h
  · rfl
  · unfold g_draw_string
    simp only []
    rw [g_draw_string_loop_step (n + 4) font x y color _ (n + 3) 0 1 A _ _ rfl hA0 rfl h1,
      g_draw_string_loop_stop (n + 4) font x y color _ (n + 2) 1 _ rfl]
    rfl
  · rfl
  · rfl

/-- C11 (witness): the sample font, `"A\x1BB"` at `(1, 1)`. -/
theorem g_draw_string_combining_witness :
    ∃ s s1 : g_draw_string_t,
      g_draw_string 256 sampleFont (blank ⟨0, 0, 9, 9⟩) 1 1 (some (cstr [65, 27, 66])) 7
        = some (ESP_OK, s) ∧
      s.drawn = [(wrapI16 (1 + Int.tdiv (_glyph_width sampleFont 65
                    - _glyph_width sampleFont 66 + 1) 2), 1, 66), (1, 1, 65)] ∧
      (isI16 (1 + Int.tdiv (_glyph_width sampleFont 65 - _glyph_width sampleFont 66 + 1) 2) →
        wrapI16 (1 + Int.tdiv (_glyph_width sampleFont 65 - _glyph_width sampleFont 66 + 1) 2)
          = 1 + Int.tdiv (_glyph_width sampleFont 65 - _glyph_width sampleFont 66 + 1) 2) ∧
      s.cx = _glyph_width sampleFont 65 + 1 ∧
      g_draw_string 256 sampleFont (blank ⟨0, 0, 9, 9⟩) 1 1 (some (cstr [65])) 7
        = some (ESP_OK, s1) ∧
      s1.drawn = [(1, 1, 65)] ∧ s1.cx = _glyph_width sampleFont 65 + 1 :=
  g_draw_string_combining 256 sampleFont (blank ⟨0, 0, 9, 9⟩) 1 1 65 66 7 sampleFont_wf rfl
    (by decide) (by decide) (by decide) (by decide) (by decide) (by decide) (by decide)

/-- C12 (counterexample): with the sample font (`wA = 6`, `wB = 2`), `g_draw_string(10, 0,
"A", 7)` followed by `g_draw_string(10, 0, "\x1BB", 7)` draws `B` at column 9, not at
`10 + (6 - 2 + 1) / 2 = 12`. -/
theorem g_draw_string_escape_second_call :
    ((g_draw_string 300 sampleFont (blank ⟨0, 0, 19, 1⟩) 10 0 (some (cstr [65])) 7).bind
        fun r => g_draw_string 300 sampleFont r.2.vdb 10 0 (some (cstr [27, 66])) 7).map
      (fun r => r.2.drawn) = some [(9, 0, 66)] ∧
    _glyph_width sampleFont 65 = 6 ∧ _glyph_width sampleFont 66 = 2 ∧
    10 + Int.tdiv (6 - 2 + 1) 2 = 12 := by
  refine ⟨by decide, by decide, by decide, by decide⟩

/-- C12 (amended): with a proportional font and drawable characters `A`, `B` of ink widths
`wA, wB > 0`, `g_draw_string(x, y, "A", c)` draws `A` at `(x, y)`, and a following
`g_draw_string(x, y, "\x1BB", c)` starts again from `last_char_width = 0`: it draws `B` at
the `g_coord_t` value of `x - 1 + (1 - wB) / 2` (truncating division), that is
`x - 1 - (wB - 1) div 2`, whatever `A` is, and ends with pen offset 0. -/
theorem g_draw_string_escape_first (fuel : Nat) (font : g_font_t) (vdb : g_vdb_t)
    (x y A B : Int) (color : g_color_t) (hf : font.wf) (hprop : font.monospace = false)
    (hx : isI16 x) (hy : isI16 y) (hA : font.drawable A) (hB : font.drawable B)
    (hwA : 0 < _glyph_width font A) (hwB : 0 < _glyph_width font B) (hfuel : 255 < fuel) :
    ∃ s1 s2 : g_draw_string_t,
      g_draw_string fuel font vdb x y (some (cstr [A])) color = some (ESP_OK, s1) ∧
      s1.drawn = [(x, y, A)] ∧
      g_draw_string fuel font s1.vdb x y (some (cstr [27, B])) color = some (ESP_OK, s2) ∧
      s2.drawn = [(wrapI16 (x + (-1 + Int.tdiv (1 - _glyph_width font B) 2)), y, B)] ∧
      Int.tdiv (1 - _glyph_width font B) 2 = -((_glyph_width font B - 1) / 2) ∧
      s2.cx = 0 := by
  obtain ⟨_, hA0, hA27, hA10, hA32, hAoff⟩ := hA
  obtain ⟨_, hB0, hB27, hB10, hB32, hBoff⟩ := hB
  obtain ⟨hA1, hA2⟩ := glyph_width_range font A
  obtain ⟨hB1, hB2⟩ := glyph_width_range font B
  generalize hwa : _glyph_width font A = wA at *
  generalize hwb : _glyph_width font B = wB at *
  have hdiv : Int.tdiv (1 - wB) 2 = -((wB - 1) / 2) := by
    rw [tdiv_two]
    split_ifs with h
    · have : wB = 1 := by omega
      subst this; rfl
    · congr 2; ring
  obtain ⟨n, rfl⟩ : ∃ n, fuel = n + 4 := ⟨fuel - 4, by omega⟩
  -- the first call
  obtain ⟨v1, h1⟩ := g_draw_string_char_glyph (n + 4) font x y color A
    { vdb := vdb, cx := 0, cy := 0, last_char_width := 0, combining_mode := false, drawn := [] }
    hf hfuel hA27 hA10 hA32 hAoff wA 1 false (by rw [hprop]; simpa using hwa)
    (by rw [hprop]; rfl) rfl
  have ex : wrapI16 (x + 0) = x := by rw [add_zero]; exact wrapI16_eq hx
  have ey : wrapI16 (y + 0) = y := by rw [add_zero]; exact wrapI16_eq hy
  have ecx : wrapI16 (0 + (wA + 1)) = wA + 1 := by unfold wrapI16; omega
  have ewA0 : ¬ wA = 0 := by omega
  simp only [Bool.false_eq_true, if_false, if_neg ewA0, if_pos hwA, ex, ey, ecx] at h1
  -- the second call: escape, then the character
  have h2 := g_draw_string_char_escape (n + 4) font x y color
    { vdb := v1, cx := 0, cy := 0, last_char_width := 0, combining_mode := false, drawn := [] }
  have ecx2 : wrapI16 (0 - (0 + 1)) = -1 := by decide
  simp only [hprop, Bool.false_eq_true, if_false, ecx2] at h2
  obtain ⟨v3, h3⟩ := g_draw_string_char_glyph (n + 4) font x y color B
    { vdb := v1, cx := -1, cy := 0, last_char_width := 0, combining_mode := true, drawn := [] }
    hf hfuel hB27 hB10 hB32 hBoff wB 1 true (by rw [hprop]; simpa using hwb)
    (by rw [hprop]; rfl) (by rw [hprop]; rfl)
  have e1 : (0 : Int) - wB + 1 = 1 - wB := by ring
  have eoff : wrapI16 (-1 + Int.tdiv (1 - wB) 2) = -1 + Int.tdiv (1 - wB) 2 := by
    rw [hdiv]; unfold wrapI16; omega
  have ecx3 : wrapI16 (-1 + (0 + 1)) = 0 := by decide
  simp only [if_true, if_pos hwB, e1, ey, eoff, ecx3] at h3
  refine ⟨⟨v1, wA + 1, 0, wA, false, [(x, y, A)]⟩,
    ⟨v3, 0, 0, 0, false, [(wrapI16 (x + (-1 + Int.tdiv (1 - wB) 2)), y, B)]⟩,
    ?_, rfl, ?_, rfl, hdiv, rfl⟩
  · unfold g_draw_string
    simp only []
    rw [g_draw_string_loop_step (n + 4) font x y color _ (n + 3) 0 1 A _ _ rfl hA0 rfl h1,
      g_draw_string_loop_stop (n + 4) font x y color _ (n + 2) 1 _ rfl]
    rfl
  · unfold g_draw_string
    simp only []
    rw [g_draw_string_loop_step (n + 4) font x y color _ (n + 3) 0 1 27 _ _ rfl (by decide) rfl
        h2,
      g_draw_string_loop_step (n + 4) font x y color _ (n + 2) 1 2 B _ _ rfl hB0 rfl h3,
      g_draw_string_loop_stop (n + 4) font x y color _ (n + 1) 2 _ rfl]
    rfl

/-- C12 (witness): the sample font, `"A"` then `"\x1BB"` at `(10, 0)`. -/
theorem g_draw_string_escape_first_witness :
    ∃ s1 s2 : g_draw_string_t,
      g_draw_string 256 sampleFont (blank ⟨0, 0, 19, 1⟩) 10 0 (some (cstr [65])) 7
        = some (ESP_OK, s1) ∧
      s1.drawn = [(10, 0, 65)] ∧
      g_draw_string 256 sampleFont s1.vdb 10 0 (some (cstr [27, 66])) 7 = some (ESP_OK, s2) ∧
      s2.drawn = [(wrapI16 (10 + (-1 + Int.tdiv (1 - _glyph_width sampleFont 66) 2)), 0, 66)] ∧
      Int.tdiv (1 - _glyph_width sampleFont 66) 2 = -((_glyph_width sampleFont 66 - 1) / 2) ∧
      s2.cx = 0 :=
  g_draw_string_escape_first 256 sampleFont (blank ⟨0, 0, 19, 1⟩) 10 0 65 66 7 sampleFont_wf rfl
    (by decide) (by decide) (by decide) (by decide) (by decide) (by decide) (by decide)

/-- C13: with a monospace font and drawable characters `A`, `B`, `g_draw_string(x, y,
"A\x1BB", c)` returns `ESP_OK`, calls `g_draw_char` for `A` at `(x, y)` and then for `B` at
the same position `(x, y)` (a font of cell width 0 draws no glyph at all), and ends with pen
offset `cx` equal to the cell width, as `g_draw_string(x, y, "A", c)` does, whatever the
glyph of `B` is. -/
theorem g_draw_string_monospace_escape (fuel : Nat) (font : g_font_t) (vdb : g_vdb_t)
    (x y A B : Int) (color : g_color_t) (hf : font.wf) (hmono : font.monospace = true)
    (hx : isI16 x) (hy : isI16 y) (hA : font.drawable A) (hB : font.drawable B)
    (hfuel : 255 < fuel) :
    ∃ s s1 : g_draw_string_t,
      g_draw_string fuel font vdb x y (some (cstr [A, 27, B])) color = some (ESP_OK, s) ∧
      s.drawn = (if 0 < font.width then [(x, y, B), (x, y, A)] else []) ∧
      s.cx = font.width ∧
      g_draw_string fuel font vdb x y (some (cstr [A])) color = some (ESP_OK, s1) ∧
      s1.drawn = (if 0 < font.width then [(x, y, A)] else []) ∧
      s1.cx = font.width := by
  obtain ⟨_, hA0, hA27, hA10, hA32, hAoff⟩ := hA
  obtain ⟨_, hB0, hB27, hB10, hB32, hBoff⟩ := hB
  obtain ⟨hw0, hw1⟩ := hf.1
  generalize hwd : font.width = w at *
  have hlast : (if w = 0 then wrapU8 (w / 4) else w) = w := by
    split_ifs with h
    · subst h; rfl
    · rfl
  obtain ⟨n, rfl⟩ : ∃ n, fuel = n + 4 := ⟨fuel - 4, by omega⟩
  have ex : wrapI16 (x + 0) = x := by rw [add_zero]; exact wrapI16_eq hx
  have ey : wrapI16 (y + 0) = y := by rw [add_zero]; exact wrapI16_eq hy
  have ecx : wrapI16 (0 + (w + 0)) = w := by unfold wrapI16; omega
  have ecx2 : wrapI16 (w - (w + 0)) = 0 := by rw [add_zero, sub_self]; rfl
  -- the first character
  obtain ⟨v1, h1⟩ := g_draw_string_char_glyph (n + 4) font x y color A
    { vdb := vdb, cx := 0, cy := 0, last_char_width := 0, combining_mode := false, drawn := [] }
    hf hfuel hA27 hA10 hA32 hAoff w 0 false (by rw [hmono]; simpa using hwd)
    (by rw [hmono]; rfl) rfl
  simp only [Bool.false_eq_true, if_false, hlast, hwd, ex, ey, ecx] at h1
  -- the escape
  have h2 := g_draw_string_char_escape (n + 4) font x y color
    { vdb := v1, cx := w, cy := 0, last_char_width := w, combining_mode := false,
      drawn := if w > 0 then [(x, y, A)] else [] }
  simp only [hmono, if_true, ecx2] at h2
  -- the second character
  obtain ⟨v3, h3⟩ := g_draw_string_char_glyph (n + 4) font x y color B
    { vdb := v1, cx := 0, cy := 0, last_char_width := w, combining_mode := true,
      drawn := if w > 0 then [(x, y, A)] else [] }
    hf hfuel hB27 hB10 hB32 hBoff w 0 false (by rw [hmono]; simpa using hwd)
    (by rw [hmono]; rfl) (by rw [hmono]; rfl)
  simp only [Bool.false_eq_true, if_false, hlast, hwd, ex, ey, ecx] at h3
  refine ⟨⟨v3, w, 0, w, false,
      if w > 0 then (x, y, B) :: (if w > 0 then [(x, y, A)] else []) else
        if w > 0 then [(x, y, A)] else []⟩,
    ⟨v1, w, 0, w, false, if w > 0 then [(x, y, A)] else []⟩, ?_, ?_, rfl, ?_, rfl, rfl⟩
  · unfold g_draw_string
    simp only []
    rw [g_draw_string_loop_step (n + 4) font x y color _ (n + 3) 0 1 A _ _ rfl hA0 rfl h1,
      g_draw_string_loop_step (n + 4) font x y color _ (n + 2) 1 2 27 _ _ rfl (by decide) rfl h2,
      g_draw_string_loop_step (n + 4) font x y color _ (n + 1) 2 3 B _ _ rfl hB0 rfl h3,
      g_draw_string_loop_stop (n + 4) font x y color _ n 3 _ rfl]
    rfl
  · show (if w > 0 then (x, y, B) :: (if w > 0 then [(x, y, A)] else []) else
        if w > 0 then [(x, y, A)] else []) = _
    by_cases h : 0 < w
    · simp only [gt_iff_lt, if_pos h]
    · simp only [gt_iff_lt, if_neg h]
  · unfold g_draw_string
    simp only []
    rw [g_draw_string_loop_step (n + 4) font x y color _ (n + 3) 0 1 A _ _ rfl hA0 rfl h1,
      g_draw_string_loop_stop (n + 4) font x y color _ (n + 2) 1 _ rfl]
    rfl

/-- C13 (witness): the monospace sample font, `"A\x1BB"` at `(1, 1)`. -/
theorem g_draw_string_monospace_escape_witness :
    ∃ s s1 : g_draw_string_t,
      g_draw_string 256 sampleMono (blank ⟨0, 0, 9, 9⟩) 1 1 (some (cstr [65, 27, 66])) 7
        = some (ESP_OK, s) ∧
      s.drawn = (if 0 < sampleMono.width then [(1, 1, 66), (1, 1, 65)] else []) ∧
      s.cx = sampleMono.width ∧
      g_draw_string 256 sampleMono (blank ⟨0, 0, 9, 9⟩) 1 1 (some (cstr [65])) 7
        = some (ESP_OK, s1) ∧
      s1.drawn = (if 0 < sampleMono.width then [(1, 1, 65)] else []) ∧
      s1.cx = sampleMono.width :=
  g_draw_string_monospace_escape 256 sampleMono (blank ⟨0, 0, 9, 9⟩) 1 1 65 66 7 sampleMono_wf
    rfl (by decide) (by decide) (by decide) (by decide) (by decide)

/-- C14 (counterexample): in a font of cell width 255 (32 bytes per row) a glyph whose only
set bit is the last bit of the row (column 255) has ink width 256; `_glyph_width` returns a
`uint8_t`, and the value it returns is 0. -/
theorem glyph_width_wraps :
    wideFont.wf ∧ _glyph_width wideFont 0 = 0 ∧
    bitmap_bit (g_font_glyph wideFont 0) wideFont.width 255 0 = true :=
  ⟨wideFont_wf, by decide, by decide⟩

/-- C14 (amended): for every font of cell width at least 1 and every glyph, let `w` be the ink
width: no row has a set bit at a column `≥ w` (columns counted over the `ceil(width/8)` bytes
of a row, column 0 the most significant bit of the first byte), and some row has a set bit at
column `w - 1` unless `w = 0`.  Then `_glyph_width` returns the 8-bit value of `w`: `w`
itself unless `w = 256`, in particular `w` itself for every font of cell width up to 248. -/
theorem glyph_width_spec (font : g_font_t) (character : Int) (hf : font.wf)
    (hw : 1 ≤ font.width) :
    ∃ w : Int, 0 ≤ w ∧ w ≤ 8 * ((font.width + 7) / 8) ∧
      (∀ r c, 0 ≤ r → r < font.height → w ≤ c → c < 8 * ((font.width + 7) / 8) →
        bitmap_bit (g_font_glyph font character) font.width c r = false) ∧
      (0 < w → ∃ r, 0 ≤ r ∧ r < font.height ∧
        bitmap_bit (g_font_glyph font character) font.width (w - 1) r = true) ∧
      _glyph_width font character = wrapU8 w ∧
      (w ≠ 256 → _glyph_width font character = w) ∧
      (font.width ≤ 248 → _glyph_width font character = w) := by
  obtain ⟨w, h1, h2, h3, h4, h5⟩ := glyph_width_ink font character hf hw
  have hw1 := hf.1.2
  refine ⟨w, h2, h3, h4, h5, h1, fun hne => ?_, fun h248 => ?_⟩
  · rw [h1]; unfold wrapU8; omega
  · rw [h1]; unfold wrapU8; omega

/-- C14 (witness): glyph `'A'` of the sample font. -/
theorem glyph_width_spec_witness :
    ∃ w : Int, 0 ≤ w ∧ w ≤ 8 * ((sampleFont.width + 7) / 8) ∧
      (∀ r c, 0 ≤ r → r < sampleFont.height → w ≤ c → c < 8 * ((sampleFont.width + 7) / 8) →
        bitmap_bit (g_font_glyph sampleFont 65) sampleFont.width c r = false) ∧
      (0 < w → ∃ r, 0 ≤ r ∧ r < sampleFont.height ∧
        bitmap_bit (g_font_glyph sampleFont 65) sampleFont.width (w - 1) r = true) ∧
      _glyph_width sampleFont 65 = wrapU8 w ∧
      (w ≠ 256 → _glyph_width sampleFont 65 = w) ∧
      (sampleFont.width ≤ 248 → _glyph_width sampleFont 65 = w) :=
  glyph_width_spec sampleFont 65 sampleFont_wf (by decide)

/-- C15 (counterexample): an empty stream, and the two-byte stream `"EB"`, read into a local
`signature` that still holds `'E','B','G',0x01`: `read` delivers fewer than four bytes, the
comparison passes on the stale bytes, and `g_img_open` returns an image with the bitmap block
allocated and the descriptor open. -/
theorem g_img_open_short_stream :
    (g_img_open staleEnv []).1.isSome = true ∧
    img_block_t.bitmap ∈ (g_img_open staleEnv []).2.live ∧
    (g_img_open staleEnv []).2.fd_open = true ∧
    (g_img_open staleEnv [69, 66]).1.isSome = true ∧
    img_block_t.bitmap ∈ (g_img_open staleEnv [69, 66]).2.live := by
  refine ⟨by decide, by decide, by decide, by decide, by decide⟩

/-- C15 (amended): for every stream of at least four bytes whose first four bytes are not
`'E','B','G',0x01`, whatever the surroundings (outcome of `open` and of the allocations, stale
memory), `g_img_open` returns `NULL`, no heap block stays allocated and the descriptor is not
left open. -/
theorem g_img_open_bad_signature (env : img_env_t) (file : List Nat) (henv : -1 ≤ env.fd)
    (hlen : 4 ≤ file.length) (hsig : file.take 4 ≠ ebg_signature) :
    (g_img_open env file).1 = none ∧ (g_img_open env file).2.live = [] ∧
    (g_img_open env file).2.fd_open = false := by
  obtain ⟨a0, t0, rfl, h0⟩ := list_cons_of_length file 3 hlen
  obtain ⟨a1, t1, rfl, h1⟩ := list_cons_of_length t0 2 h0
  obtain ⟨a2, t2, rfl, h2⟩ := list_cons_of_length t1 1 h1
  obtain ⟨a3, t3, rfl, _⟩ := list_cons_of_length t2 0 h2
  have hne : ¬ (a0 = 69 ∧ a1 = 66 ∧ a2 = 71 ∧ a3 = 1) := by
    rintro ⟨rfl, rfl, rfl, rfl⟩
    exact hsig rfl
  have key : ∃ sys, g_img_open env (a0 :: a1 :: a2 :: a3 :: t3) = (none, sys) ∧ sys.live = [] ∧
      sys.fd_open = false := by
    unfold g_img_open
    simp only []
    by_cases hm : env.malloc_img = false
    · rw [if_pos hm]
      exact ⟨_, rfl, rfl, rfl⟩
    · rw [if_neg hm]
      by_cases hfd : env.fd = -1
      · rw [if_pos hfd]
        exact ⟨_, rfl, by simp [vfs_free], rfl⟩
      · have hfd0 : ¬ env.fd < 0 := by omega
        have hread : vfs_read
            { file := a0 :: a1 :: a2 :: a3 :: t3, pos := 0, fd_open := true,
              live := [img_block_t.img] } env.fd (some env.signature0) SIGNATURE_SIZE
            = { read_bytes := 4, buf := some (store_bytes env.signature0 [a0, a1, a2, a3]),
                sys := { file := a0 :: a1 :: a2 :: a3 :: t3, pos := 0 + 4, fd_open := true,
                         live := [img_block_t.img] } } :=
          vfs_read_full _ env.fd env.signature0 4 (by omega) rfl (le_refl _) (by omega)
            (by simp; omega)
        have hcond : ¬ (store_bytes env.signature0 [a0, a1, a2, a3] 0 = 69 ∧
              store_bytes env.signature0 [a0, a1, a2, a3] 1 = 66 ∧
              store_bytes env.signature0 [a0, a1, a2, a3] 2 = 71) ∨
            store_bytes env.signature0 [a0, a1, a2, a3] 3 ≠ 1 := by
          by_contra hc
          push_neg at hc
          exact hne ⟨hc.1.1, hc.1.2.1, hc.1.2.2, hc.2⟩
        rw [if_neg hfd, hread]
        simp only [Option.getD_some]
        rw [if_pos hcond]
        exact ⟨_, rfl, by simp [vfs_free, vfs_close, hfd0], by simp [vfs_free, vfs_close, hfd0]⟩
  obtain ⟨sys, h, hl, ho⟩ := key
  rw [h]
  exact ⟨rfl, hl, ho⟩

/-- C15 (witness): the stream `"XYZ\x01"`. -/
theorem g_img_open_bad_signature_witness :
    (g_img_open okEnv [88, 89, 90, 1]).1 = none ∧ (g_img_open okEnv [88, 89, 90, 1]).2.live = [] ∧
    (g_img_open okEnv [88, 89, 90, 1]).2.fd_open = false :=
  g_img_open_bad_signature okEnv [88, 89, 90, 1] (by decide) (by decide) (by decide)

/-- C16 (counterexample): a stream that ends right after the signature, and a stream whose
header announces one 2 x 2 frame but that carries a single bitmap byte: `g_img_open` returns
an image in both cases. -/
theorem g_img_open_truncated :
    (g_img_open okEnv [69, 66, 71, 1]).1.isSome = true ∧
    (g_img_open okEnv [69, 66, 71, 1, 2, 0, 2, 0, 0, 0, 0, 1, 5]).1.isSome = true ∧
    ((g_img_open okEnv [69, 66, 71, 1, 2, 0, 2, 0, 0, 0, 0, 1, 5]).1.map
      fun img => (img.header.width, img.header.height, img.header.frame_count))
      = some (2, 2, 1) := by
  refine ⟨by decide, by decide, by decide⟩

/-- C16 (amended): `g_img_open` checks no read for a shortfall.  For every stream that starts
with the signature `"EBG\x01"`, complete or cut short anywhere after it, it returns an image
with `current_frame = 1` and the header as read whenever the file opens and the allocations
of the image, of the bitmap and, if the indexed flag of the header read is set, of the palette
succeed. -/
theorem g_img_open_no_length_check (env : img_env_t) (file : List Nat) (henv : 0 ≤ env.fd)
    (himg : env.malloc_img = true) (hbitmap : env.malloc_bitmap = true)
    (hpal : (ebg_header_read env file).flags &&& G_IMG_FLAG_INDEXED ≠ 0 →
      env.malloc_palette = true)
    (hsig : file.take 4 = ebg_signature) :
    ∃ img sys, g_img_open env file = (some img, sys) ∧ img.current_frame = 1 ∧
      img.header = ebg_header_read env file := by
  rw [g_img_open_signed env file henv himg hsig]
  have hfd : ¬ env.fd < 0 := by omega
  have hread : (vfs_read { file := file, pos := 4, fd_open := true, live := [img_block_t.img] }
      env.fd (some env.header0) 8).buf
      = some (store_bytes env.header0 ((file.drop 4).take 8)) := by
    simp only [vfs_read, hfd, Bool.true_eq_false, or_self, if_false]
    rfl
  unfold g_img_open_frames
  simp only [hread, Option.getD_some]
  by_cases hidx : (ebg_header_read env file).flags &&& G_IMG_FLAG_INDEXED ≠ 0
  · have hp := hpal hidx
    unfold ebg_header_read at hidx
    simp only [hp, Bool.true_eq_false, and_false, if_false]
    split_ifs <;> exact ⟨_, _, rfl, rfl, rfl⟩
  · unfold ebg_header_read at hidx
    simp only [hidx, decide_False, Bool.false_eq_true, false_and, if_false]
    split_ifs <;> exact ⟨_, _, rfl, rfl, rfl⟩

/-- C16 (witness): the stream that ends right after the signature; the header read is the
stale content, its indexed flag is clear and the palette allocation is not asked for. -/
theorem g_img_open_no_length_check_witness :
    ∃ img sys, g_img_open noPaletteEnv [69, 66, 71, 1] = (some img, sys) ∧
      img.current_frame = 1 ∧ img.header = ebg_header_read noPaletteEnv [69, 66, 71, 1] :=
  g_img_open_no_length_check noPaletteEnv [69, 66, 71, 1] (by decide) rfl rfl (by decide) rfl

/-- C17: for every well-formed EBG stream with `frame_count > 1` and every `k ≥ 0`, when the
file opens and the allocations succeed, `g_img_open`, `k` calls of `g_img_load_next` and one
call of `g_img_load_first` leave the image with the header of the stream, `current_frame = 1`
and a bitmap buffer holding the `width * height` bytes of the stream from offset
`4 + 8 + palette bytes` on. -/
theorem g_img_load_first_restores (env : img_env_t) (file : List Nat) (k : Nat)
    (henv : 0 ≤ env.fd) (himg : env.malloc_img = true) (hpal : env.malloc_palette = true)
    (hbmp : env.malloc_bitmap = true) (hwf : ebg_wf file)
    (hfc : 1 < (ebg_header file).frame_count) :
    ∃ s, img_session env file (List.replicate k img_call_t.next ++ [img_call_t.first])
        = some s ∧
      s.1.current_frame = 1 ∧ s.1.header = ebg_header file ∧ HoldsFrame file s.1 1 ∧
      ebg_frame_offset (ebg_header file) 1 = 4 + 8 + ebg_palette_bytes (ebg_header file) := by
  obtain ⟨img, sys, ho, hh, hfd, _, hfile, hopen, _, b, hb, _⟩ :=
    g_img_open_frames_wf env file [img_block_t.img] henv hpal hbmp hwf (by omega)
  rw [← g_img_open_signed env file henv himg hwf.2.1] at ho
  obtain ⟨k1, k2, k3, k4, k5⟩ := g_img_load_next_iterate file env.fd (ebg_header file) k
    (img, sys) hh hfd hfile hopen (by rw [hb]; rfl)
  obtain ⟨r1, r2, r3⟩ := g_img_load_first_spec file _ _ hwf k1 (by rw [k2]; exact henv) k3 k4 k5
  refine ⟨g_img_load_first ((List.replicate k img_call_t.next).foldl img_call (img, sys)).1
      ((List.replicate k img_call_t.next).foldl img_call (img, sys)).2, ?_, r1, r2, r3, ?_⟩
  · unfold img_session
    rw [ho]
    show some (List.foldl img_call (img, sys)
      (List.replicate k img_call_t.next ++ [img_call_t.first])) = _
    rw [List.foldl_append]
    rfl
  · unfold ebg_frame_offset; ring

/-- C17 (witness): the two-frame sample stream, two `g_img_load_next` calls, then
`g_img_load_first`. -/
theorem g_img_load_first_restores_witness :
    ∃ s, img_session okEnv twoFrames (List.replicate 2 img_call_t.next ++ [img_call_t.first])
        = some s ∧
      s.1.current_frame = 1 ∧ s.1.header = ebg_header twoFrames ∧ HoldsFrame twoFrames s.1 1 ∧
      ebg_frame_offset (ebg_header twoFrames) 1
        = 4 + 8 + ebg_palette_bytes (ebg_header twoFrames) :=
  g_img_load_first_restores okEnv twoFrames 2 (by decide) rfl rfl rfl twoFrames_wf (by decide)

/-- C18 (code defect): `g_img_load_prev` reads the previous frame but leaves `current_frame`
as it is.  On the well-formed two-frame sample stream, `g_img_open`, `g_img_load_next`,
`g_img_load_prev` end with `current_frame = 2` and the bitmap byte `0xAA` of frame 1, where
frame 2 is the byte `0xBB`. -/
theorem g_img_load_prev_keeps_frame_number :
    ebg_wf twoFrames ∧
    (img_session okEnv twoFrames [img_call_t.next, img_call_t.prev]).map
      (fun s => s.1.current_frame) = some 2 ∧
    (img_session okEnv twoFrames [img_call_t.next, img_call_t.prev]).map
      (fun s => s.1.bitmap.map fun b => b 0) = some (some 170) ∧
    twoFrames.getD (ebg_frame_offset (ebg_header twoFrames) 1).toNat 0 = 170 ∧
    twoFrames.getD (ebg_frame_offset (ebg_header twoFrames) 2).toNat 0 = 187 :=
  ⟨twoFrames_wf, by decide, by decide, by decide, by decide⟩

/-- C19: for every window buffer, colour and thickness, `g_draw_line` between two points of
one column returns what `g_draw_vline(x0, min(y0,y1), |y1-y0|+1, color, thickness)` returns
(the same buffer, the same stores), and between two points of one row with `x0 ≠ x1` what
`g_draw_hline(min(x0,x1), y0, |x1-x0|+1, color, thickness)` returns; swapping the two
endpoints changes nothing.  The length argument is a `g_size_t`: it is the 16-bit value of
`|y1-y0|+1`, which is that number itself except for the full span 65536. -/
theorem g_draw_line_axis_aligned (fuel : Nat) (vdb : g_vdb_t) (x0 y0 x1 y1 : Int)
    (color : g_color_t) (thickness : Int) :
    g_draw_line fuel vdb x0 y0 x0 y1 color thickness
      = g_draw_vline fuel vdb x0 (min y0 y1) (wrapU16 (|y1 - y0| + 1)) color thickness ∧
    g_draw_line fuel vdb x0 y1 x0 y0 color thickness
      = g_draw_line fuel vdb x0 y0 x0 y1 color thickness ∧
    (|y1 - y0| + 1 ≤ 65535 → wrapU16 (|y1 - y0| + 1) = |y1 - y0| + 1) ∧
    (x0 ≠ x1 →
      g_draw_line fuel vdb x0 y0 x1 y0 color thickness
        = g_draw_hline fuel vdb (min x0 x1) y0 (wrapU16 (|x1 - x0| + 1)) color thickness ∧
      g_draw_line fuel vdb x1 y0 x0 y0 color thickness
        = g_draw_line fuel vdb x0 y0 x1 y0 color thickness ∧
      (|x1 - x0| + 1 ≤ 65535 → wrapU16 (|x1 - x0| + 1) = |x1 - x0| + 1)) := by
  have hv : ∀ a b : Int, g_draw_line fuel vdb x0 a x0 b color thickness
      = g_draw_vline fuel vdb x0 (min a b) (wrapU16 (|b - a| + 1)) color thickness := by
    intro a b
    unfold g_draw_line
    rw [if_pos rfl, min_self]
  have hh : ∀ a b : Int, a ≠ b → g_draw_line fuel vdb a y0 b y0 color thickness
      = g_draw_hline fuel vdb (min a b) y0 (wrapU16 (|b - a| + 1)) color thickness := by
    intro a b hab
    unfold g_draw_line
    rw [if_neg hab, if_pos rfl, min_self]
  refine ⟨hv y0 y1, ?_, ?_, fun hne => ⟨hh x0 x1 hne, ?_, ?_⟩⟩
  · rw [hv y1 y0, hv y0 y1, min_comm, abs_sub_comm]
  · intro h
    have := abs_nonneg (y1 - y0)
    unfold wrapU16; omega
  · rw [hh x1 x0 (Ne.symm hne), hh x0 x1 hne, min_comm, abs_sub_comm]
  · intro h
    have := abs_nonneg (x1 - x0)
    unfold wrapU16; omega

/-- C20 (code defect): the strip height is stored in a `g_coord_t`.  For capacity `40000` and
the one-pixel-wide region `{0,0,0,19}` the quotient `40000` becomes `-25536`, not
`min(40000, 20) = 20`; for capacity `38400` and the region `{0,-20000,1,20000}` the height
`40001` becomes `-25535`, which is the step taken, not `min(19200, 40001) = 19200`. -/
theorem g_refresh_region_step_not_min :
    g_refresh_region_step 40000 ⟨0, 0, 0, 19⟩ = -25536 ∧
    min ((40000 : Int) / (0 - 0 + 1)) (19 - 0 + 1) = 20 ∧
    g_refresh_region_step 38400 ⟨0, -20000, 1, 20000⟩ = -25535 ∧
    min ((38400 : Int) / (1 - 0 + 1)) (20000 - (-20000) + 1) = 19200 := by
  refine ⟨by decide, by decide, by decide, by decide⟩

/-- C21: for every window that is not empty, every start `(x, y)`, length `n` and colour, as
long as no 16-bit overflow occurs (the window width, resp. height, the offset of the start
from the window origin and the end coordinate of the segment fit `g_coord_t`),
`g_draw_hline(x, y, n, c, 1)` returns the buffer that the calls `g_draw_pixel(x + i, y, c)`,
`0 ≤ i < n`, leave, and `g_draw_vline(x, y, n, c, 1)` the buffer that the calls
`g_draw_pixel(x, y + i, c)` leave (same cells stored to, in the same order).  In that buffer
the window pixels of the segment read `c` and every other window pixel is unchanged. -/
theorem g_draw_line_fast_paths (fuel : Nat) (vdb : g_vdb_t) (x y n : Int) (c : g_color_t)
    (hw : vdb.region.wf)
    (hne : vdb.region.x0 ≤ vdb.region.x1 ∧ vdb.region.y0 ≤ vdb.region.y1) (hx : isI16 x)
    (hy : isI16 y) (hn : isU16 n) :
    (vdb.region.x1 - vdb.region.x0 + 1 ≤ 32767 → isI16 (x - vdb.region.x0) →
      x + n - 1 ≤ 32767 →
      g_draw_hline fuel vdb x y n c 1 = some (ESP_OK, hline_by_pixels vdb x y n c) ∧
      ∀ px py, vdb.region.contains px py →
        (hline_by_pixels vdb x y n c).pixel px py
          = if py = y ∧ x ≤ px ∧ px < x + n then c else vdb.pixel px py) ∧
    (vdb.region.y1 - vdb.region.y0 + 1 ≤ 32767 → isI16 (y - vdb.region.y0) →
      y + n - 1 ≤ 32767 →
      g_draw_vline fuel vdb x y n c 1 = some (ESP_OK, vline_by_pixels vdb x y n c) ∧
      ∀ px py, vdb.region.contains px py →
        (vline_by_pixels vdb x y n c).pixel px py
          = if px = x ∧ y ≤ py ∧ py < y + n then c else vdb.pixel px py) := by
  obtain ⟨m, rfl⟩ : ∃ m : Nat, n = (m : Int) := ⟨n.toNat, by unfold isU16 at hn; omega⟩
  refine ⟨fun hW hxr hxn => ⟨?_, fun px py hin => ?_⟩, fun hH hyr hyn => ⟨?_, fun px py hin => ?_⟩⟩
  · exact g_draw_hline_eq_pixels fuel vdb x y c hw hne.1 hW hx hxr m hxn
  · exact hline_by_pixels_pixel vdb x y m c hw hx hxn px py hin
  · exact g_draw_vline_eq_pixels fuel vdb x y c hw hne.2 hH hy hyr m hyn
  · exact vline_by_pixels_pixel vdb x y m c hw hy hyn px py hin

/-- C21 (witness): a segment of length 6 from `(2, 3)` in the window `{0,0,4,4}`. -/
theorem g_draw_line_fast_paths_witness :
    (g_draw_hline 0 (blank ⟨0, 0, 4, 4⟩) 2 3 6 7 1
        = some (ESP_OK, hline_by_pixels (blank ⟨0, 0, 4, 4⟩) 2 3 6 7) ∧
      ∀ px py, (blank ⟨0, 0, 4, 4⟩).region.contains px py →
        (hline_by_pixels (blank ⟨0, 0, 4, 4⟩) 2 3 6 7).pixel px py
          = if py = 3 ∧ 2 ≤ px ∧ px < 2 + 6 then 7 else (blank ⟨0, 0, 4, 4⟩).pixel px py) ∧
    (g_draw_vline 0 (blank ⟨0, 0, 4, 4⟩) 2 3 6 7 1
        = some (ESP_OK, vline_by_pixels (blank ⟨0, 0, 4, 4⟩) 2 3 6 7) ∧
      ∀ px py, (blank ⟨0, 0, 4, 4⟩).region.contains px py →
        (vline_by_pixels (blank ⟨0, 0, 4, 4⟩) 2 3 6 7).pixel px py
          = if px = 2 ∧ 3 ≤ py ∧ py < 3 + 6 then 7 else (blank ⟨0, 0, 4, 4⟩).pixel px py) :=
  ⟨(g_draw_line_fast_paths 0 (blank ⟨0, 0, 4, 4⟩) 2 3 6 7 (by decide) (by decide) (by decide)
      (by decide) (by decide)).1 (by decide) (by decide) (by decide),
    (g_draw_line_fast_paths 0 (blank ⟨0, 0, 4, 4⟩) 2 3 6 7 (by decide) (by decide) (by decide)
      (by decide) (by decide)).2 (by decide) (by decide) (by decide)⟩

/-- C22: for every `count` from 0 to 64 and every content of `nodes` (values of `g_coord_t`),
the sorting loop of `_draw_polygon_fill` ends (the fuel bound `131070 * count^2 + count` is
enough), leaves `nodes[0 .. count)` in ascending order and a rearrangement of what it was,
and changes no other entry; for `count ≤ 1` it changes nothing at all. -/
theorem polygon_sort_sorts (count : Int) (ns : polygon_nodes_t) (fuel : Nat)
    (hc0 : 0 ≤ count) (hc : count ≤ 64)
    (hv : ∀ k : Int, 0 ≤ k → k < count → isI16 (ns.nodes k))
    (hfuel : 131070 * count * count + count < (fuel : Int)) :
    ∃ ns1, polygon_sort count fuel 0 ns = some ns1 ∧
      (∀ a b : Int, 0 ≤ a → a ≤ b → b < count → ns1.nodes a ≤ ns1.nodes b) ∧
      (nodes_list ns1 count.toNat).Perm (nodes_list ns count.toNat) ∧
      (∀ k : Int, k < 0 ∨ count ≤ k → ns1.nodes k = ns.nodes k) ∧
      (count ≤ 1 → ns1 = ns) := by
  have hcc : 0 ≤ 131070 * count * count := mul_nonneg (by omega) hc0
  by_cases h1 : count ≤ 1
  · obtain ⟨f, rfl⟩ : ∃ f, fuel = f + 1 := ⟨fuel - 1, by omega⟩
    refine ⟨ns, ?_, fun a b ha hab hb => ?_, List.Perm.refl _, fun _ _ => rfl, fun _ => rfl⟩
    · unfold polygon_sort
      rw [if_neg (by omega)]
    · have : a = b := by omega
      rw [this]
  · obtain ⟨n, rfl⟩ : ∃ n : Nat, count = (n : Int) := ⟨count.toNat, by omega⟩
    have hv1 : ∀ k : Nat, k < n → isI16 (ns.nodes (k : Int)) :=
      fun k hk => hv k (by omega) (by omega)
    have hw := nodes_weight_le ns.nodes n hv1
    have e1 : 131070 * (n : Int) * (n : Int) = 2 * ((n : Int) * ((n : Int) * 65535)) := by ring
    obtain ⟨ns1, r1, r2, r3, r4⟩ := polygon_sort_run n (by omega) fuel 0 ns (by omega) hv1
      (fun a b hab hb => by
        have ha : a = b := by omega
        rw [ha])
      (by rw [e1] at hfuel; push_cast; omega)
    refine ⟨ns1, r1, fun a b ha hab hb => ?_, ?_, r4, fun h => absurd h h1⟩
    · have := r2 a.toNat b.toNat (by omega) (by omega)
      rw [Int.toNat_of_nonneg ha, Int.toNat_of_nonneg (by omega)] at this
      exact this
    · simpa using r3

/-- C22 (witness): the three entries `5, 3, 4`. -/
theorem polygon_sort_sorts_witness :
    ∃ ns1, polygon_sort 3 1179634 0
        ⟨fun i => if i = 0 then 5 else if i = 1 then 3 else 4, []⟩ = some ns1 ∧
      (∀ a b : Int, 0 ≤ a → a ≤ b → b < 3 → ns1.nodes a ≤ ns1.nodes b) ∧
      (nodes_list ns1 (3 : Int).toNat).Perm
        (nodes_list ⟨fun i => if i = 0 then 5 else if i = 1 then 3 else 4, []⟩
          (3 : Int).toNat) ∧
      (∀ k : Int, k < 0 ∨ 3 ≤ k → ns1.nodes k
        = (⟨fun i => if i = 0 then 5 else if i = 1 then 3 else 4, []⟩ : polygon_nodes_t).nodes
            k) ∧
      ((3 : Int) ≤ 1 → ns1 = ⟨fun i => if i = 0 then 5 else if i = 1 then 3 else 4, []⟩) :=
  polygon_sort_sorts 3 ⟨fun i => if i = 0 then 5 else if i = 1 then 3 else 4, []⟩ 1179634
    (by decide) (by decide)
    (fun k _ _ => by simp only []; split_ifs <;> decide) (by decide)

/-- C23 (counterexample): from `(0, 0)` to `(-32768, 1)` both coordinate differences
(`-32768` and `1`) fit a signed 16-bit integer, yet `g_draw_line` never returns: `dx` is
stored as `-32768` and the column never advances. -/
theorem g_draw_line_full_span_diverges :
    isI16 (-32768 - 0) ∧ isI16 (1 - 0) ∧ (0 : Int) ≠ -32768 ∧ (0 : Int) ≠ 1 ∧
    ∀ fuel, g_draw_line fuel (blank ⟨0, 0, 9, 9⟩) 0 0 (-32768) 1 7 1 = none := by
  refine ⟨by decide, by decide, by decide, by decide, fun fuel => ?_⟩
  unfold g_draw_line
  rw [if_neg (by decide), if_neg (by decide)]
  have e1 : wrapI16 |(-32768 : Int) - 0| = -32768 := by decide
  have e2 : wrapI16 |(1 : Int) - 0| = 1 := by decide
  simp only [e1, e2]
  have e3 : wrapI16 (Int.tdiv (if (-32768 : Int) > 1 then -32768 else -1) 2) = 0 := by decide
  have e4 : (if (0 : Int) < -32768 then (1 : Int) else -1) = -1 := by decide
  have e5 : (if (0 : Int) < 1 then (1 : Int) else -1) = 1 := by decide
  rw [e3, e4, e5, g_draw_line_loop_stuck 1 7 fuel 0 0 _ (by decide)]
  rfl

/-- C23 (amended): for endpoints (values of `g_coord_t`) with `x0 ≠ x1`, `y0 ≠ y1` and both coordinate
differences at most 32767 in absolute value, `g_draw_line` returns as soon as the fuel exceeds
`max(|x1-x0|, |y1-y0|)`.  Its loop calls `g_draw_pixel` exactly `max(|x1-x0|, |y1-y0|) + 1`
times, first at `(x0, y0)`, last at `(x1, y1)`, consecutive points differing by at most 1 in
each coordinate; the buffer returned is the result of these calls. -/
theorem g_draw_line_bresenham (fuel : Nat) (vdb : g_vdb_t) (x0 y0 x1 y1 : Int)
    (color : g_color_t) (thickness : Int) (hx0 : isI16 x0) (hy0 : isI16 y0) (hx1 : isI16 x1)
    (hy1 : isI16 y1) (hx : x0 ≠ x1) (hy : y0 ≠ y1) (hdx : |x1 - x0| ≤ 32767)
    (hdy : |y1 - y0| ≤ 32767) (hfuel : max |x1 - x0| |y1 - y0| < (fuel : Int)) :
    ∃ pts, g_draw_line_calls fuel x0 y0 x1 y1 = some pts ∧
      g_draw_line fuel vdb x0 y0 x1 y1 color thickness
        = some (ESP_OK, draw_pixels vdb pts color) ∧
      (pts.length : Int) = max |x1 - x0| |y1 - y0| + 1 ∧
      pts.head? = some (x0, y0) ∧ pts.getLast? = some (x1, y1) ∧ pts.Chain' adjacent := by
  have hcalls : g_draw_line_calls fuel x0 y0 x1 y1
      = g_draw_line_points x1 y1 (wrapI16 |x1 - x0|) (if x0 < x1 then 1 else -1)
          (wrapI16 |y1 - y0|) (if y0 < y1 then 1 else -1) fuel x0 y0
          (wrapI16 (Int.tdiv (if wrapI16 |x1 - x0| > wrapI16 |y1 - y0| then wrapI16 |x1 - x0|
            else -wrapI16 |y1 - y0|) 2)) := rfl
  rw [g_draw_line_eq_calls fuel vdb x0 y0 x1 y1 color thickness hx hy, hcalls]
  have hsx : x1 - x0 = |x1 - x0| * (if x0 < x1 then 1 else -1) := by
    rcases abs_cases (x1 - x0) with ⟨h, h0⟩ | ⟨h, h0⟩
    · rw [h, if_pos (by omega)]; ring
    · rw [h, if_neg (by omega)]; ring
  have hsy : y1 - y0 = |y1 - y0| * (if y0 < y1 then 1 else -1) := by
    rcases abs_cases (y1 - y0) with ⟨h, h0⟩ | ⟨h, h0⟩
    · rw [h, if_pos (by omega)]; ring
    · rw [h, if_neg (by omega)]; ring
  have hdx0 : 0 < |x1 - x0| := abs_pos.2 (by omega)
  have hdy0 : 0 < |y1 - y0| := abs_pos.2 (by omega)
  have hsx1 : (if x0 < x1 then (1 : Int) else -1) = 1 ∨
      (if x0 < x1 then (1 : Int) else -1) = -1 := by
    split_ifs <;> simp
  have hsy1 : (if y0 < y1 then (1 : Int) else -1) = 1 ∨
      (if y0 < y1 then (1 : Int) else -1) = -1 := by
    split_ifs <;> simp
  generalize |x1 - x0| = dx at *
  generalize |y1 - y0| = dy at *
  generalize (if x0 < x1 then (1 : Int) else -1) = sx at *
  generalize (if y0 < y1 then (1 : Int) else -1) = sy at *
  have ewx : wrapI16 dx = dx := wrapI16_eq (by unfold isI16; omega)
  have ewy : wrapI16 dy = dy := wrapI16_eq (by unfold isI16; omega)
  rw [ewx, ewy]
  have key : ∃ pts, g_draw_line_points x1 y1 dx sx dy sy fuel x0 y0
        (wrapI16 (Int.tdiv (if dx > dy then dx else -dy) 2)) = some pts ∧
      (pts.length : Int) = max dx dy + 1 ∧
      pts.head? = some (x0, y0) ∧ pts.getLast? = some (x1, y1) ∧ pts.Chain' adjacent := by
    have hcomm : dx * dy = dy * dx := mul_comm _ _
    by_cases hmaj : dx > dy
    · have he : wrapI16 (Int.tdiv (if dx > dy then dx else -dy) 2) = dx / 2 := by
        rw [if_pos hmaj, tdiv_two, if_pos (by omega)]
        apply wrapI16_eq; unfold isI16; omega
      have hr : ((dx.toNat : Nat) : Int) = dx := by omega
      obtain ⟨pts, h1, h2, h3, h4, h5⟩ :=
        g_draw_line_points_xmajor x1 y1 dx sx dy sy hx1 hy1 hsx1 hsy1 (by omega) hmaj hdx
          dx.toNat fuel x0 y0 (dx / 2) dy
          (by rw [max_eq_left (by omega)] at hfuel; omega) hx0 hy0
          (by rw [hr]; exact hsx) hsy (by omega) (by omega) (by omega)
          (by rw [hr]; omega) (by rw [hr]; omega)
      rw [he]
      refine ⟨pts, h1, ?_, h3, h4, h5⟩
      rw [h2, max_eq_left (by omega)]; push_cast; omega
    · have he : wrapI16 (Int.tdiv (if dx > dy then dx else -dy) 2) = -(dy / 2) := by
        rw [if_neg hmaj, tdiv_two, if_neg (by omega), neg_neg]
        apply wrapI16_eq; unfold isI16; omega
      have hr : ((dy.toNat : Nat) : Int) = dy := by omega
      obtain ⟨pts, h1, h2, h3, h4, h5⟩ :=
        g_draw_line_points_ymajor x1 y1 dx sx dy sy hx1 hy1 hsx1 hsy1 (by omega) (by omega)
          hdy0 hdy dy.toNat fuel x0 y0 (-(dy / 2)) dx
          (by rw [max_eq_right (by omega)] at hfuel; omega) hx0 hy0
          (by rw [hr]; exact hsy) hsx (by omega) (by omega) (by omega)
          (by rw [hr]; omega) (by rw [hr]; omega)
      rw [he]
      refine ⟨pts, h1, ?_, h3, h4, h5⟩
      rw [h2, max_eq_right (by omega)]; push_cast; omega
  obtain ⟨pts, h1, h2, h3, h4, h5⟩ := key
  exact ⟨pts, h1, by rw [h1]; rfl, h2, h3, h4, h5⟩

/-- C23 (witness): the line from `(0, 0)` to `(5, 2)`. -/
theorem g_draw_line_bresenham_witness :
    ∃ pts, g_draw_line_calls 6 0 0 5 2 = some pts ∧
      g_draw_line 6 (blank ⟨0, 0, 9, 9⟩) 0 0 5 2 7 1
        = some (ESP_OK, draw_pixels (blank ⟨0, 0, 9, 9⟩) pts 7) ∧
      (pts.length : Int) = max |(5 : Int) - 0| |(2 : Int) - 0| + 1 ∧
      pts.head? = some (0, 0) ∧ pts.getLast? = some (5, 2) ∧ pts.Chain' adjacent :=
  g_draw_line_bresenham 6 (blank ⟨0, 0, 9, 9⟩) 0 0 5 2 7 1 (by decide) (by decide) (by decide)
    (by decide) (by decide) (by decide) (by decide) (by decide) (by decide)

/-- C25: for every window of width and height from 1 to 32767 the primitives store only to
buffer indices in `[0, width * height)`: `g_draw_pixel` for every argument; `g_draw_hline` and
`g_draw_vline` with thickness 1 when the offset of the start from the window origin and the
end coordinate of the segment fit `g_coord_t`; `g_draw_rect` with `G_FILLED` when the offsets
of the rectangle corners from the window origin fit `g_coord_t` (it then returns as soon as
the fuel exceeds the window width and height). -/
theorem primitives_write_within (fuel : Nat) (vdb : g_vdb_t) (color : g_color_t)
    (hw : vdb.region.wf)
    (hne : vdb.region.x0 ≤ vdb.region.x1 ∧ vdb.region.y0 ≤ vdb.region.y1)
    (hW : vdb.region.x1 - vdb.region.x0 + 1 ≤ 32767)
    (hH : vdb.region.y1 - vdb.region.y0 + 1 ≤ 32767) :
    (∀ x y, WritesWithin ((vdb.region.x1 - vdb.region.x0 + 1)
        * (vdb.region.y1 - vdb.region.y0 + 1)) vdb (g_draw_pixel vdb x y color).2) ∧
    (∀ x y n, isI16 x → isU16 n → isI16 (x - vdb.region.x0) → x + n - 1 ≤ 32767 →
      ∃ v1, g_draw_hline fuel vdb x y n color 1 = some (ESP_OK, v1) ∧
        WritesWithin ((vdb.region.x1 - vdb.region.x0 + 1)
          * (vdb.region.y1 - vdb.region.y0 + 1)) vdb v1) ∧
    (∀ x y n, isI16 y → isU16 n → isI16 (y - vdb.region.y0) → y + n - 1 ≤ 32767 →
      ∃ v1, g_draw_vline fuel vdb x y n color 1 = some (ESP_OK, v1) ∧
        WritesWithin ((vdb.region.x1 - vdb.region.x0 + 1)
          * (vdb.region.y1 - vdb.region.y0 + 1)) vdb v1) ∧
    (∀ region : g_region_t,
      isI16 (region.x0 - vdb.region.x0) → isI16 (region.y0 - vdb.region.y0) →
      isI16 (region.x1 - vdb.region.x0) → isI16 (region.y1 - vdb.region.y0) →
      vdb.region.x1 - vdb.region.x0 + 1 < (fuel : Int) →
      vdb.region.y1 - vdb.region.y0 + 1 < (fuel : Int) →
      ∃ v1, g_draw_rect fuel vdb region color G_FILLED = some (ESP_OK, v1) ∧
        WritesWithin ((vdb.region.x1 - vdb.region.x0 + 1)
          * (vdb.region.y1 - vdb.region.y0 + 1)) vdb v1) := by
  refine ⟨fun x y => g_draw_pixel_within vdb x y color hw, ?_, ?_, ?_⟩
  · intro x y n hx hn hxr hxn
    obtain ⟨m, rfl⟩ : ∃ m : Nat, n = (m : Int) := ⟨n.toNat, by unfold isU16 at hn; omega⟩
    refine ⟨_, g_draw_hline_eq_pixels fuel vdb x y color hw hne.1 hW hx hxr m hxn, ?_⟩
    exact pixels_within vdb (fun i => wrapI16 (x + i)) (fun _ => y) m color hw
  · intro x y n hy hn hyr hyn
    obtain ⟨m, rfl⟩ : ∃ m : Nat, n = (m : Int) := ⟨n.toNat, by unfold isU16 at hn; omega⟩
    refine ⟨_, g_draw_vline_eq_pixels fuel vdb x y color hw hne.2 hH hy hyr m hyn, ?_⟩
    exact pixels_within vdb (fun _ => x) (fun i => wrapI16 (y + i)) m color hw
  · intro region hx0 hy0 hx1 hy1 hf1 hf2
    exact g_draw_rect_filled_within fuel vdb region color hw hne hW hH hx0 hy0 hx1 hy1
      ⟨hf1, hf2⟩

/-- C25 (witness): in the window `{0,0,9,9}` with fuel 20, a pixel at `(3, 4)`, segments of
length 30 from `(-5, 2)` and from `(2, -5)`, and the rectangle `{-3,-3,20,5}`. -/
theorem primitives_write_within_witness :
    WritesWithin (((blank ⟨0, 0, 9, 9⟩).region.x1 - (blank ⟨0, 0, 9, 9⟩).region.x0 + 1)
        * ((blank ⟨0, 0, 9, 9⟩).region.y1 - (blank ⟨0, 0, 9, 9⟩).region.y0 + 1))
      (blank ⟨0, 0, 9, 9⟩) (g_draw_pixel (blank ⟨0, 0, 9, 9⟩) 3 4 7).2 ∧
    (∃ v1, g_draw_hline 20 (blank ⟨0, 0, 9, 9⟩) (-5) 2 30 7 1 = some (ESP_OK, v1) ∧
      WritesWithin (((blank ⟨0, 0, 9, 9⟩).region.x1 - (blank ⟨0, 0, 9, 9⟩).region.x0 + 1)
        * ((blank ⟨0, 0, 9, 9⟩).region.y1 - (blank ⟨0, 0, 9, 9⟩).region.y0 + 1))
        (blank ⟨0, 0, 9, 9⟩) v1) ∧
    (∃ v1, g_draw_vline 20 (blank ⟨0, 0, 9, 9⟩) 2 (-5) 30 7 1 = some (ESP_OK, v1) ∧
      WritesWithin (((blank ⟨0, 0, 9, 9⟩).region.x1 - (blank ⟨0, 0, 9, 9⟩).region.x0 + 1)
        * ((blank ⟨0, 0, 9, 9⟩).region.y1 - (blank ⟨0, 0, 9, 9⟩).region.y0 + 1))
        (blank ⟨0, 0, 9, 9⟩) v1) ∧
    (∃ v1, g_draw_rect 20 (blank ⟨0, 0, 9, 9⟩) ⟨-3, -3, 20, 5⟩ 7 G_FILLED = some (ESP_OK, v1) ∧
      WritesWithin (((blank ⟨0, 0, 9, 9⟩).region.x1 - (blank ⟨0, 0, 9, 9⟩).region.x0 + 1)
        * ((blank ⟨0, 0, 9, 9⟩).region.y1 - (blank ⟨0, 0, 9, 9⟩).region.y0 + 1))
        (blank ⟨0, 0, 9, 9⟩) v1) :=
  ⟨(primitives_write_within 20 (blank ⟨0, 0, 9, 9⟩) 7 (by decide) (by decide) (by decide)
      (by decide)).1 3 4,
    (primitives_write_within 20 (blank ⟨0, 0, 9, 9⟩) 7 (by decide) (by decide) (by decide)
      (by decide)).2.1 (-5) 2 30 (by decide) (by decide) (by decide) (by decide),
    (primitives_write_within 20 (blank ⟨0, 0, 9, 9⟩) 7 (by decide) (by decide) (by decide)
      (by decide)).2.2.1 2 (-5) 30 (by decide) (by decide) (by decide) (by decide),
    (primitives_write_within 20 (blank ⟨0, 0, 9, 9⟩) 7 (by decide) (by decide) (by decide)
      (by decide)).2.2.2 ⟨-3, -3, 20, 5⟩ (by decide) (by decide) (by decide) (by decide)
      (by decide) (by decide)⟩

end Graphics
